import Mathlib

/-!
# cidr-viewer: address-space analysis engine

A shallow embedding of `utils/cidr.go` (with `models/models.go`) and of the
parts of the Go standard library it calls (`net.ParseCIDR`, `net.IP`,
`net.IPMask`, `net.IPNet`, `sort.Slice`, `fmt.Sprintf`), followed by theorems
about the embedded functions.

Conventions.
* A Go `string` is a Lean `String`; parsers walk its list of characters.  The
  Go parsers walk bytes; every byte they accept is ASCII and a non-ASCII
  character is rejected at the same place its first byte would be.
* `uint32` values are `Nat` reduced `% 2 ^ 32` where the Go operation can wrap;
  `byte` values are `Nat` below 256; Go `int` is the 64-bit `int`, an `Int`
  wrapped by `wrapInt64` where the operation can overflow.
* `net.IP` and `net.IPMask` are lists of bytes.
-/

namespace CidrViewer

/-! ## models/models.go -/

/-- Go `models.CIDRRange`. -/
structure CIDRRange where
  Original : String
  Network : String
  Mask : String
  Broadcast : String
  TotalIPs : Int
  UsableIPs : Int
  Valid : Bool
  Category : String
  ErrorMsg : String
  deriving DecidableEq, Repr

/-- Go `models.Gap`. -/
structure Gap where
  StartIP : String
  EndIP : String
  Size : Int
  SuggestedCIDR : String
  deriving DecidableEq, Repr

/-- Go `models.Overlap`. -/
structure Overlap where
  CIDR1 : String
  CIDR2 : String
  Intersection : String
  Type_ : String
  deriving DecidableEq, Repr

/-! ## Go standard library: integers and bytes -/

/-- Two's-complement wrap of a mathematical integer into Go's 64-bit `int`. -/
def wrapInt64 (x : Int) : Int := (x + 2 ^ 63) % 2 ^ 64 - 2 ^ 63

/-- Go `^b` on a `byte`. -/
def notByte (b : Nat) : Nat := 255 ^^^ b

/-- ASCII decimal digit test, `'0' <= c && c <= '9'`. -/
def isDigit (c : Char) : Bool := 48 ≤ c.toNat && c.toNat ≤ 57

/-- Value of an ASCII decimal digit, `c - '0'`. -/
def digitVal (c : Char) : Nat := c.toNat - 48

/-- The character of a decimal digit, `v + '0'`. -/
def digitChar (v : Nat) : Char := Char.ofNat (48 + v)

/-! ## Go standard library: `net.dtoi` -/

/-- Go `net.big`. -/
def big : Nat := 0xFFFFFF

/-- The loop of Go `net.dtoi`, at index `i` with accumulator `n`; the result
is `(n, i, ok)`. -/
def dtoiLoop : List Char → Nat → Nat → Nat × Nat × Bool
  | [], n, i => if i = 0 then (0, 0, false) else (n, i, true)
  | c :: cs, n, i =>
    if isDigit c then
      if n * 10 + digitVal c ≥ big then (big, i, false)
      else dtoiLoop cs (n * 10 + digitVal c) (i + 1)
    else if i = 0 then (0, 0, false) else (n, i, true)

/-- Go `net.dtoi`: decimal to integer; `(n, i, ok)` with `i` the number of
characters consumed. -/
def dtoi (s : List Char) : Nat × Nat × Bool := dtoiLoop s 0 0

/-! ## Go standard library: `netip.ParseAddr` -/

/-- The loop of Go `netip.parseIPv4Fields` at index `i`; `prev` is `s[i-1]`
(unused when `i = 0`).  `none` is an error return. -/
def parseIPv4FieldsLoop :
    List Char → Nat → Char → Nat → Nat → Nat → List Nat → Option (List Nat)
  | [], _, _, val, pos, _, fields =>
    if pos < 3 then none else some (fields.set 3 val)
  | c :: cs, i, prev, val, pos, digLen, fields =>
    if isDigit c then
      if digLen = 1 ∧ val = 0 then none
      else if val * 10 + digitVal c > 255 then none
      else parseIPv4FieldsLoop cs (i + 1) c (val * 10 + digitVal c) pos (digLen + 1) fields
    else if c = '.' then
      if i = 0 ∨ cs = [] ∨ prev = '.' then none
      else if pos = 3 then none
      else parseIPv4FieldsLoop cs (i + 1) c 0 (pos + 1) 0 (fields.set pos val)
    else none

/-- Go `netip.parseIPv4Fields` on the whole of `s`, writing into `fields`
(four bytes). -/
def parseIPv4Fields (s : List Char) (fields : List Nat) : Option (List Nat) :=
  parseIPv4FieldsLoop s 0 '.' 0 0 0 fields

/-- Go `netip.parseIPv4`: the four bytes of the address. -/
def parseIPv4 (s : List Char) : Option (List Nat) :=
  parseIPv4Fields s [0, 0, 0, 0]

/-- Value of a hexadecimal digit, or `none` when `c` is not one. -/
def hexVal (c : Char) : Option Nat :=
  if 48 ≤ c.toNat ∧ c.toNat ≤ 57 then some (c.toNat - 48)
  else if 97 ≤ c.toNat ∧ c.toNat ≤ 102 then some (c.toNat - 97 + 10)
  else if 65 ≤ c.toNat ∧ c.toNat ≤ 70 then some (c.toNat - 65 + 10)
  else none

/-- The inner loop of Go `netip.parseIPv6` that reads one hexadecimal group:
`some (acc, off, rest)` when it stops at a non-digit or the end, `none` on the
errors "more than 4 digits" and "value >= 2^16". -/
def scanHex : List Char → Nat → Nat → Option (Nat × Nat × List Char)
  | [], off, acc => some (acc, off, [])
  | c :: cs, off, acc =>
    match hexVal c with
    | none => some (acc, off, c :: cs)
    | some d =>
      if off > 3 then none
      else if acc * 16 + d > 65535 then none
      else scanHex cs (off + 1) (acc * 16 + d)

/-- State of the main loop of Go `netip.parseIPv6` when it is left: the bytes,
the index `i`, the position of the ellipsis and the unread rest. -/
structure V6State where
  ip : List Nat
  i : Nat
  ellipsis : Option Nat
  rest : List Char

/-- The main loop `for i < 16` of Go `netip.parseIPv6`.  `groups` is the number
of 16-bit groups still free, so that `i = 16 - 2 * groups` and the loop
condition `i < 16` is `groups ≠ 0`. -/
def parseIPv6Loop : Nat → List Char → List Nat → Option Nat → Option V6State
  | 0, s, ip, ellipsis => some ⟨ip, 16, ellipsis, s⟩
  | groups + 1, s, ip, ellipsis =>
    let i := 16 - 2 * (groups + 1)
    match scanHex s 0 0 with
    | none => none
    | some (acc, off, rest) =>
      if off = 0 then none
      else if rest.head? = some '.' then
        -- trailing embedded IPv4
        if ellipsis = none ∧ i ≠ 12 then none
        else if i + 4 > 16 then none
        else
          match parseIPv4Fields s ((ip.drop i).take 4) with
          | none => none
          | some f => some ⟨ip.take i ++ f ++ ip.drop (i + 4), i + 4, ellipsis, []⟩
      else
        let ip1 := (ip.set i (acc / 256 % 256)).set (i + 1) (acc % 256)
        match rest with
        | [] => some ⟨ip1, i + 2, ellipsis, []⟩
        | c :: r1 =>
          if c ≠ ':' then none
          else
            match r1 with
            | [] => none
            | c1 :: r2 =>
              if c1 = ':' then
                if ellipsis ≠ none then none
                else
                  match r2 with
                  | [] => some ⟨ip1, i + 2, some (i + 2), []⟩
                  | _ :: _ => parseIPv6Loop groups r2 ip1 (some (i + 2))
              else parseIPv6Loop groups r1 ip1 ellipsis

/-- Splits at the first `sep`: the part before it and, when `sep` occurs, the
part after it (`strings.IndexByte` with the two slices). -/
def splitAt1 (sep : Char) : List Char → List Char × Option (List Char)
  | [] => ([], none)
  | c :: cs =>
    if c = sep then ([], some cs)
    else ((splitAt1 sep cs).1.cons c, (splitAt1 sep cs).2)

/-- Whether the text starts with `::`, the leading ellipsis of Go
`netip.parseIPv6`. -/
def hasLeadingEllipsis : List Char → Bool
  | ':' :: ':' :: _ => true
  | _ => false

/-- The part of Go `netip.parseIPv6` that follows the split of the zone and
the removal of a leading `::`: `lead` tells whether there was one, `s` is the
text after it. -/
def parseIPv6Groups (lead : Bool) (s : List Char) : Option (List Nat) :=
  if lead = true ∧ s = [] then some (List.replicate 16 0)
  else
    match parseIPv6Loop 8 s (List.replicate 16 0) (if lead then some 0 else none) with
    | none => none
    | some st =>
      if st.rest ≠ [] then none
      else if st.i < 16 then
        match st.ellipsis with
        | none => none
        | some e =>
          some (st.ip.take e ++ List.replicate (16 - st.i) 0 ++ (st.ip.take st.i).drop e)
      else if st.ellipsis ≠ none then none
      else some st.ip

/-- Go `netip.parseIPv6`: the sixteen bytes and the zone.  A `%` with nothing
after it is the error "zone must be a non-empty string". -/
def parseIPv6 (input : List Char) : Option (List Nat × List Char) :=
  match (splitAt1 '%' input).2 with
  | some [] => none
  | zone =>
    (parseIPv6Groups (hasLeadingEllipsis (splitAt1 '%' input).1)
      (if hasLeadingEllipsis (splitAt1 '%' input).1 then (splitAt1 '%' input).1.drop 2
       else (splitAt1 '%' input).1)).map (fun ip => (ip, zone.getD []))

/-- Go `netip.Addr` as far as `net.ParseCIDR` looks at it: the address in its
16-byte form (`As16`), whether it is an IPv4 address (`Is4`), and the zone. -/
structure Addr where
  addr16 : List Nat
  is4 : Bool
  zone : List Char

/-- The 12-byte prefix of an IPv4-mapped IPv6 address, Go `v4InV6Prefix`. -/
def v4InV6Prefix : List Nat := [0, 0, 0, 0, 0, 0, 0, 0, 0, 0, 0xff, 0xff]

/-- The scan of Go `netip.ParseAddr` for the first of `.`, `:` and `%`, which
selects the parser; `s` is the whole string and the first argument what is left
to scan. -/
def parseAddrScan : List Char → List Char → Option Addr
  | [], _ => none
  | c :: cs, s =>
    if c = '.' then (parseIPv4 s).map (fun f => ⟨v4InV6Prefix ++ f, true, []⟩)
    else if c = ':' then (parseIPv6 s).map (fun r => ⟨r.1, false, r.2⟩)
    else if c = '%' then none
    else parseAddrScan cs s

/-- Go `netip.ParseAddr`. -/
def ParseAddr (s : List Char) : Option Addr := parseAddrScan s s

/-! ## Go standard library: `net.IP`, `net.IPMask`, `net.IPNet` -/

/-- The loop of Go `net.CIDRMask` over the `l` bytes of the mask, `n` being the
number of one bits still to place. -/
def cidrMaskLoop : Nat → Nat → List Nat
  | 0, _ => []
  | l + 1, n =>
    if n ≥ 8 then 0xff :: cidrMaskLoop l (n - 8)
    else notByte (0xff >>> n) :: cidrMaskLoop l 0

/-- Go `net.CIDRMask(ones, bits)`; `none` is the `nil` mask. -/
def CIDRMask (ones bits : Nat) : Option (List Nat) :=
  if bits ≠ 32 ∧ bits ≠ 128 then none
  else if ones > bits then none
  else some (cidrMaskLoop (bits / 8) ones)

/-- Go `net.IP.To4`; `none` is `nil`. -/
def To4 (ip : List Nat) : Option (List Nat) :=
  if ip.length = 4 then some ip
  else if ip.length = 16 ∧ (ip.take 10).all (fun b => b == 0) ∧
      ip.getD 10 0 = 0xff ∧ ip.getD 11 0 = 0xff then some (ip.drop 12)
  else none

/-- Go `net.allFF`. -/
def allFF (b : List Nat) : Bool := b.all (fun c => c == 0xff)

/-- Go `net.IP.Mask`; `none` is `nil`. -/
def IPMaskApply (ip mask : List Nat) : Option (List Nat) :=
  let mask1 := if mask.length = 16 ∧ ip.length = 4 ∧ allFF (mask.take 12) then mask.drop 12 else mask
  let ip1 := if mask1.length = 4 ∧ ip.length = 16 ∧ ip.take 12 = v4InV6Prefix then ip.drop 12 else ip
  if ip1.length ≠ mask1.length then none
  else some (List.zipWith (fun a b => a &&& b) ip1 mask1)

/-- Go `net.IPNet`. -/
structure IPNet where
  IP : List Nat
  Mask : List Nat
  deriving DecidableEq, Repr

/-- The loop `for v&0x80 != 0 { n++; v <<= 1 }` of Go `net.simpleMaskLength` on
a byte `v`: the count of leading one bits and what is left of `v`.  A byte has
eight bits, so eight rounds end the loop. -/
def leadingOnes : Nat → Nat → Nat → Nat × Nat
  | 0, n, v => (n, v)
  | k + 1, n, v =>
    if v &&& 0x80 ≠ 0 then leadingOnes k (n + 1) ((v <<< 1) % 256) else (n, v)

/-- Go `net.simpleMaskLength`; `none` is the result `-1`. -/
def simpleMaskLength : List Nat → Nat → Option Nat
  | [], n => some n
  | v :: rest, n =>
    if v = 0xff then simpleMaskLength rest (n + 8)
    else
      let r := leadingOnes 8 n v
      if r.2 ≠ 0 then none
      else if rest.all (fun b => b == 0) then some r.1 else none

/-- Go `net.IPMask.Size`: `(ones, bits)`, and `(0, 0)` for a mask that is not
in canonical form. -/
def MaskSize (m : List Nat) : Nat × Nat :=
  match simpleMaskLength m 0 with
  | none => (0, 0)
  | some ones => (ones, m.length * 8)

/-- Go `net.networkNumberAndMask`; `none` is `(nil, nil)`. -/
def networkNumberAndMask (n : IPNet) : Option (List Nat × List Nat) :=
  match (match To4 n.IP with
         | some ip => some ip
         | none => if n.IP.length ≠ 16 then none else some n.IP) with
  | none => none
  | some ip =>
    if n.Mask.length = 4 then
      if ip.length ≠ 4 then none else some (ip, n.Mask)
    else if n.Mask.length = 16 then
      if ip.length = 4 then some (ip, n.Mask.drop 12) else some (ip, n.Mask)
    else none

/-- The comparison loop of Go `net.IPNet.Contains` over three slices of one
length. -/
def containsLoop : List Nat → List Nat → List Nat → Bool
  | nn :: nns, m :: ms, ip :: ips =>
    if nn &&& m ≠ ip &&& m then false else containsLoop nns ms ips
  | _, _, _ => true

/-- Go `net.IPNet.Contains`. -/
def Contains (n : IPNet) (ip : List Nat) : Bool :=
  match networkNumberAndMask n with
  | none =>
    -- `nn` is nil: only an empty `ip` has its length
    let ip1 := (To4 ip).getD ip
    ip1.length == 0
  | some (nn, m) =>
    let ip1 := (To4 ip).getD ip
    if ip1.length ≠ nn.length then false else containsLoop nn m ip1

/-! ## Go standard library: `net.IP.String` -/

/-- Go `netip.ubtoa` (via `appendDecimal`): a byte in decimal, no leading
zero. -/
def ubtoa (v : Nat) : List Char :=
  if v < 10 then [digitChar v]
  else if v < 100 then [digitChar (v / 10), digitChar (v % 10)]
  else [digitChar (v / 100), digitChar (v / 10 % 10), digitChar (v % 10)]

/-- Go `netip.Addr.string4`: dotted quad of four bytes. -/
def string4 (b : List Nat) : List Char :=
  ubtoa (b.getD 0 0) ++ '.' :: ubtoa (b.getD 1 0) ++ '.' :: ubtoa (b.getD 2 0) ++
    '.' :: ubtoa (b.getD 3 0)

/-- The table `"0123456789abcdef"` of Go `netip`. -/
def hexDigit (v : Nat) : Char :=
  if v < 10 then Char.ofNat (48 + v) else Char.ofNat (97 + (v - 10))

/-- Go `netip.appendHex`: a 16-bit value in hexadecimal, no leading zero. -/
def appendHex (x : Nat) : List Char :=
  (if x ≥ 0x1000 then [hexDigit (x >>> 12)] else []) ++
  (if x ≥ 0x100 then [hexDigit (x >>> 8 &&& 0xf)] else []) ++
  (if x ≥ 0x10 then [hexDigit (x >>> 4 &&& 0xf)] else []) ++
  [hexDigit (x &&& 0xf)]

/-- Go `netip.Addr.v6u16`: the `i`-th 16-bit group of sixteen bytes. -/
def v6u16 (ip : List Nat) (i : Nat) : Nat := ip.getD (2 * i) 0 * 256 + ip.getD (2 * i + 1) 0

/-- The inner loop `for j < 8 && ip.v6u16(j) == 0 { j++ }` of Go
`netip.Addr.appendTo6`, with `k` rounds left (`j + k = 8`). -/
def zeroRunEnd (ip : List Nat) : Nat → Nat → Nat
  | 0, j => j
  | k + 1, j => if v6u16 ip j = 0 then zeroRunEnd ip k (j + 1) else j

/-- The first loop of Go `netip.Addr.appendTo6`: the longest run of at least
two zero groups, as `(zeroStart, zeroEnd)`, `(255, 255)` when there is none. -/
def longestZeroRun (ip : List Nat) : Nat × Nat :=
  (List.range 8).foldl (fun z i =>
    let j := zeroRunEnd ip (8 - i) i
    if j - i ≥ 2 ∧ j - i > z.2 - z.1 then (i, j) else z) (255, 255)

/-- The second loop of Go `netip.Addr.appendTo6` from group `i`, with `k`
rounds left; every round advances `i`, so eight rounds suffice. -/
def appendGroups (ip : List Nat) (z : Nat × Nat) : Nat → Nat → List Char
  | 0, _ => []
  | k + 1, i =>
    if i ≥ 8 then []
    else if i = z.1 then
      if z.2 ≥ 8 then [':', ':']
      else ':' :: ':' :: appendHex (v6u16 ip z.2) ++ appendGroups ip z k (z.2 + 1)
    else if i > 0 then ':' :: appendHex (v6u16 ip i) ++ appendGroups ip z k (i + 1)
    else appendHex (v6u16 ip i) ++ appendGroups ip z k (i + 1)

/-- Go `netip.Addr.string6` without zone. -/
def string6 (ip : List Nat) : List Char := appendGroups ip (longestZeroRun ip) 8 0

/-- Go `net.hexString`. -/
def hexString (b : List Nat) : List Char :=
  b.flatMap (fun v => [hexDigit (v >>> 4), hexDigit (v &&& 0xf)])

/-- Go `net.IP.String`. -/
def IPString (ip : List Nat) : String :=
  if ip.length = 0 then "<nil>"
  else if ip.length ≠ 4 ∧ ip.length ≠ 16 then String.mk ('?' :: hexString ip)
  else
    match To4 ip with
    | some p4 => String.mk (string4 p4)
    | none => String.mk (string6 ip)

/-! ## Go standard library: `net.ParseCIDR` -/

/-- Go `net.ParseCIDR`, its `*IPNet` result; `none` is the error
`&ParseError{Type: "CIDR address", Text: s}`. -/
def netParseCIDR (s : String) : Option IPNet :=
  match splitAt1 '/' s.data with
  | (_, none) => none
  | (addr, some mask) =>
    match ParseAddr addr with
    | none => none
    | some ipAddr =>
      if ipAddr.zone ≠ [] then none
      else
        let bitLen := if ipAddr.is4 then 32 else 128
        let r := dtoi mask
        if !r.2.2 ∨ r.2.1 ≠ mask.length ∨ r.1 > bitLen then none
        else
          match CIDRMask r.1 bitLen with
          | none => none
          | some m =>
            match IPMaskApply ipAddr.addr16 m with
            | none => none
            | some ip => some ⟨ip, m⟩

/-- Go `(*net.ParseError).Error()` for the error of `net.ParseCIDR`. -/
def parseErrorText (s : String) : String := "invalid CIDR address: " ++ s

/-- Go `fmt.Sprintf("%d", n)` for a non-negative `int`. -/
def formatInt (n : Nat) : String := Nat.repr n

/-! ## utils/cidr.go -/

/-- The zero value `models.CIDRRange{Original: cidrStr, Valid: false}`. -/
def emptyCIDR (cidrStr : String) : CIDRRange :=
  { Original := cidrStr, Network := "", Mask := "", Broadcast := "", TotalIPs := 0,
    UsableIPs := 0, Valid := false, Category := "", ErrorMsg := "" }

/-- The loop `for i := range ipNet.Mask { broadcast[i] |= ^ipNet.Mask[i] }` on
a copy of `ipNet.IP`.  A mask longer than the address would index out of range
in Go; `net.ParseCIDR` returns both of one length. -/
def orNotMask : List Nat → List Nat → List Nat
  | b :: bs, m :: ms => (b ||| notByte m) :: orNotMask bs ms
  | bs, [] => bs
  | [], _ :: _ => []

/-- Go `1 << k` at type `int`. -/
def shlInt (k : Nat) : Int := wrapInt64 (2 ^ k)

/-- Go `utils.ParseCIDR`: validates and parses a CIDR string. -/
def ParseCIDR (cidrStr : String) : CIDRRange :=
  match netParseCIDR cidrStr with
  | none =>
    { emptyCIDR cidrStr with ErrorMsg := "Invalid CIDR format: " ++ parseErrorText cidrStr }
  | some ipNet =>
    let cidr : CIDRRange :=
      { emptyCIDR cidrStr with
        Network := IPString ipNet.IP
        Mask := IPString ipNet.Mask
        Broadcast := IPString (orNotMask ipNet.IP ipNet.Mask) }
    let ones := (MaskSize ipNet.Mask).1
    let bits := (MaskSize ipNet.Mask).2
    if ones = 0 ∨ bits = 0 then { cidr with ErrorMsg := "Invalid subnet mask" }
    else
      let total := shlInt (bits - ones)
      { cidr with
        TotalIPs := total
        UsableIPs := if total ≤ 2 then 0 else wrapInt64 (total - 2)
        Valid := true }

/-- Go `utils.IPToInt`: an IP address as a 32-bit integer, 0 when it is not
IPv4. -/
def IPToInt (ip : List Nat) : Nat :=
  match To4 ip with
  | none => 0
  | some p =>
    ((p.getD 0 0 <<< 24) + (p.getD 1 0 <<< 16) + (p.getD 2 0 <<< 8) + p.getD 3 0) % 2 ^ 32

/-- Go `utils.IntToIP`: `net.IPv4(byte(i>>24), byte(i>>16), byte(i>>8), byte(i))`,
the 16-byte form of an IPv4 address. -/
def IntToIP (i : Nat) : List Nat :=
  v4InV6Prefix ++ [(i >>> 24) % 256, (i >>> 16) % 256, (i >>> 8) % 256, i % 256]

/-- The local type `ipRange` of `FindGaps`. -/
structure ipRange where
  start : Nat
  end_ : Nat
  deriving DecidableEq, Repr

/-- The first loop of `FindGaps`: one range per entry whose `Original` parses,
from the network address to the broadcast address. -/
def rangesOf : List CIDRRange → List ipRange
  | [] => []
  | cidr :: rest =>
    match netParseCIDR cidr.Original with
    | none => rangesOf rest
    | some ipNet =>
      ⟨IPToInt ipNet.IP, IPToInt (orNotMask ipNet.IP ipNet.Mask)⟩ :: rangesOf rest

/-- The inner loop of Go's insertion sort (`insertionSortLessFunc`) for the
element `x` and the sorted part before it, held in reverse: `x` moves left
while it is less than its left neighbour. -/
def insertLeft (x : ipRange) : List ipRange → List ipRange
  | [] => [x]
  | y :: ys => if x.start < y.start then y :: insertLeft x ys else x :: y :: ys

/-- Go `sort.Slice(ranges, func(i, j) bool { return ranges[i].start < ranges[j].start })`.
The library sorts a slice of at most 12 elements by insertion sort, which is
what this is; for a longer slice the library only promises an ordering by the
comparison, in which ranges of equal start may come in another order; what
is proved about `FindGaps` on lists of any length uses of this function only
that it returns a permutation of its input that ascends by start. -/
def sortSlice (ranges : List ipRange) : List ipRange :=
  (ranges.foldl (fun acc x => insertLeft x acc) []).reverse

/-- One round of the merge loop of `FindGaps`; `r.start-1` is a `uint32`
subtraction. -/
def mergeStep (merged : List ipRange) (r : ipRange) : List ipRange :=
  match merged.getLast? with
  | none => merged ++ [r]
  | some last =>
    if last.end_ < (r.start + 2 ^ 32 - 1) % 2 ^ 32 then merged ++ [r]
    else if last.end_ < r.end_ then merged.dropLast ++ [{ last with end_ := r.end_ }]
    else merged

/-- The merge loop of `FindGaps` over the sorted ranges. -/
def mergeRanges (ranges : List ipRange) : List ipRange := ranges.foldl mergeStep []

/-- Go `utils.SuggestCIDR`: suggests a CIDR notation for a gap. -/
def SuggestCIDR (start end_ : Nat) : String :=
  let size := (end_ + 2 ^ 32 - start + 1) % 2 ^ 32
  let bits :=
    match (List.range 32).find? (fun i => decide (1 <<< i ≥ size)) with
    | some i => 32 - i
    | none => 32
  let mask := (0xFFFFFFFF <<< (32 - bits)) % 2 ^ 32
  let alignedStart := start &&& mask
  IPString (IntToIP alignedStart) ++ "/" ++ formatInt bits

/-- The gap loop of `FindGaps` over consecutive merged ranges; `end + 1` and
`start - 1` are `uint32` operations. -/
def gapLoop : List ipRange → List Gap
  | a :: b :: rest =>
    let gapStart := (a.end_ + 1) % 2 ^ 32
    let gapEnd := (b.start + 2 ^ 32 - 1) % 2 ^ 32
    (if gapStart ≤ gapEnd then
      [{ StartIP := IPString (IntToIP gapStart)
         EndIP := IPString (IntToIP gapEnd)
         Size := (((gapEnd + 2 ^ 32 - gapStart + 1) % 2 ^ 32 : Nat) : Int)
         SuggestedCIDR := SuggestCIDR gapStart gapEnd }]
    else []) ++ gapLoop (b :: rest)
  | _ => []

/-- Go `utils.FindGaps`: identifies gaps between CIDR ranges. -/
def FindGaps (validCIDRs : List CIDRRange) : List Gap :=
  if validCIDRs.length = 0 then []
  else gapLoop (mergeRanges (sortSlice (rangesOf validCIDRs)))

/-- Go `utils.checkOverlap`: checks if two CIDR ranges overlap; the zero
`Overlap` when they do not. -/
def checkOverlap (cidr1 cidr2 : CIDRRange) : Overlap :=
  match netParseCIDR cidr1.Original, netParseCIDR cidr2.Original with
  | some net1, some net2 =>
    if Contains net1 net2.IP || Contains net2 net1.IP then
      { CIDR1 := cidr1.Original
        CIDR2 := cidr2.Original
        Intersection :=
          if Contains net1 net2.IP && Contains net2 net1.IP then cidr1.Original
          else if Contains net1 net2.IP then cidr2.Original
          else cidr1.Original
        Type_ :=
          if Contains net1 net2.IP && Contains net2 net1.IP then "complete" else "partial" }
    else ⟨"", "", "", ""⟩
  | _, _ => ⟨"", "", "", ""⟩

/-- The constant `maxComparisons` of `FindOverlaps`. -/
def maxComparisons : Nat := 1000

/-- The inner loop of `FindOverlaps` for one `i`, over the entries after it;
the state is `(comparisons, overlaps)`. -/
def overlapsInner (ci : CIDRRange) :
    List CIDRRange → Nat × List Overlap → Nat × List Overlap
  | [], st => st
  | cj :: rest, st =>
    if st.1 < maxComparisons then
      overlapsInner ci rest
        (st.1 + 1,
         if (checkOverlap ci cj).CIDR1 ≠ "" then st.2 ++ [checkOverlap ci cj] else st.2)
    else st

/-- The outer loop of `FindOverlaps`. -/
def overlapsOuter : List CIDRRange → Nat × List Overlap → Nat × List Overlap
  | [], st => st
  | ci :: rest, st =>
    if st.1 < maxComparisons then overlapsOuter rest (overlapsInner ci rest st) else st

/-- Go `utils.FindOverlaps`: detects overlapping CIDR ranges. -/
def FindOverlaps (validCIDRs : List CIDRRange) : List Overlap :=
  if validCIDRs.length < 2 then [] else (overlapsOuter validCIDRs (0, [])).2

/-- Go `models.Summary`. -/
structure Summary where
  TotalIPs : Int
  AllocatedIPs : Int
  AvailableIPs : Int
  GapCount : Int
  OverlapCount : Int
  deriving DecidableEq, Repr

/-- Go `utils.CalculateSummary`: generates summary statistics; the additions
are additions of `int`. -/
def CalculateSummary (validCIDRs : List CIDRRange) (gaps : List Gap)
    (overlaps : List Overlap) : Summary :=
  let allocatedIPs := validCIDRs.foldl (fun acc cidr => wrapInt64 (acc + cidr.TotalIPs)) 0
  let availableIPs := gaps.foldl (fun acc gap => wrapInt64 (acc + gap.Size)) 0
  { TotalIPs := wrapInt64 (allocatedIPs + availableIPs)
    AllocatedIPs := allocatedIPs
    AvailableIPs := availableIPs
    GapCount := gaps.length
    OverlapCount := overlaps.length }

/-! ## handlers/handlers.go -/

/-- Go `models.AnalysisRequest`. -/
structure AnalysisRequest where
  CIDRs : List String
  VPCCIDRs : List String
  SubnetCIDRs : List String
  deriving DecidableEq, Repr

/-- Go `models.AnalysisResponse`. -/
structure AnalysisResponse where
  ValidCIDRs : List CIDRRange
  InvalidCIDRs : List CIDRRange
  Gaps : List Gap
  Overlaps : List Overlap
  Summary : Summary
  deriving DecidableEq, Repr

/-- One round of the loops of `AnalyzeCIDRs` over `req.VPCCIDRs` and
`req.SubnetCIDRs`: parse, tag, and append to the valid or to the invalid list.
The state is `(validCIDRs, invalidCIDRs)`. -/
def addTagged (category : String) (st : List CIDRRange × List CIDRRange)
    (cidrStr : String) : List CIDRRange × List CIDRRange :=
  let cidr : CIDRRange := { ParseCIDR cidrStr with Category := category }
  if cidr.Valid then (st.1 ++ [cidr], st.2) else (st.1, st.2 ++ [cidr])

/-- The flag `alreadyProcessed` of `AnalyzeCIDRs` after its two search loops:
`cidrStr` equals an entry of `req.VPCCIDRs` or of `req.SubnetCIDRs`. -/
def alreadyProcessed (req : AnalysisRequest) (cidrStr : String) : Bool :=
  req.VPCCIDRs.any (fun vpcCidr => vpcCidr == cidrStr) ||
    req.SubnetCIDRs.any (fun subnetCidr => subnetCidr == cidrStr)

/-- One round of the loop of `AnalyzeCIDRs` over the legacy list `req.CIDRs`. -/
def addLegacy (req : AnalysisRequest) (st : List CIDRRange × List CIDRRange)
    (cidrStr : String) : List CIDRRange × List CIDRRange :=
  if alreadyProcessed req cidrStr then st
  else if (ParseCIDR cidrStr).Valid then (st.1 ++ [ParseCIDR cidrStr], st.2)
  else (st.1, st.2 ++ [ParseCIDR cidrStr])

/-- The valid and invalid lists `AnalyzeCIDRs` builds from a request. -/
def parseRequest (req : AnalysisRequest) : List CIDRRange × List CIDRRange :=
  req.CIDRs.foldl (addLegacy req)
    (req.SubnetCIDRs.foldl (addTagged "subnet") (req.VPCCIDRs.foldl (addTagged "vpc") ([], [])))

/-- Go `handlers.AnalyzeCIDRs` on a request that binds: the response it sends. -/
def AnalyzeCIDRs (req : AnalysisRequest) : AnalysisResponse :=
  let validCIDRs := (parseRequest req).1
  let gaps := FindGaps validCIDRs
  let overlaps := FindOverlaps validCIDRs
  { ValidCIDRs := validCIDRs
    InvalidCIDRs := (parseRequest req).2
    Gaps := gaps
    Overlaps := overlaps
    Summary := CalculateSummary validCIDRs gaps overlaps }

/-- Go `handlers.ValidateCIDR` on a request that binds: the record it sends. -/
def ValidateCIDR (cidr : String) : CIDRRange := ParseCIDR cidr

/-! ## Vocabulary of the statements -/

/-- The address range an entry stands for, computed as `FindGaps` computes it:
from the network address to the broadcast address of `net.ParseCIDR(Original)`;
`none` when `Original` does not parse. -/
def cidrRange (c : CIDRRange) : Option ipRange :=
  (netParseCIDR c.Original).map
    (fun ipNet => ⟨IPToInt ipNet.IP, IPToInt (orNotMask ipNet.IP ipNet.Mask)⟩)

/-- A valid IPv4 CIDR entry: an entry marked valid whose `Original` is marked
valid by `ParseCIDR` and parses with a 4-byte (32-bit) mask. -/
def IsValidIPv4 (c : CIDRRange) : Prop :=
  c.Valid = true ∧ (ParseCIDR c.Original).Valid = true ∧
    ∃ ipNet, netParseCIDR c.Original = some ipNet ∧ ipNet.Mask.length = 4

/-- Address `x` lies in the range `r`. -/
def ipRange.Covers (r : ipRange) (x : Nat) : Prop := r.start ≤ x ∧ x ≤ r.end_

/-- Numeric value of a string of decimal digits. -/
def decVal (ds : List Char) : Nat := ds.foldl (fun n c => n * 10 + digitVal c) 0

/-- A non-empty string of decimal digits. -/
def IsDecimal (ds : List Char) : Prop := ds ≠ [] ∧ ∀ c ∈ ds, isDigit c = true

/-- A decimal number in `[0, 255]` written without a leading zero. -/
def IsOctet (ds : List Char) : Prop :=
  IsDecimal ds ∧ decVal ds ≤ 255 ∧ (1 < ds.length → ds.head? ≠ some '0')

/-- The text `A.B.C.D/N`. -/
def dottedCIDR (a b c d n : List Char) : String :=
  String.mk (a ++ '.' :: b ++ '.' :: c ++ '.' :: d ++ '/' :: n)

/-- The network `net.ParseCIDR` returns for the IPv4 address bytes `f` and
prefix length `n`. -/
def v4Net (f : List Nat) (n : Nat) : IPNet :=
  ⟨List.zipWith (fun a b => a &&& b) f (cidrMaskLoop 4 n), cidrMaskLoop 4 n⟩

/-- The dotted quad of a 32-bit number: its four bytes in decimal, most
significant first. -/
def dottedQuad (x : Nat) : String :=
  String.mk (ubtoa (x / 2 ^ 24 % 256) ++ '.' :: ubtoa (x / 2 ^ 16 % 256) ++
    '.' :: ubtoa (x / 2 ^ 8 % 256) ++ '.' :: ubtoa (x % 256))

instance (ds : List Char) : Decidable (IsDecimal ds) :=
  inferInstanceAs (Decidable (ds ≠ [] ∧ ∀ c ∈ ds, isDigit c = true))

instance (ds : List Char) : Decidable (IsOctet ds) :=
  inferInstanceAs
    (Decidable (IsDecimal ds ∧ decVal ds ≤ 255 ∧ (1 < ds.length → ds.head? ≠ some '0')))

/-- The IPv4 CIDR texts `ParseCIDR` marks valid: `A.B.C.D/N` with four octets
and a decimal `N` between 1 and 32. -/
def IsIPv4CIDRText (s : String) : Prop :=
  ∃ a b c d n, IsOctet a ∧ IsOctet b ∧ IsOctet c ∧ IsOctet d ∧ IsDecimal n ∧
    1 ≤ decVal n ∧ decVal n ≤ 32 ∧ s = dottedCIDR a b c d n

/-- The IPv6 CIDR texts `ParseCIDR` marks valid: `addr/N` where
`netip.ParseAddr` accepts `addr` as an IPv6 address without zone and `N` is a
decimal number between 1 and 128. -/
def IsIPv6CIDRText (s : String) : Prop :=
  ∃ addr n A, '/' ∉ addr ∧ ParseAddr addr = some A ∧ A.is4 = false ∧ A.zone = [] ∧
    IsDecimal n ∧ 1 ≤ decVal n ∧ decVal n ≤ 128 ∧ s = String.mk (addr ++ '/' :: n)

/-- The entries a request asks to parse, in the order vpc, subnet, legacy: each
vpc entry tagged "vpc", each subnet entry tagged "subnet", and each legacy
entry that is string-equal to no vpc and no subnet entry, untagged. -/
def parsedEntries (req : AnalysisRequest) : List CIDRRange :=
  req.VPCCIDRs.map (fun s => { ParseCIDR s with Category := "vpc" }) ++
    req.SubnetCIDRs.map (fun s => { ParseCIDR s with Category := "subnet" }) ++
    (req.CIDRs.filter
      (fun s => !decide (s ∈ req.VPCCIDRs) && !decide (s ∈ req.SubnetCIDRs))).map ParseCIDR

/-- A value of Go's 64-bit `int`. -/
def InInt64 (x : Int) : Prop := -2 ^ 63 ≤ x ∧ x < 2 ^ 63

instance (x : Int) : Decidable (InInt64 x) :=
  inferInstanceAs (Decidable (-2 ^ 63 ≤ x ∧ x < 2 ^ 63))

/-- An index pair `(i, j)` of a list of entries, with the two entries. -/
abbrev IndexPair := (Nat × CIDRRange) × (Nat × CIDRRange)

/-- The pairs of the entry `kx` (index and entry) with the entries `ys`, which
have the indices `j`, `j + 1`, ... -/
def pairWith (kx : Nat × CIDRRange) : Nat → List CIDRRange → List IndexPair
  | _, [] => []
  | j, y :: ys => (kx, (j, y)) :: pairWith kx (j + 1) ys

/-- All index pairs `(i, j)`, `i < j`, of the entries `xs`, whose indices start
at `k`, in ascending lexicographic order. -/
def indexPairsFrom : Nat → List CIDRRange → List IndexPair
  | _, [] => []
  | k, x :: rest => pairWith (k, x) (k + 1) rest ++ indexPairsFrom (k + 1) rest

/-- All index pairs `(i, j)`, `i < j`, of a list, in ascending lexicographic
order. -/
def indexPairs (xs : List CIDRRange) : List IndexPair := indexPairsFrom 0 xs

/-- Lexicographic order on index pairs. -/
def LexLt (p q : IndexPair) : Prop := p.1.1 < q.1.1 ∨ (p.1.1 = q.1.1 ∧ p.2.1 < q.2.1)

/-- Whether `checkOverlap` reports an overlap for the pair. -/
def reported (p : IndexPair) : Bool := decide ((checkOverlap p.1.2 p.2.2).CIDR1 ≠ "")

/-- Address `x` is allocated: it lies in the range of one of the entries. -/
def Allocated (xs : List CIDRRange) (x : Nat) : Prop :=
  ∃ c ∈ xs, ∃ r, cidrRange c = some r ∧ r.Covers x

/-- The `Gap` record `FindGaps` builds for the gap from `g.start` to `g.end_`. -/
def gapOf (g : ipRange) : Gap :=
  { StartIP := dottedQuad g.start
    EndIP := dottedQuad g.end_
    Size := ((g.end_ - g.start + 1 : Nat) : Int)
    SuggestedCIDR := SuggestCIDR g.start g.end_ }

/-- The spaces between consecutive ranges of a list: from the address after the
end of one to the address before the start of the next. -/
def gapsBetween : List ipRange → List ipRange
  | a :: b :: rest => ⟨a.end_ + 1, b.start - 1⟩ :: gapsBetween (b :: rest)
  | _ => []

/-! ## Lemmas: the IPv4 address parser -/

theorem isDigit_ne_dot {c : Char} (h : isDigit c = true) : c ≠ '.' := by
  intro hc
  subst hc
  revert h
  decide

theorem isDigit_ne_slash {c : Char} (h : isDigit c = true) : c ≠ '/' := by
  intro hc
  subst hc
  revert h
  decide

theorem digitVal_eq_zero {c : Char} (h : isDigit c = true) (h0 : digitVal c = 0) :
    c = '0' := by
  have h1 : c.toNat = 48 := by
    simp only [isDigit, Bool.and_eq_true, decide_eq_true_eq] at h
    unfold digitVal at h0
    omega
  have h2 : Char.ofNat c.toNat = c := Char.ofNat_toNat c
  rw [h1] at h2
  exact h2.symm

theorem digitVal_zero_char : digitVal '0' = 0 := by decide

theorem foldl_dec_mono (ds : List Char) (v : Nat) :
    v ≤ ds.foldl (fun n c => n * 10 + digitVal c) v := by
  induction ds generalizing v with
  | nil => simp
  | cons c cs ih =>
    simp only [List.foldl_cons]
    exact le_trans (by omega) (ih (v * 10 + digitVal c))

/-- Reading one run of digits: what a successful parse says about it. -/
theorem fieldsLoop_inv (s : List Char) : ∀ (i : Nat) (prev : Char) (val pos digLen : Nat)
    (fields f : List Nat),
    parseIPv4FieldsLoop s i prev val pos digLen fields = some f →
    ∃ ds rest, s = ds ++ rest ∧ (∀ c ∈ ds, isDigit c = true) ∧
      (rest = [] ∨ ∃ r, rest = '.' :: r) ∧
      (ds ≠ [] → ds.foldl (fun n c => n * 10 + digitVal c) val ≤ 255) ∧
      (digLen = 1 ∧ val = 0 → ds = []) ∧
      (digLen = 0 ∧ val = 0 → ∀ c ds1, ds = c :: ds1 → digitVal c = 0 → ds1 = []) ∧
      ∃ i1 prev1,
        parseIPv4FieldsLoop rest i1 prev1 (ds.foldl (fun n c => n * 10 + digitVal c) val) pos
          (digLen + ds.length) fields = some f ∧
        (ds = [] → i1 = i ∧ prev1 = prev) ∧ (ds ≠ [] → i1 ≠ 0 ∧ prev1 ≠ '.') := by
  induction s with
  | nil =>
    intro i prev val pos digLen fields f h
    exact ⟨[], [], rfl, by simp, Or.inl rfl, by simp, by simp, by simp, i, prev, by simpa using h,
      by simp, by simp⟩
  | cons c cs ih =>
    intro i prev val pos digLen fields f h
    unfold parseIPv4FieldsLoop at h
    by_cases hd : isDigit c = true
    · simp only [hd, if_true] at h
      by_cases h1 : digLen = 1 ∧ val = 0
      · simp [h1] at h
      · simp only [h1, if_false] at h
        by_cases h2 : val * 10 + digitVal c > 255
        · simp [h2] at h
        · simp only [h2, if_false] at h
          obtain ⟨ds, rest, hs, hdig, hrest, hle, hz1, _, i1, prev1, hcont, he, hne⟩ :=
            ih (i + 1) c (val * 10 + digitVal c) pos (digLen + 1) fields f h
          refine ⟨c :: ds, rest, by simp [hs], ?_, hrest, ?_, ?_, ?_, i1, prev1, ?_, by simp, ?_⟩
          · intro x hx
            rcases List.mem_cons.1 hx with rfl | hx
            · exact hd
            · exact hdig x hx
          · intro _
            by_cases hds : ds = []
            · subst hds
              simp only [List.foldl_cons, List.foldl_nil]
              omega
            · simpa using hle hds
          · intro hh
            exact absurd hh h1
          · intro hh c1 ds1 hcons hc0
            have hc : c = c1 := (List.cons.inj hcons).1
            have hds : ds = ds1 := (List.cons.inj hcons).2
            subst hc
            subst hds
            apply hz1
            constructor
            · omega
            · rw [hh.2, hc0]
          · simpa [Nat.add_assoc, Nat.add_comm 1] using hcont
          · intro _
            by_cases hds : ds = []
            · obtain ⟨e1, e2⟩ := he hds
              subst e1
              subst e2
              exact ⟨by omega, isDigit_ne_dot hd⟩
            · exact hne hds
    · simp only [hd] at h
      by_cases hc : c = '.'
      · subst hc
        exact ⟨[], '.' :: cs, rfl, by simp, Or.inr ⟨cs, rfl⟩, by simp, by simp, by simp, i, prev,
          by
            unfold parseIPv4FieldsLoop
            simpa [hd] using h, by simp, by simp⟩
      · simp [hc] at h

theorem isOctet_of_run {ds : List Char} (hne : ds ≠ []) (hdig : ∀ c ∈ ds, isDigit c = true)
    (hle : decVal ds ≤ 255)
    (hz : ∀ c ds1, ds = c :: ds1 → digitVal c = 0 → ds1 = []) : IsOctet ds := by
  refine ⟨⟨hne, hdig⟩, hle, ?_⟩
  intro hlen hhead
  cases ds with
  | nil => simp at hlen
  | cons c ds1 =>
    simp only [List.head?_cons, Option.some.injEq] at hhead
    subst hhead
    have h1 := hz '0' ds1 rfl digitVal_zero_char
    subst h1
    simp at hlen

/-- A field that is followed by a dot. -/
theorem field_dot_inv (s : List Char) (i : Nat) (prev : Char) (pos : Nat) (fields f : List Nat)
    (hpos : pos < 3) (hstart : i = 0 ∨ prev = '.')
    (h : parseIPv4FieldsLoop s i prev 0 pos 0 fields = some f) :
    ∃ ds r i1, s = ds ++ '.' :: r ∧ IsOctet ds ∧ r ≠ [] ∧
      parseIPv4FieldsLoop r i1 '.' 0 (pos + 1) 0 (fields.set pos (decVal ds)) = some f := by
  obtain ⟨ds, rest, hs, hdig, hrest, hle, _, hz, i1, prev1, hcont, he, hne⟩ :=
    fieldsLoop_inv s i prev 0 pos 0 fields f h
  rcases hrest with rfl | ⟨r, rfl⟩
  · unfold parseIPv4FieldsLoop at hcont
    simp [hpos] at hcont
  · unfold parseIPv4FieldsLoop at hcont
    have hnd : isDigit '.' = false := by decide
    simp only [hnd, Bool.false_eq_true, if_false, if_true] at hcont
    by_cases hds : ds = []
    · obtain ⟨e1, e2⟩ := he hds
      subst e1
      subst e2
      rcases hstart with h0 | h0
      · simp [h0] at hcont
      · simp [h0] at hcont
    · obtain ⟨n1, n2⟩ := hne hds
      by_cases hr : r = []
      · simp [hr] at hcont
      · have hp3 : pos ≠ 3 := by omega
        simp only [n1, hr, n2, or_self, if_false, hp3] at hcont
        exact ⟨ds, r, i1 + 1, hs, isOctet_of_run hds hdig (hle hds) (hz ⟨rfl, rfl⟩), hr, hcont⟩

/-- The last field. -/
theorem last_field_inv (s : List Char) (i : Nat) (prev : Char) (fields f : List Nat)
    (hs : s ≠ []) (h : parseIPv4FieldsLoop s i prev 0 3 0 fields = some f) :
    IsOctet s ∧ f = fields.set 3 (decVal s) := by
  obtain ⟨ds, rest, hs1, hdig, hrest, hle, _, hz, i1, prev1, hcont, he, hne⟩ :=
    fieldsLoop_inv s i prev 0 3 0 fields f h
  rcases hrest with rfl | ⟨r, rfl⟩
  · simp only [List.append_nil] at hs1
    subst hs1
    unfold parseIPv4FieldsLoop at hcont
    simp only [Nat.lt_irrefl, if_false, Option.some.injEq] at hcont
    exact ⟨isOctet_of_run hs hdig (hle hs) (hz ⟨rfl, rfl⟩), hcont.symm⟩
  · unfold parseIPv4FieldsLoop at hcont
    have hnd : isDigit '.' = false := by decide
    simp [hnd] at hcont

/-- What `parseIPv4` accepts has the form `A.B.C.D` with four octets. -/
theorem parseIPv4_inv (s : List Char) (f : List Nat) (h : parseIPv4 s = some f) :
    ∃ a b c d, IsOctet a ∧ IsOctet b ∧ IsOctet c ∧ IsOctet d ∧
      s = a ++ '.' :: b ++ '.' :: c ++ '.' :: d ∧
      f = [decVal a, decVal b, decVal c, decVal d] := by
  unfold parseIPv4 parseIPv4Fields at h
  obtain ⟨a, r1, i1, hs1, ha, _, h1⟩ :=
    field_dot_inv s 0 '.' 0 _ f (by omega) (Or.inl rfl) h
  obtain ⟨b, r2, i2, hs2, hb, _, h2⟩ :=
    field_dot_inv r1 i1 '.' 1 _ f (by omega) (Or.inr rfl) h1
  obtain ⟨c, r3, i3, hs3, hc, hr3, h3⟩ :=
    field_dot_inv r2 i2 '.' 2 _ f (by omega) (Or.inr rfl) h2
  obtain ⟨hd, hf⟩ := last_field_inv r3 i3 '.' _ f hr3 h3
  refine ⟨a, b, c, r3, ha, hb, hc, hd, ?_, ?_⟩
  · rw [hs1, hs2, hs3]
    simp
  · rw [hf]
    rfl

/-- Reading a run of digits that passes every check of the loop. -/
theorem fieldsLoop_digits (ds : List Char) : ∀ (rest : List Char) (i : Nat) (prev : Char)
    (val pos digLen : Nat) (fields : List Nat),
    (∀ c ∈ ds, isDigit c = true) →
    ds.foldl (fun n c => n * 10 + digitVal c) val ≤ 255 →
    (∀ c ds1, ds = c :: ds1 →
      ¬(digLen = 1 ∧ val = 0) ∧ (digLen = 0 → val * 10 + digitVal c = 0 → ds1 = [])) →
    parseIPv4FieldsLoop (ds ++ rest) i prev val pos digLen fields =
      parseIPv4FieldsLoop rest (i + ds.length) (ds.getLast?.getD prev)
        (ds.foldl (fun n c => n * 10 + digitVal c) val) pos (digLen + ds.length) fields := by
  induction ds with
  | nil => intro rest i prev val pos digLen fields _ _ _; simp
  | cons c cs ih =>
    intro rest i prev val pos digLen fields hdig hle hz
    have hc : isDigit c = true := hdig c (List.mem_cons_self _ _)
    obtain ⟨hz1, hz2⟩ := hz c cs rfl
    have hmono := foldl_dec_mono cs (val * 10 + digitVal c)
    simp only [List.foldl_cons] at hle
    have hv : ¬ (val * 10 + digitVal c > 255) := by omega
    rw [List.cons_append, parseIPv4FieldsLoop]
    simp only [hc, if_true, hz1, if_false, hv]
    rw [ih rest (i + 1) c (val * 10 + digitVal c) pos (digLen + 1) fields
      (fun x hx => hdig x (List.mem_cons_of_mem _ hx)) hle ?_]
    · have hl : (c :: cs).getLast?.getD prev = cs.getLast?.getD c := by
        cases cs with
        | nil => simp
        | cons x xs =>
          rw [List.getLast?_cons_cons, List.getLast?_eq_getLast _ (List.cons_ne_nil x xs)]
          rfl
      have e1 : i + 1 + cs.length = i + (cs.length + 1) := by omega
      have e2 : digLen + 1 + cs.length = digLen + (cs.length + 1) := by omega
      rw [hl, e1, e2]
      simp only [List.foldl_cons, List.length_cons]
    · intro c1 ds1 hcs
      refine ⟨?_, by omega⟩
      intro hh
      have hd0 : digLen = 0 := by omega
      have := hz2 hd0 hh.2
      rw [this] at hcs
      exact absurd hcs (by simp)

theorem getLast_digit_ne_dot {ds : List Char} (hne : ds ≠ []) (hdig : ∀ c ∈ ds, isDigit c = true)
    (prev : Char) : ds.getLast?.getD prev ≠ '.' := by
  have h1 : ds.getLast? = some (ds.getLast hne) := List.getLast?_eq_getLast ds hne
  rw [h1]
  exact isDigit_ne_dot (hdig _ (List.getLast_mem hne))

theorem isOctet_first {ds : List Char} (h : IsOctet ds) :
    ∀ c ds1, ds = c :: ds1 →
      ¬((0 : Nat) = 1 ∧ (0 : Nat) = 0) ∧ ((0 : Nat) = 0 → 0 * 10 + digitVal c = 0 → ds1 = []) := by
  intro c ds1 hds
  refine ⟨by omega, ?_⟩
  intro _ h0
  by_contra hne
  subst hds
  have hc : c = '0' := digitVal_eq_zero (h.1.2 c (List.mem_cons_self _ _)) (by omega)
  have hl : 1 < (c :: ds1).length := by
    cases ds1 with
    | nil => exact absurd rfl hne
    | cons x xs => simp
  exact h.2.2 hl (by simp [hc])

theorem dot_step (r : List Char) (i : Nat) (prev : Char) (val pos digLen : Nat)
    (fields : List Nat) (hi : i ≠ 0) (hr : r ≠ []) (hp : prev ≠ '.') (hpos : pos ≠ 3) :
    parseIPv4FieldsLoop ('.' :: r) i prev val pos digLen fields =
      parseIPv4FieldsLoop r (i + 1) '.' 0 (pos + 1) 0 (fields.set pos val) := by
  rw [parseIPv4FieldsLoop]
  have hnd : isDigit '.' = false := by decide
  simp only [hnd, Bool.false_eq_true, if_false, if_true, hi, hr, hp, or_self, hpos]

/-- An octet followed by a dot and more. -/
theorem field_dot_run (ds r : List Char) (i : Nat) (prev : Char) (pos : Nat) (fields : List Nat)
    (h : IsOctet ds) (hr : r ≠ []) (hpos : pos < 3) :
    parseIPv4FieldsLoop (ds ++ '.' :: r) i prev 0 pos 0 fields =
      parseIPv4FieldsLoop r (i + ds.length + 1) '.' 0 (pos + 1) 0 (fields.set pos (decVal ds)) := by
  have hlen : ds.length ≠ 0 := by
    intro h0
    exact h.1.1 (List.length_eq_zero.1 h0)
  rw [fieldsLoop_digits ds ('.' :: r) i prev 0 pos 0 fields h.1.2 h.2.1 (isOctet_first h),
    dot_step r _ _ _ _ _ _ (by omega) hr (getLast_digit_ne_dot h.1.1 h.1.2 prev) (by omega)]
  rfl

/-- An octet at the end, as fourth field. -/
theorem last_field_run (ds : List Char) (i : Nat) (prev : Char) (fields : List Nat)
    (h : IsOctet ds) :
    parseIPv4FieldsLoop ds i prev 0 3 0 fields = some (fields.set 3 (decVal ds)) := by
  have h1 := fieldsLoop_digits ds [] i prev 0 3 0 fields h.1.2 h.2.1 (isOctet_first h)
  rw [List.append_nil] at h1
  rw [h1, parseIPv4FieldsLoop]
  simp only [Nat.lt_irrefl, if_false]
  rfl

/-- `parseIPv4` accepts every `A.B.C.D` of four octets. -/
theorem parseIPv4_complete (a b c d : List Char) (ha : IsOctet a) (hb : IsOctet b)
    (hc : IsOctet c) (hd : IsOctet d) :
    parseIPv4 (a ++ '.' :: b ++ '.' :: c ++ '.' :: d) =
      some [decVal a, decVal b, decVal c, decVal d] := by
  unfold parseIPv4 parseIPv4Fields
  have hne : ∀ {x : List Char} (y : List Char), IsOctet x → x ++ y ≠ [] := by
    intro x y hx hxy
    exact hx.1.1 (List.append_eq_nil.1 hxy).1
  have e1 : a ++ '.' :: b ++ '.' :: c ++ '.' :: d = a ++ '.' :: (b ++ '.' :: (c ++ '.' :: d)) := by
    simp
  rw [e1, field_dot_run a _ 0 '.' 0 _ ha (hne _ hb) (by omega),
    field_dot_run b _ _ '.' 1 _ hb (hne _ hc) (by omega),
    field_dot_run c _ _ '.' 2 _ hc hd.1.1 (by omega),
    last_field_run d _ '.' _ hd]
  rfl

/-! ## Lemmas: `dtoi`, splitting, `ParseAddr`, `net.ParseCIDR` on `A.B.C.D/N` -/

theorem dtoiLoop_digits (ds : List Char) : ∀ (v i : Nat),
    (∀ c ∈ ds, isDigit c = true) →
    ds.foldl (fun n c => n * 10 + digitVal c) v < big → i + ds.length ≠ 0 →
    dtoiLoop ds v i = (ds.foldl (fun n c => n * 10 + digitVal c) v, i + ds.length, true) := by
  induction ds with
  | nil =>
    intro v i _ _ hi
    simp only [List.length_nil, Nat.add_zero] at hi
    simp [dtoiLoop, hi]
  | cons c cs ih =>
    intro v i hdig hlt _
    have hc : isDigit c = true := hdig c (List.mem_cons_self _ _)
    have hmono := foldl_dec_mono cs (v * 10 + digitVal c)
    simp only [List.foldl_cons] at hlt
    have hb : ¬ (v * 10 + digitVal c ≥ big) := by omega
    rw [dtoiLoop]
    simp only [hc, if_true, hb, if_false]
    rw [ih (v * 10 + digitVal c) (i + 1) (fun x hx => hdig x (List.mem_cons_of_mem _ hx)) hlt
      (by omega)]
    simp only [List.foldl_cons, List.length_cons]
    have e : i + 1 + cs.length = i + (cs.length + 1) := by omega
    rw [e]

theorem dtoiLoop_index_le (s : List Char) : ∀ (v i : Nat), (dtoiLoop s v i).2.1 ≤ i + s.length := by
  induction s with
  | nil =>
    intro v i
    rw [dtoiLoop]
    split <;> simp
  | cons c cs ih =>
    intro v i
    rw [dtoiLoop]
    split
    · split
      · simp
      · have := ih (v * 10 + digitVal c) (i + 1)
        simp only [List.length_cons]
        omega
    · split <;> simp

theorem dtoiLoop_inv (s : List Char) : ∀ (v i w : Nat),
    dtoiLoop s v i = (w, i + s.length, true) →
    (∀ c ∈ s, isDigit c = true) ∧ w = s.foldl (fun n c => n * 10 + digitVal c) v ∧
      i + s.length ≠ 0 := by
  induction s with
  | nil =>
    intro v i w h
    rw [dtoiLoop] at h
    by_cases hi : i = 0
    · simp [hi] at h
    · simp only [hi, if_false, Prod.mk.injEq] at h
      exact ⟨by simp, by simpa using h.1.symm, by simpa using hi⟩
  | cons c cs ih =>
    intro v i w h
    rw [dtoiLoop] at h
    by_cases hc : isDigit c = true
    · simp only [hc, if_true] at h
      by_cases hb : v * 10 + digitVal c ≥ big
      · simp [hb] at h
      · simp only [hb, if_false] at h
        have e : i + (c :: cs).length = i + 1 + cs.length := by simp; omega
        rw [e] at h
        obtain ⟨h1, h2, _⟩ := ih (v * 10 + digitVal c) (i + 1) w h
        refine ⟨?_, by simpa using h2, by simp⟩
        intro x hx
        rcases List.mem_cons.1 hx with rfl | hx
        · exact hc
        · exact h1 x hx
    · simp only [hc] at h
      by_cases hi : i = 0
      · simp [hi] at h
      · simp only [Bool.false_eq_true, if_false, hi, Prod.mk.injEq] at h
        have := h.2.1
        simp at this

/-- `dtoi` accepts the whole of `n` with a value of at most `bound` exactly when
`n` is a decimal number of at most `bound`. -/
theorem dtoi_iff (n : List Char) (bound : Nat) (hb : bound < big) :
    (¬ ((!(dtoi n).2.2) = true ∨ (dtoi n).2.1 ≠ n.length ∨ (dtoi n).1 > bound)) ↔
      (IsDecimal n ∧ decVal n ≤ bound) := by
  constructor
  · intro h
    simp only [not_or, Bool.not_eq_true', Bool.not_eq_false, not_not, not_lt] at h
    obtain ⟨h1, h2, h3⟩ := h
    have e : dtoi n = ((dtoi n).1, 0 + n.length, true) := by
      rw [Nat.zero_add, ← h2, ← h1]
    unfold dtoi at e
    obtain ⟨k1, k2, k3⟩ := dtoiLoop_inv n 0 0 _ e
    refine ⟨⟨?_, k1⟩, ?_⟩
    · intro hn
      subst hn
      simp at k3
    · unfold decVal
      rw [← k2]
      exact h3
  · intro ⟨⟨hne, hdig⟩, hle⟩
    have hlen : 0 + n.length ≠ 0 := by
      intro h0
      exact hne (List.length_eq_zero.1 (by omega))
    have e := dtoiLoop_digits n 0 0 hdig (by unfold decVal at hle; omega) hlen
    unfold dtoi
    rw [e]
    simp only [not_or, Bool.not_eq_true', Bool.not_eq_false, not_not, not_lt, Nat.zero_add,
      true_and]
    exact hle

theorem dtoi_val (n : List Char) (h : IsDecimal n) (hb : decVal n < big) :
    (dtoi n).1 = decVal n := by
  have hlen : 0 + n.length ≠ 0 := by
    intro h0
    exact h.1 (List.length_eq_zero.1 (by omega))
  unfold dtoi
  rw [dtoiLoop_digits n 0 0 h.2 hb hlen]
  rfl

theorem splitAt1_append (sep : Char) (x r : List Char) (hx : sep ∉ x) :
    splitAt1 sep (x ++ sep :: r) = (x, some r) := by
  induction x with
  | nil => simp [splitAt1]
  | cons c cs ih =>
    have hc : c ≠ sep := fun h => hx (by simp [h])
    have hcs : sep ∉ cs := fun h => hx (List.mem_cons_of_mem _ h)
    simp [splitAt1, hc, ih hcs]

theorem splitAt1_some (sep : Char) (l x r : List Char) (h : splitAt1 sep l = (x, some r)) :
    l = x ++ sep :: r ∧ sep ∉ x := by
  induction l generalizing x with
  | nil => simp [splitAt1] at h
  | cons c cs ih =>
    rw [splitAt1] at h
    by_cases hc : c = sep
    · simp only [hc, if_true, Prod.mk.injEq, Option.some.injEq] at h
      obtain ⟨h1, h2⟩ := h
      subst h1
      subst h2
      simp [hc]
    · simp only [hc, if_false, Prod.mk.injEq] at h
      obtain ⟨h1, h2⟩ := h
      obtain ⟨k1, k2⟩ := ih (splitAt1 sep cs).1 (by rw [← h2])
      subst h1
      refine ⟨by simp; exact k1, ?_⟩
      intro hm
      rcases List.mem_cons.1 hm with e | e
      · exact hc e.symm
      · exact k2 e

theorem parseAddrScan_digits (ds r s : List Char) (hdig : ∀ c ∈ ds, isDigit c = true) :
    parseAddrScan (ds ++ '.' :: r) s =
      (parseIPv4 s).map (fun f => ⟨v4InV6Prefix ++ f, true, []⟩) := by
  induction ds with
  | nil => simp [parseAddrScan]
  | cons c cs ih =>
    have hc : isDigit c = true := hdig c (List.mem_cons_self _ _)
    have h1 : c ≠ '.' := isDigit_ne_dot hc
    have h2 : c ≠ ':' := by
      intro e; subst e; revert hc; decide
    have h3 : c ≠ '%' := by
      intro e; subst e; revert hc; decide
    rw [List.cons_append, parseAddrScan]
    simp only [h1, h2, h3, if_false]
    exact ih (fun x hx => hdig x (List.mem_cons_of_mem _ hx))

theorem parseAddrScan_is4 (l s : List Char) (A : Addr) (h : parseAddrScan l s = some A)
    (h4 : A.is4 = true) :
    ∃ f, parseIPv4 s = some f ∧ A = ⟨v4InV6Prefix ++ f, true, []⟩ := by
  induction l with
  | nil => simp [parseAddrScan] at h
  | cons c cs ih =>
    rw [parseAddrScan] at h
    by_cases h1 : c = '.'
    · simp only [h1, if_true, Option.map_eq_some'] at h
      obtain ⟨f, hf, e⟩ := h
      exact ⟨f, hf, e.symm⟩
    · simp only [h1, if_false] at h
      by_cases h2 : c = ':'
      · simp only [h2, if_true, Option.map_eq_some'] at h
        obtain ⟨f, _, e⟩ := h
        rw [← e] at h4
        simp at h4
      · simp only [h2, if_false] at h
        by_cases h3 : c = '%'
        · simp [h3] at h
        · simp only [h3, if_false] at h
          exact ih h

theorem cidrMaskLoop_length (l n : Nat) : (cidrMaskLoop l n).length = l := by
  induction l generalizing n with
  | zero => simp [cidrMaskLoop]
  | succ k ih =>
    rw [cidrMaskLoop]
    split <;> simp [ih]

theorem IPMaskApply_v4 (f m : List Nat) (hf : f.length = 4) (hm : m.length = 4) :
    IPMaskApply (v4InV6Prefix ++ f) m = some (List.zipWith (fun a b => a &&& b) f m) := by
  unfold IPMaskApply
  have h1 : (v4InV6Prefix ++ f).length = 16 := by simp [v4InV6Prefix, hf]
  have h2 : (v4InV6Prefix ++ f).take 12 = v4InV6Prefix := by
    simp [v4InV6Prefix]
  have h3 : (v4InV6Prefix ++ f).drop 12 = f := by
    simp [v4InV6Prefix]
  simp [hm, h1, h2, h3, hf]

/-- The parts of the text `A.B.C.D/N` are determined by the text. -/
theorem dotted_split_unique {x y r1 r2 : List Char} (sep : Char) (hx : sep ∉ x) (hy : sep ∉ y)
    (h : x ++ sep :: r1 = y ++ sep :: r2) : x = y ∧ r1 = r2 := by
  have e1 := splitAt1_append sep x r1 hx
  have e2 := splitAt1_append sep y r2 hy
  rw [h, e2] at e1
  simp only [Prod.mk.injEq, Option.some.injEq] at e1
  exact ⟨e1.1.symm, e1.2.symm⟩

/-! ## Lemmas: `net.ParseCIDR` on IPv4 text -/

theorem CIDRMask_32 (n : Nat) (h : n ≤ 32) : CIDRMask n 32 = some (cidrMaskLoop 4 n) := by
  unfold CIDRMask
  have h1 : ¬ (n > 32) := by omega
  simp [h1]

theorem CIDRMask_128 (n : Nat) (h : n ≤ 128) : CIDRMask n 128 = some (cidrMaskLoop 16 n) := by
  unfold CIDRMask
  have h1 : ¬ (n > 128) := by omega
  simp [h1]

/-- `net.ParseCIDR` once the text is split at the slash and the address is
parsed as IPv4. -/
theorem netParseCIDR_of_parts (s : String) (addr n : List Char) (f : List Nat)
    (hs : s.data = addr ++ '/' :: n) (hslash : '/' ∉ addr)
    (hscan : ParseAddr addr = some ⟨v4InV6Prefix ++ f, true, []⟩) (hf : f.length = 4)
    (hn : IsDecimal n) (hle : decVal n ≤ 32) :
    netParseCIDR s = some (v4Net f (decVal n)) := by
  unfold netParseCIDR
  rw [hs, splitAt1_append '/' addr n hslash]
  simp only [hscan]
  have hd := (dtoi_iff n 32 (by decide)).2 ⟨hn, hle⟩
  have hv := dtoi_val n hn (by unfold big; omega)
  simp only [ne_eq, not_true_eq_false, if_false, if_true, hd]
  rw [hv, CIDRMask_32 _ hle]
  simp only
  rw [IPMaskApply_v4 f _ hf (cidrMaskLoop_length 4 _)]
  rfl

theorem octet_no_slash {a : List Char} (h : ∀ c ∈ a, isDigit c = true) : '/' ∉ a :=
  fun hm => isDigit_ne_slash (h _ hm) rfl

theorem octet_no_dot {a : List Char} (h : ∀ c ∈ a, isDigit c = true) : '.' ∉ a :=
  fun hm => isDigit_ne_dot (h _ hm) rfl

theorem dotted_no_slash {a b c d : List Char} (ha : ∀ x ∈ a, isDigit x = true)
    (hb : ∀ x ∈ b, isDigit x = true) (hc : ∀ x ∈ c, isDigit x = true)
    (hd : ∀ x ∈ d, isDigit x = true) : '/' ∉ a ++ '.' :: b ++ '.' :: c ++ '.' :: d := by
  intro hm
  simp only [List.mem_append, List.mem_cons] at hm
  have hne : ('/' : Char) ≠ '.' := by decide
  rcases hm with ((h | h | h) | h | h) | h | h
  · exact octet_no_slash ha h
  · exact hne h
  · exact octet_no_slash hb h
  · exact hne h
  · exact octet_no_slash hc h
  · exact hne h
  · exact octet_no_slash hd h

theorem dottedCIDR_data (a b c d n : List Char) :
    (dottedCIDR a b c d n).data = (a ++ '.' :: b ++ '.' :: c ++ '.' :: d) ++ '/' :: n := by
  simp [dottedCIDR]

/-- `net.ParseCIDR` accepts `A.B.C.D/N` with four octets and `N ≤ 32`. -/
theorem netParseCIDR_dotted (a b c d n : List Char) (ha : IsOctet a) (hb : IsOctet b)
    (hc : IsOctet c) (hd : IsOctet d) (hn : IsDecimal n) (hle : decVal n ≤ 32) :
    netParseCIDR (dottedCIDR a b c d n) =
      some (v4Net [decVal a, decVal b, decVal c, decVal d] (decVal n)) := by
  apply netParseCIDR_of_parts _ _ n [decVal a, decVal b, decVal c, decVal d]
    (dottedCIDR_data a b c d n) (dotted_no_slash ha.1.2 hb.1.2 hc.1.2 hd.1.2) _ rfl hn hle
  unfold ParseAddr
  have e : a ++ '.' :: b ++ '.' :: c ++ '.' :: d = a ++ '.' :: (b ++ '.' :: c ++ '.' :: d) := by
    simp
  have h1 := parseAddrScan_digits a (b ++ '.' :: c ++ '.' :: d)
    (a ++ '.' :: b ++ '.' :: c ++ '.' :: d) ha.1.2
  rw [← e] at h1
  rw [h1, parseIPv4_complete a b c d ha hb hc hd]
  rfl

/-- Whatever `net.ParseCIDR` accepts with a 4-byte mask has the form `A.B.C.D/N`
with four octets and `N ≤ 32`. -/
theorem netParseCIDR_v4_inv (s : String) (ipNet : IPNet) (h : netParseCIDR s = some ipNet)
    (h4 : ipNet.Mask.length = 4) :
    ∃ a b c d n, IsOctet a ∧ IsOctet b ∧ IsOctet c ∧ IsOctet d ∧ IsDecimal n ∧
      decVal n ≤ 32 ∧ s = dottedCIDR a b c d n ∧
      ipNet = v4Net [decVal a, decVal b, decVal c, decVal d] (decVal n) := by
  unfold netParseCIDR at h
  rcases hsp : splitAt1 '/' s.data with ⟨addr, _ | mask⟩
  · simp [hsp] at h
  · obtain ⟨hdata, hslash⟩ := splitAt1_some '/' _ _ _ hsp
    simp only [hsp] at h
    rcases hA : ParseAddr addr with _ | A
    · simp [hA] at h
    · simp only [hA] at h
      by_cases hz : A.zone = []
      · simp only [hz, ne_eq, not_true_eq_false, if_false] at h
        by_cases his4 : A.is4 = true
        · simp only [his4, if_true] at h
          split at h
          · exact absurd h (by simp)
          · rename_i hcond
            obtain ⟨hn, hle⟩ := (dtoi_iff mask 32 (by decide)).1 hcond
            have hv := dtoi_val mask hn (by unfold big; omega)
            rw [hv, CIDRMask_32 _ hle] at h
            simp only at h
            obtain ⟨f, hf, hAeq⟩ := parseAddrScan_is4 addr addr A hA his4
            obtain ⟨a, b, c, d, ha, hb, hc, hd, haddr, hfeq⟩ := parseIPv4_inv addr f hf
            have hflen : f.length = 4 := by rw [hfeq]; rfl
            rw [hAeq] at h
            simp only at h
            rw [IPMaskApply_v4 f _ hflen (cidrMaskLoop_length 4 _)] at h
            simp only [Option.some.injEq] at h
            refine ⟨a, b, c, d, mask, ha, hb, hc, hd, hn, hle, ?_, ?_⟩
            · have e : s = String.mk s.data := rfl
              rw [e, hdata, haddr]
              simp [dottedCIDR]
            · rw [← h, hfeq]
              rfl
        · simp only [his4, Bool.false_eq_true, if_false] at h
          split at h
          · exact absurd h (by simp)
          · rename_i hcond
            obtain ⟨hn, hle⟩ := (dtoi_iff mask 128 (by decide)).1 hcond
            have hv := dtoi_val mask hn (by unfold big; omega)
            rw [hv, CIDRMask_128 _ hle] at h
            simp only at h
            rcases hm : IPMaskApply A.addr16 (cidrMaskLoop 16 (decVal mask)) with _ | ip
            · simp [hm] at h
            · simp only [hm, Option.some.injEq] at h
              rw [← h] at h4
              simp only [cidrMaskLoop_length] at h4
              omega
      · simp [hz] at h

/-! ## Lemmas: masks as arithmetic -/

/-- Masking with the top bits of a `w`-bit word clears the low `k` bits. -/
theorem and_high_mask (w k a : Nat) (hk : k ≤ w) (ha : a < 2 ^ w) :
    a &&& (2 ^ w - 2 ^ k) = a / 2 ^ k * 2 ^ k := by
  have hw : 2 ^ w = 2 ^ k * 2 ^ (w - k) := by
    rw [← Nat.pow_add]
    congr 1
    omega
  have hm : 2 ^ w - 2 ^ k = 2 ^ k * (2 ^ (w - k) - 1) := by
    rw [hw, Nat.mul_sub, Nat.mul_one]
  have hq : a / 2 ^ k < 2 ^ (w - k) := by
    apply Nat.div_lt_of_lt_mul
    rw [← hw]
    exact ha
  have hta : ∀ j, a.testBit j =
      if j < k then (a % 2 ^ k).testBit j else (a / 2 ^ k).testBit (j - k) := by
    intro j
    have e := Nat.testBit_mul_pow_two_add (a / 2 ^ k) (Nat.mod_lt a (Nat.two_pow_pos k)) j
    rw [Nat.div_add_mod] at e
    exact e
  apply Nat.eq_of_testBit_eq
  intro j
  rw [Nat.testBit_and, hm, Nat.testBit_mul_pow_two, Nat.mul_comm (a / 2 ^ k),
    Nat.testBit_mul_pow_two, Nat.testBit_two_pow_sub_one, hta j]
  by_cases hj : j < k
  · have h1 : ¬ (j ≥ k) := by omega
    simp [hj, h1]
  · have h1 : j ≥ k := by omega
    simp only [hj, if_false, h1, decide_True, Bool.true_and]
    by_cases h2 : j - k < w - k
    · simp [h2]
    · have h3 : (a / 2 ^ k).testBit (j - k) = false := by
        apply Nat.testBit_lt_two_pow
        exact lt_of_lt_of_le hq (Nat.pow_le_pow_right (by omega) (by omega))
      simp [h3]

/-- Setting the low `k` bits of a multiple of `2 ^ k`. -/
theorem or_low_mask (k q : Nat) : q * 2 ^ k ||| (2 ^ k - 1) = q * 2 ^ k + 2 ^ k - 1 := by
  have hlt : 2 ^ k - 1 < 2 ^ k := Nat.sub_lt (Nat.two_pow_pos k) Nat.one_pos
  have h := Nat.mul_add_lt_is_or hlt q
  rw [Nat.mul_comm q, ← h]
  have := Nat.two_pow_pos k
  omega

theorem byte_and (x : Nat) (hx : x < 256) :
    x &&& 255 = x ∧ x &&& 254 = x / 2 * 2 ∧ x &&& 252 = x / 4 * 4 ∧ x &&& 248 = x / 8 * 8 ∧
    x &&& 240 = x / 16 * 16 ∧ x &&& 224 = x / 32 * 32 ∧ x &&& 192 = x / 64 * 64 ∧
    x &&& 128 = x / 128 * 128 ∧ x &&& 0 = 0 := by
  refine ⟨?_, and_high_mask 8 1 x (by omega) hx, and_high_mask 8 2 x (by omega) hx,
    and_high_mask 8 3 x (by omega) hx, and_high_mask 8 4 x (by omega) hx,
    and_high_mask 8 5 x (by omega) hx, and_high_mask 8 6 x (by omega) hx,
    and_high_mask 8 7 x (by omega) hx, ?_⟩
  · have := and_high_mask 8 0 x (by omega) hx
    simpa using this
  · simp

theorem byte_or (q : Nat) :
    q * 2 ||| 1 = q * 2 + 1 ∧ q * 4 ||| 3 = q * 4 + 3 ∧ q * 8 ||| 7 = q * 8 + 7 ∧
    q * 16 ||| 15 = q * 16 + 15 ∧ q * 32 ||| 31 = q * 32 + 31 ∧ q * 64 ||| 63 = q * 64 + 63 ∧
    q * 128 ||| 127 = q * 128 + 127 :=
  ⟨or_low_mask 1 q, or_low_mask 2 q, or_low_mask 3 q, or_low_mask 4 q, or_low_mask 5 q,
    or_low_mask 6 q, or_low_mask 7 q⟩

theorem maskSize_v4 : ∀ n, n ≤ 32 → MaskSize (cidrMaskLoop 4 n) = (n, 32) := by
  decide

/-- The four address bytes as a 32-bit number. -/
theorem IPToInt_four (a b c d : Nat) (ha : a < 256) (hb : b < 256) (hc : c < 256)
    (hd : d < 256) : IPToInt [a, b, c, d] = a * 2 ^ 24 + b * 2 ^ 16 + c * 2 ^ 8 + d := by
  simp only [IPToInt, To4, List.length_cons, List.length_nil, if_true, List.getD_cons_zero,
    List.getD_cons_succ, Nat.shiftLeft_eq]
  omega

/-- Network address, broadcast address and mask of `A.B.C.D/N` as numbers. -/
theorem v4Net_values (n a b c d : Nat) (hn : n ≤ 32) (ha : a < 256) (hb : b < 256)
    (hc : c < 256) (hd : d < 256) :
    IPToInt (v4Net [a, b, c, d] n).IP =
      (a * 2 ^ 24 + b * 2 ^ 16 + c * 2 ^ 8 + d) / 2 ^ (32 - n) * 2 ^ (32 - n) ∧
    IPToInt (orNotMask (v4Net [a, b, c, d] n).IP (v4Net [a, b, c, d] n).Mask) =
      (a * 2 ^ 24 + b * 2 ^ 16 + c * 2 ^ 8 + d) / 2 ^ (32 - n) * 2 ^ (32 - n) +
        (2 ^ (32 - n) - 1) ∧
    IPToInt (v4Net [a, b, c, d] n).Mask = 2 ^ 32 - 2 ^ (32 - n) := by
  interval_cases n <;>
    simp [v4Net, cidrMaskLoop, notByte, orNotMask, IPToInt, To4, Nat.shiftLeft_eq, byte_and a ha,
      byte_and b hb, byte_and c hc, byte_and d hd, byte_or] <;>
    omega

/-! ## Lemmas: `ParseCIDR` on IPv4 networks -/

theorem isOctet_lt {a : List Char} (h : IsOctet a) : decVal a < 256 := by
  have := h.2.1
  omega

theorem wrapInt64_pow (k : Nat) (hk : k ≤ 32) : wrapInt64 (2 ^ k) = 2 ^ k := by
  unfold wrapInt64
  have h1 : (2 : Int) ^ k ≤ 2 ^ 32 := by
    have : (2 : Nat) ^ k ≤ 2 ^ 32 := Nat.pow_le_pow_right (by omega) hk
    exact_mod_cast this
  have h2 : (0 : Int) < 2 ^ k := by positivity
  omega

/-- The record `ParseCIDR` builds for an input that `net.ParseCIDR` turns into
the IPv4 network of prefix length `n ≥ 1`. -/
theorem ParseCIDR_v4 (s : String) (f : List Nat) (n : Nat) (h0 : 1 ≤ n) (hn : n ≤ 32)
    (h : netParseCIDR s = some (v4Net f n)) :
    ParseCIDR s =
      { Original := s
        Network := IPString (v4Net f n).IP
        Mask := IPString (v4Net f n).Mask
        Broadcast := IPString (orNotMask (v4Net f n).IP (v4Net f n).Mask)
        TotalIPs := 2 ^ (32 - n)
        UsableIPs := if n ≤ 30 then 2 ^ (32 - n) - 2 else 0
        Valid := true
        Category := ""
        ErrorMsg := "" } := by
  unfold ParseCIDR
  rw [h]
  have hm : MaskSize (v4Net f n).Mask = (n, 32) := maskSize_v4 n hn
  have hc : ¬ (n = 0 ∨ (32 : Nat) = 0) := by omega
  simp only [hm, hc, if_false, emptyCIDR, shlInt]
  rw [wrapInt64_pow (32 - n) (by omega)]
  have hu : (if (2 : Int) ^ (32 - n) ≤ 2 then (0 : Int) else wrapInt64 (2 ^ (32 - n) - 2)) =
      if n ≤ 30 then 2 ^ (32 - n) - 2 else 0 := by
    have h31 : n ≤ 30 ∨ n = 31 ∨ n = 32 := by omega
    rcases h31 with h | h | h
    · have h4 : (2 : Nat) ^ 2 ≤ 2 ^ (32 - n) := Nat.pow_le_pow_right (by omega) (by omega)
      have h5 : (4 : Int) ≤ 2 ^ (32 - n) := by exact_mod_cast h4
      have h6 : (2 : Int) ^ (32 - n) ≤ 2 ^ 32 := by
        have : (2 : Nat) ^ (32 - n) ≤ 2 ^ 32 := Nat.pow_le_pow_right (by omega) (by omega)
        exact_mod_cast this
      have h7 : ¬ ((2 : Int) ^ (32 - n) ≤ 2) := by omega
      simp only [h7, if_false, h, if_true]
      unfold wrapInt64
      omega
    · subst h
      decide
    · subst h
      decide
  rw [hu]

/-- The record `ParseCIDR` builds for an input that `net.ParseCIDR` turns into
an IPv4 network of prefix length 0. -/
theorem ParseCIDR_v4_zero (s : String) (f : List Nat)
    (h : netParseCIDR s = some (v4Net f 0)) :
    ParseCIDR s =
      { Original := s
        Network := IPString (v4Net f 0).IP
        Mask := IPString (v4Net f 0).Mask
        Broadcast := IPString (orNotMask (v4Net f 0).IP (v4Net f 0).Mask)
        TotalIPs := 0
        UsableIPs := 0
        Valid := false
        Category := ""
        ErrorMsg := "Invalid subnet mask" } := by
  unfold ParseCIDR
  rw [h]
  have hm : MaskSize (v4Net f 0).Mask = (0, 32) := maskSize_v4 0 (by omega)
  simp [hm, emptyCIDR]

/-- `ParseCIDR` marks valid exactly what `net.ParseCIDR` accepts with a mask of
at least one bit. -/
theorem ParseCIDR_valid_iff (s : String) :
    (ParseCIDR s).Valid = true ↔
      ∃ ipNet, netParseCIDR s = some ipNet ∧ (MaskSize ipNet.Mask).1 ≠ 0 ∧
        (MaskSize ipNet.Mask).2 ≠ 0 := by
  unfold ParseCIDR
  rcases h : netParseCIDR s with _ | ipNet
  · simp [emptyCIDR]
  · simp only [Option.some.injEq, exists_eq_left']
    by_cases hc : (MaskSize ipNet.Mask).1 = 0 ∨ (MaskSize ipNet.Mask).2 = 0
    · simp only [hc, if_true, emptyCIDR]
      constructor
      · intro h1
        exact absurd h1 (by simp)
      · intro ⟨h1, h2⟩
        rcases hc with hc | hc
        · exact absurd hc h1
        · exact absurd hc h2
    · simp only [hc, if_false]
      constructor
      · intro _
        exact ⟨fun h1 => hc (Or.inl h1), fun h2 => hc (Or.inr h2)⟩
      · intro _
        trivial

/-- A valid IPv4 entry parses to the network of four bytes and a prefix length
between 1 and 32. -/
theorem isValidIPv4_net (c : CIDRRange) (h : IsValidIPv4 c) :
    ∃ a b c1 d n, a < 256 ∧ b < 256 ∧ c1 < 256 ∧ d < 256 ∧ 1 ≤ n ∧ n ≤ 32 ∧
      netParseCIDR c.Original = some (v4Net [a, b, c1, d] n) := by
  obtain ⟨_, hv, ipNet, hp, h4⟩ := h
  obtain ⟨a, b, c1, d, n, ha, hb, hc, hd, _, hle, _, hnet⟩ :=
    netParseCIDR_v4_inv c.Original ipNet hp h4
  refine ⟨decVal a, decVal b, decVal c1, decVal d, decVal n, isOctet_lt ha, isOctet_lt hb,
    isOctet_lt hc, isOctet_lt hd, ?_, hle, by rw [hp, hnet]⟩
  obtain ⟨ipNet1, hp1, hones, _⟩ := (ParseCIDR_valid_iff c.Original).1 hv
  rw [hp] at hp1
  have e : ipNet1 = ipNet := (Option.some.inj hp1).symm
  rw [e, hnet] at hones
  have hm : MaskSize (v4Net [decVal a, decVal b, decVal c1, decVal d] (decVal n)).Mask =
      (decVal n, 32) := maskSize_v4 _ hle
  rw [hm] at hones
  simp only [ne_eq] at hones
  omega

/-! ## Lemmas: bytes, dotted quads and `Contains` -/

theorem cidrMaskLoop_lt (l n : Nat) : ∀ x ∈ cidrMaskLoop l n, x < 256 := by
  induction l generalizing n with
  | zero => simp [cidrMaskLoop]
  | succ k ih =>
    intro x hx
    rw [cidrMaskLoop] at hx
    split at hx
    · rcases List.mem_cons.1 hx with rfl | hx
      · omega
      · exact ih _ x hx
    · rcases List.mem_cons.1 hx with rfl | hx
      · unfold notByte
        have h1 : 255 >>> n < 2 ^ 8 := by
          rw [Nat.shiftRight_eq_div_pow]
          exact lt_of_le_of_lt (Nat.div_le_self _ _) (by omega)
        exact Nat.xor_lt_two_pow (by omega : 255 < 2 ^ 8) h1
      · exact ih _ x hx

theorem list_four {α : Type} (l : List α) (h : l.length = 4) : ∃ a b c d, l = [a, b, c, d] := by
  match l, h with
  | [a, b, c, d], _ => exact ⟨a, b, c, d, rfl⟩

/-- The 4-byte mask of prefix length `n`, byte by byte. -/
theorem cidrMaskLoop_four (n : Nat) :
    ∃ m0 m1 m2 m3, m0 < 256 ∧ m1 < 256 ∧ m2 < 256 ∧ m3 < 256 ∧
      cidrMaskLoop 4 n = [m0, m1, m2, m3] := by
  obtain ⟨m0, m1, m2, m3, h⟩ := list_four _ (cidrMaskLoop_length 4 n)
  have hlt := cidrMaskLoop_lt 4 n
  rw [h] at hlt
  exact ⟨m0, m1, m2, m3, hlt m0 (by simp), hlt m1 (by simp), hlt m2 (by simp),
    hlt m3 (by simp), h⟩

theorem IntToIP_IPToInt (a b c d : Nat) (ha : a < 256) (hb : b < 256) (hc : c < 256)
    (hd : d < 256) : IntToIP (IPToInt [a, b, c, d]) = v4InV6Prefix ++ [a, b, c, d] := by
  rw [IPToInt_four a b c d ha hb hc hd]
  unfold IntToIP
  simp only [Nat.shiftRight_eq_div_pow]
  have e1 : (a * 2 ^ 24 + b * 2 ^ 16 + c * 2 ^ 8 + d) / 2 ^ 24 % 256 = a := by omega
  have e2 : (a * 2 ^ 24 + b * 2 ^ 16 + c * 2 ^ 8 + d) / 2 ^ 16 % 256 = b := by omega
  have e3 : (a * 2 ^ 24 + b * 2 ^ 16 + c * 2 ^ 8 + d) / 2 ^ 8 % 256 = c := by omega
  have e4 : (a * 2 ^ 24 + b * 2 ^ 16 + c * 2 ^ 8 + d) % 256 = d := by omega
  rw [e1, e2, e3, e4]

theorem IPString_four (a b c d : Nat) : IPString [a, b, c, d] = String.mk (string4 [a, b, c, d]) := by
  simp [IPString, To4]

theorem IPString_mapped (a b c d : Nat) :
    IPString (v4InV6Prefix ++ [a, b, c, d]) = String.mk (string4 [a, b, c, d]) := by
  simp [IPString, To4, v4InV6Prefix]

/-- `IntToIP(x).String()` is the dotted quad of `x`. -/
theorem IPString_IntToIP (x : Nat) : IPString (IntToIP x) = dottedQuad x := by
  unfold IntToIP
  rw [IPString_mapped]
  simp [string4, dottedQuad, Nat.shiftRight_eq_div_pow]

/-- The text of a 4-byte address is the dotted quad of its number. -/
theorem IPString_eq_dottedQuad (a b c d : Nat) (ha : a < 256) (hb : b < 256) (hc : c < 256)
    (hd : d < 256) : IPString [a, b, c, d] = dottedQuad (IPToInt [a, b, c, d]) := by
  rw [← IPString_IntToIP, IntToIP_IPToInt a b c d ha hb hc hd, IPString_mapped, IPString_four]

/-- Network address, mask and broadcast address of `v4Net`, byte by byte. -/
theorem v4Net_four (a b c d n : Nat) (ha : a < 256) (hb : b < 256) (hc : c < 256)
    (hd : d < 256) :
    ∃ m0 m1 m2 m3, m0 < 256 ∧ m1 < 256 ∧ m2 < 256 ∧ m3 < 256 ∧
      cidrMaskLoop 4 n = [m0, m1, m2, m3] ∧
      (v4Net [a, b, c, d] n).IP = [a &&& m0, b &&& m1, c &&& m2, d &&& m3] ∧
      (v4Net [a, b, c, d] n).Mask = [m0, m1, m2, m3] ∧
      orNotMask (v4Net [a, b, c, d] n).IP (v4Net [a, b, c, d] n).Mask =
        [a &&& m0 ||| notByte m0, b &&& m1 ||| notByte m1, c &&& m2 ||| notByte m2,
          d &&& m3 ||| notByte m3] ∧
      a &&& m0 < 256 ∧ b &&& m1 < 256 ∧ c &&& m2 < 256 ∧ d &&& m3 < 256 ∧
      (a &&& m0 ||| notByte m0) < 256 ∧ (b &&& m1 ||| notByte m1) < 256 ∧
      (c &&& m2 ||| notByte m2) < 256 ∧ (d &&& m3 ||| notByte m3) < 256 := by
  obtain ⟨m0, m1, m2, m3, h0, h1, h2, h3, hm⟩ := cidrMaskLoop_four n
  have hand : ∀ x m : Nat, x < 256 → x &&& m < 256 :=
    fun x m hx => lt_of_le_of_lt Nat.and_le_left hx
  have hor : ∀ x m : Nat, x < 256 → m < 256 → (x &&& m ||| notByte m) < 256 := by
    intro x m hx hmm
    have e1 : x &&& m < 2 ^ 8 := hand x m hx
    have e2 : notByte m < 2 ^ 8 := Nat.xor_lt_two_pow (by omega : 255 < 2 ^ 8) hmm
    exact Nat.or_lt_two_pow e1 e2
  refine ⟨m0, m1, m2, m3, h0, h1, h2, h3, hm, ?_, ?_, ?_, hand a m0 ha, hand b m1 hb,
    hand c m2 hc, hand d m3 hd, hor a m0 ha h0, hor b m1 hb h1, hor c m2 hc h2, hor d m3 hd h3⟩
  · simp [v4Net, hm]
  · simp [v4Net, hm]
  · simp [v4Net, hm, orNotMask]

/-- The fields `ParseCIDR` prints for an IPv4 network are the dotted quads of
the numbers `FindGaps` computes. -/
theorem v4Net_strings (a b c d n : Nat) (ha : a < 256) (hb : b < 256) (hc : c < 256)
    (hd : d < 256) :
    IPString (v4Net [a, b, c, d] n).IP = dottedQuad (IPToInt (v4Net [a, b, c, d] n).IP) ∧
    IPString (v4Net [a, b, c, d] n).Mask = dottedQuad (IPToInt (v4Net [a, b, c, d] n).Mask) ∧
    IPString (orNotMask (v4Net [a, b, c, d] n).IP (v4Net [a, b, c, d] n).Mask) =
      dottedQuad (IPToInt (orNotMask (v4Net [a, b, c, d] n).IP (v4Net [a, b, c, d] n).Mask)) := by
  obtain ⟨m0, m1, m2, m3, h0, h1, h2, h3, _, hip, hmask, hbc, b0, b1, b2, b3, c0, c1, c2, c3⟩ :=
    v4Net_four a b c d n ha hb hc hd
  rw [hbc, hip, hmask]
  exact ⟨IPString_eq_dottedQuad _ _ _ _ b0 b1 b2 b3, IPString_eq_dottedQuad _ _ _ _ h0 h1 h2 h3,
    IPString_eq_dottedQuad _ _ _ _ c0 c1 c2 c3⟩

theorem div_mul_eq_iff (t q x : Nat) (ht : 0 < t) :
    q * t = x / t * t ↔ q * t ≤ x ∧ x ≤ q * t + (t - 1) := by
  constructor
  · intro h
    have h1 : q = x / t := Nat.eq_of_mul_eq_mul_right ht h
    have h2 := Nat.div_add_mod x t
    have h3 := Nat.mod_lt x ht
    have h4 : t * (x / t) = q * t := by rw [h1, Nat.mul_comm]
    omega
  · intro ⟨h1, h2⟩
    have h3 : x / t = q := by
      apply Nat.div_eq_of_lt_le
      · exact h1
      · rw [Nat.succ_mul]
        omega
    rw [h3]

/-- `Contains` on an IPv4 network and a 4-byte address is the test that the
address lies between the network address and the broadcast address. -/
theorem contains_iff (a b c d n p0 p1 p2 p3 : Nat) (hn : n ≤ 32) (ha : a < 256) (hb : b < 256)
    (hc : c < 256) (hd : d < 256) (h0 : p0 < 256) (h1 : p1 < 256) (h2 : p2 < 256)
    (h3 : p3 < 256) :
    Contains (v4Net [a, b, c, d] n) [p0, p1, p2, p3] = true ↔
      IPToInt (v4Net [a, b, c, d] n).IP ≤ IPToInt [p0, p1, p2, p3] ∧
      IPToInt [p0, p1, p2, p3] ≤
        IPToInt (orNotMask (v4Net [a, b, c, d] n).IP (v4Net [a, b, c, d] n).Mask) := by
  obtain ⟨v1, v2, _⟩ := v4Net_values n a b c d hn ha hb hc hd
  obtain ⟨w1, _, _⟩ := v4Net_values n p0 p1 p2 p3 hn h0 h1 h2 h3
  obtain ⟨m0, m1, m2, m3, k0, k1, k2, k3, hm, hip, hmask, _, b0, b1, b2, b3, _⟩ :=
    v4Net_four a b c d n ha hb hc hd
  obtain ⟨_, _, _, _, _, _, _, _, hm', hip', _, _, c0, c1, c2, c3, _⟩ :=
    v4Net_four p0 p1 p2 p3 n h0 h1 h2 h3
  rw [hm] at hm'
  simp only [List.cons.injEq, and_true] at hm'
  obtain ⟨e0, e1, e2, e3⟩ := hm'
  subst e0 e1 e2 e3
  have hcont : Contains (v4Net [a, b, c, d] n) [p0, p1, p2, p3] = true ↔
      IPToInt (v4Net [a, b, c, d] n).IP = IPToInt (v4Net [p0, p1, p2, p3] n).IP := by
    rw [hip, hip', IPToInt_four _ _ _ _ b0 b1 b2 b3, IPToInt_four _ _ _ _ c0 c1 c2 c3]
    have hC : Contains (v4Net [a, b, c, d] n) [p0, p1, p2, p3] = true ↔
        (a &&& m0 = p0 &&& m0 ∧ b &&& m1 = p1 &&& m1 ∧ c &&& m2 = p2 &&& m2 ∧
          d &&& m3 = p3 &&& m3) := by
      unfold Contains networkNumberAndMask
      rw [hip, hmask]
      simp [To4, containsLoop, Nat.and_assoc]
    rw [hC]
    constructor
    · intro ⟨x0, x1, x2, x3⟩
      rw [x0, x1, x2, x3]
    · intro h
      omega
  rw [hcont, v2, v1, w1, IPToInt_four p0 p1 p2 p3 h0 h1 h2 h3]
  exact div_mul_eq_iff (2 ^ (32 - n)) _ _ (Nat.two_pow_pos _)

/-! ## Lemmas: the text `A.B.C.D/N` -/

theorem netParseCIDR_is4 (s : String) (addr n : List Char) (ipNet : IPNet)
    (hs : s.data = addr ++ '/' :: n) (hslash : '/' ∉ addr)
    (hscan : ParseAddr addr = (parseIPv4 addr).map (fun f => ⟨v4InV6Prefix ++ f, true, []⟩))
    (h : netParseCIDR s = some ipNet) : ipNet.Mask.length = 4 := by
  unfold netParseCIDR at h
  rw [hs, splitAt1_append '/' addr n hslash] at h
  simp only [hscan] at h
  rcases hp : parseIPv4 addr with _ | f
  · simp [hp] at h
  · simp only [hp, Option.map_some', ne_eq, not_true_eq_false, if_false, if_true] at h
    split at h
    · exact absurd h (by simp)
    · rcases hm : CIDRMask (dtoi n).1 32 with _ | m
      · simp [hm] at h
      · simp only [hm] at h
        rcases hi : IPMaskApply (v4InV6Prefix ++ f) m with _ | ip
        · simp [hi] at h
        · simp only [hi, Option.some.injEq] at h
          rw [← h]
          unfold CIDRMask at hm
          split at hm
          · exact absurd hm (by simp)
          · split at hm
            · exact absurd hm (by simp)
            · simp only [Option.some.injEq] at hm
              rw [← hm]
              exact cidrMaskLoop_length _ _

theorem dotted_assoc (a b c d : List Char) :
    a ++ '.' :: b ++ '.' :: c ++ '.' :: d = a ++ '.' :: (b ++ '.' :: (c ++ '.' :: d)) := by
  simp

/-- The parts of `A.B.C.D/N` are determined by the text. -/
theorem dottedCIDR_inj {a b c d n a1 b1 c1 d1 n1 : List Char}
    (ha : ∀ x ∈ a, isDigit x = true) (hb : ∀ x ∈ b, isDigit x = true)
    (hc : ∀ x ∈ c, isDigit x = true) (hd : ∀ x ∈ d, isDigit x = true)
    (ha1 : ∀ x ∈ a1, isDigit x = true) (hb1 : ∀ x ∈ b1, isDigit x = true)
    (hc1 : ∀ x ∈ c1, isDigit x = true) (hd1 : ∀ x ∈ d1, isDigit x = true)
    (h : dottedCIDR a b c d n = dottedCIDR a1 b1 c1 d1 n1) :
    a = a1 ∧ b = b1 ∧ c = c1 ∧ d = d1 ∧ n = n1 := by
  have h1 : (dottedCIDR a b c d n).data = (dottedCIDR a1 b1 c1 d1 n1).data := by rw [h]
  rw [dottedCIDR_data, dottedCIDR_data] at h1
  obtain ⟨e1, e2⟩ := dotted_split_unique '/' (dotted_no_slash ha hb hc hd)
    (dotted_no_slash ha1 hb1 hc1 hd1) h1
  rw [dotted_assoc, dotted_assoc] at e1
  obtain ⟨e3, e4⟩ := dotted_split_unique '.' (octet_no_dot ha) (octet_no_dot ha1) e1
  obtain ⟨e5, e6⟩ := dotted_split_unique '.' (octet_no_dot hb) (octet_no_dot hb1) e4
  obtain ⟨e7, e8⟩ := dotted_split_unique '.' (octet_no_dot hc) (octet_no_dot hc1) e6
  exact ⟨e3, e5, e7, e8, e2⟩

/-- What `net.ParseCIDR` accepts of the texts `A.B.C.D/N`, with the network it
returns. -/
theorem dotted_parse_inv (a b c d n : List Char) (ipNet : IPNet)
    (ha : ∀ x ∈ a, isDigit x = true) (hb : ∀ x ∈ b, isDigit x = true)
    (hc : ∀ x ∈ c, isDigit x = true) (hd : ∀ x ∈ d, isDigit x = true)
    (h : netParseCIDR (dottedCIDR a b c d n) = some ipNet) :
    IsOctet a ∧ IsOctet b ∧ IsOctet c ∧ IsOctet d ∧ IsDecimal n ∧ decVal n ≤ 32 ∧
      ipNet = v4Net [decVal a, decVal b, decVal c, decVal d] (decVal n) := by
  have hscan : ParseAddr (a ++ '.' :: b ++ '.' :: c ++ '.' :: d) =
      (parseIPv4 (a ++ '.' :: b ++ '.' :: c ++ '.' :: d)).map
        (fun f => ⟨v4InV6Prefix ++ f, true, []⟩) := by
    unfold ParseAddr
    have h1 := parseAddrScan_digits a (b ++ '.' :: (c ++ '.' :: d))
      (a ++ '.' :: b ++ '.' :: c ++ '.' :: d) ha
    rw [← dotted_assoc] at h1
    exact h1
  have h4 := netParseCIDR_is4 _ _ n ipNet (dottedCIDR_data a b c d n)
    (dotted_no_slash ha hb hc hd) hscan h
  obtain ⟨a1, b1, c1, d1, n1, ka, kb, kc, kd, kn, kle, ks, knet⟩ :=
    netParseCIDR_v4_inv _ ipNet h h4
  obtain ⟨e1, e2, e3, e4, e5⟩ := dottedCIDR_inj ha hb hc hd ka.1.2 kb.1.2 kc.1.2 kd.1.2 ks
  subst e1 e2 e3 e4 e5
  exact ⟨ka, kb, kc, kd, kn, kle, knet⟩

/-- The record of a valid `A.B.C.D/N`. -/
theorem dotted_valid (a b c d n : List Char)
    (ha : ∀ x ∈ a, isDigit x = true) (hb : ∀ x ∈ b, isDigit x = true)
    (hc : ∀ x ∈ c, isDigit x = true) (hd : ∀ x ∈ d, isDigit x = true)
    (hv : (ParseCIDR (dottedCIDR a b c d n)).Valid = true) :
    IsOctet a ∧ IsOctet b ∧ IsOctet c ∧ IsOctet d ∧ IsDecimal n ∧ 1 ≤ decVal n ∧
      decVal n ≤ 32 ∧
      netParseCIDR (dottedCIDR a b c d n) =
        some (v4Net [decVal a, decVal b, decVal c, decVal d] (decVal n)) := by
  obtain ⟨ipNet, hp, hones, _⟩ := (ParseCIDR_valid_iff _).1 hv
  obtain ⟨ka, kb, kc, kd, kn, kle, knet⟩ := dotted_parse_inv a b c d n ipNet ha hb hc hd hp
  refine ⟨ka, kb, kc, kd, kn, ?_, kle, by rw [hp, knet]⟩
  rw [knet] at hones
  have hm : MaskSize (v4Net [decVal a, decVal b, decVal c, decVal d] (decVal n)).Mask =
      (decVal n, 32) := maskSize_v4 _ kle
  rw [hm] at hones
  simp only [ne_eq] at hones
  omega

/-! ## Lemmas: the printed address is never empty -/

theorem appendHex_ne_nil (x : Nat) : appendHex x ≠ [] := by
  unfold appendHex
  simp

theorem string6_ne_nil (ip : List Nat) : string6 ip ≠ [] := by
  unfold string6
  rw [appendGroups]
  simp only [ge_iff_le, Nat.reduceLeDiff, if_false, Nat.lt_irrefl]
  split
  · split <;> simp
  · intro h
    exact appendHex_ne_nil _ (List.append_eq_nil.1 h).1

theorem IPString_ne_empty (ip : List Nat) : IPString ip ≠ "" := by
  have hmk : ∀ l : List Char, l ≠ [] → String.mk l ≠ "" := by
    intro l hl h
    apply hl
    have e : (String.mk l).data = ("" : String).data := by rw [h]
    exact e
  unfold IPString
  split
  · decide
  · split
    · exact hmk _ (by simp)
    · split
      · exact hmk _ (by simp [string4])
      · exact hmk _ (string6_ne_nil ip)

theorem xor_mask : ∀ k, k ≤ 32 → 0xFFFFFFFF ^^^ (2 ^ 32 - 2 ^ k) = 2 ^ k - 1 := by
  decide

/-! ## The claims about `ParseCIDR` -/

/-- C5: for every input `A.B.C.D/N` (decimal numbers) that `ParseCIDR` marks
valid, `totalIPs = 2^(32-N)`, `usableIPs = totalIPs - 2` when `N ≤ 30`, and
`usableIPs = 0` when `N` is 31 or 32. -/
theorem C5_counts (a b c d n : List Char) (ha : IsDecimal a) (hb : IsDecimal b)
    (hc : IsDecimal c) (hd : IsDecimal d) (_hn : IsDecimal n)
    (hv : (ParseCIDR (dottedCIDR a b c d n)).Valid = true) :
    (ParseCIDR (dottedCIDR a b c d n)).TotalIPs = 2 ^ (32 - decVal n) ∧
    (decVal n ≤ 30 →
      (ParseCIDR (dottedCIDR a b c d n)).UsableIPs =
        (ParseCIDR (dottedCIDR a b c d n)).TotalIPs - 2) ∧
    (decVal n = 31 ∨ decVal n = 32 → (ParseCIDR (dottedCIDR a b c d n)).UsableIPs = 0) := by
  obtain ⟨_, _, _, _, _, h1, h32, hp⟩ := dotted_valid a b c d n ha.2 hb.2 hc.2 hd.2 hv
  rw [ParseCIDR_v4 _ _ _ h1 h32 hp]
  refine ⟨rfl, ?_, ?_⟩
  · intro h30
    simp only [h30, if_true]
  · intro h
    have h30 : ¬ (decVal n ≤ 30) := by omega
    simp only [h30, if_false]

/-- C5 at `10.0.0.0/24`. -/
theorem C5_counts_witness :
    (ParseCIDR (dottedCIDR ['1', '0'] ['0'] ['0'] ['0'] ['2', '4'])).TotalIPs =
        2 ^ (32 - decVal ['2', '4']) ∧
    (decVal ['2', '4'] ≤ 30 →
      (ParseCIDR (dottedCIDR ['1', '0'] ['0'] ['0'] ['0'] ['2', '4'])).UsableIPs =
        (ParseCIDR (dottedCIDR ['1', '0'] ['0'] ['0'] ['0'] ['2', '4'])).TotalIPs - 2) ∧
    (decVal ['2', '4'] = 31 ∨ decVal ['2', '4'] = 32 →
      (ParseCIDR (dottedCIDR ['1', '0'] ['0'] ['0'] ['0'] ['2', '4'])).UsableIPs = 0) :=
  C5_counts ['1', '0'] ['0'] ['0'] ['0'] ['2', '4'] (by decide) (by decide) (by decide)
    (by decide) (by decide) (by decide)

/-- The fields of an invalid record: for every input with `valid = false`,
`totalIPs` and `usableIPs` are 0 and `original` is the input; when `net.ParseCIDR` rejects the
input, `network`, `mask` and `broadcast` are empty and `errorMsg` is the
"Invalid CIDR format" message; when `net.ParseCIDR` accepts it (the prefix
length is then 0), `network`, `mask` and `broadcast` are populated, non-empty,
and `errorMsg` is "Invalid subnet mask". -/
theorem ParseCIDR_invalid_fields (s : String) (h : (ParseCIDR s).Valid = false) :
    (ParseCIDR s).TotalIPs = 0 ∧ (ParseCIDR s).UsableIPs = 0 ∧ (ParseCIDR s).Original = s ∧
    (netParseCIDR s = none →
      (ParseCIDR s).Network = "" ∧ (ParseCIDR s).Mask = "" ∧ (ParseCIDR s).Broadcast = "" ∧
      (ParseCIDR s).ErrorMsg = "Invalid CIDR format: invalid CIDR address: " ++ s) ∧
    (∀ ipNet, netParseCIDR s = some ipNet →
      (MaskSize ipNet.Mask).1 = 0 ∧
      (ParseCIDR s).Network = IPString ipNet.IP ∧ (ParseCIDR s).Network ≠ "" ∧
      (ParseCIDR s).Mask = IPString ipNet.Mask ∧ (ParseCIDR s).Mask ≠ "" ∧
      (ParseCIDR s).Broadcast = IPString (orNotMask ipNet.IP ipNet.Mask) ∧
      (ParseCIDR s).Broadcast ≠ "" ∧
      (ParseCIDR s).ErrorMsg = "Invalid subnet mask") := by
  rcases hp : netParseCIDR s with _ | ipNet
  · have hrec : ParseCIDR s =
        { emptyCIDR s with ErrorMsg := "Invalid CIDR format: " ++ parseErrorText s } := by
      unfold ParseCIDR
      rw [hp]
    rw [hrec]
    refine ⟨rfl, rfl, rfl, fun _ => ⟨rfl, rfl, rfl, ?_⟩, fun ipNet h1 => absurd h1 (by simp)⟩
    show "Invalid CIDR format: " ++ ("invalid CIDR address: " ++ s) = _
    rw [← String.append_assoc]
    rfl
  · by_cases hc : (MaskSize ipNet.Mask).1 = 0 ∨ (MaskSize ipNet.Mask).2 = 0
    · have hrec : ParseCIDR s =
          { emptyCIDR s with
            Network := IPString ipNet.IP
            Mask := IPString ipNet.Mask
            Broadcast := IPString (orNotMask ipNet.IP ipNet.Mask)
            ErrorMsg := "Invalid subnet mask" } := by
        unfold ParseCIDR
        rw [hp]
        simp only [hc, if_true]
      have hones : (MaskSize ipNet.Mask).1 = 0 := by
        rcases hc with hc | hc
        · exact hc
        · unfold MaskSize at hc ⊢
          split
          · rfl
          · rename_i ones hs
            rw [hs] at hc
            simp only [Nat.mul_eq_zero] at hc
            have hlen : ipNet.Mask = [] := by
              rcases hc with hc | hc
              · exact List.length_eq_zero.1 hc
              · omega
            rw [hlen] at hs
            simp only [simpleMaskLength, Option.some.injEq] at hs
            exact hs.symm
      rw [hrec]
      refine ⟨rfl, rfl, rfl, fun h1 => absurd h1 (by simp), ?_⟩
      intro ipNet1 h1
      have e : ipNet = ipNet1 := Option.some.inj h1
      subst e
      exact ⟨hones, rfl, IPString_ne_empty _, rfl, IPString_ne_empty _, rfl,
        IPString_ne_empty _, rfl⟩
    · have hv : (ParseCIDR s).Valid = true :=
        (ParseCIDR_valid_iff s).2
          ⟨ipNet, hp, fun h1 => hc (Or.inl h1), fun h2 => hc (Or.inr h2)⟩
      rw [hv] at h
      exact absurd h (by simp)

/-- The fields of the invalid record of `10.0.0.0/0`. -/
theorem ParseCIDR_invalid_fields_at :
    (ParseCIDR "10.0.0.0/0").TotalIPs = 0 ∧ (ParseCIDR "10.0.0.0/0").UsableIPs = 0 ∧
    (ParseCIDR "10.0.0.0/0").Original = "10.0.0.0/0" ∧
    (netParseCIDR "10.0.0.0/0" = none →
      (ParseCIDR "10.0.0.0/0").Network = "" ∧ (ParseCIDR "10.0.0.0/0").Mask = "" ∧
      (ParseCIDR "10.0.0.0/0").Broadcast = "" ∧
      (ParseCIDR "10.0.0.0/0").ErrorMsg =
        "Invalid CIDR format: invalid CIDR address: " ++ "10.0.0.0/0") ∧
    (∀ ipNet, netParseCIDR "10.0.0.0/0" = some ipNet →
      (MaskSize ipNet.Mask).1 = 0 ∧
      (ParseCIDR "10.0.0.0/0").Network = IPString ipNet.IP ∧
      (ParseCIDR "10.0.0.0/0").Network ≠ "" ∧
      (ParseCIDR "10.0.0.0/0").Mask = IPString ipNet.Mask ∧
      (ParseCIDR "10.0.0.0/0").Mask ≠ "" ∧
      (ParseCIDR "10.0.0.0/0").Broadcast = IPString (orNotMask ipNet.IP ipNet.Mask) ∧
      (ParseCIDR "10.0.0.0/0").Broadcast ≠ "" ∧
      (ParseCIDR "10.0.0.0/0").ErrorMsg = "Invalid subnet mask") :=
  ParseCIDR_invalid_fields "10.0.0.0/0" (by decide)

/-- C7 at the failing input `10.0.0.0/0`: the record is invalid with the
message "Invalid subnet mask", yet its `network`, `mask` and `broadcast` are
populated, because the prefix-length guard returns after they were assigned;
the other error return, here at `10.0.0.0`, leaves all three empty. -/
theorem C7_failing_input :
    (ParseCIDR "10.0.0.0/0").Valid = false ∧
    (ParseCIDR "10.0.0.0/0").ErrorMsg = "Invalid subnet mask" ∧
    (ParseCIDR "10.0.0.0").Valid = false ∧
    (ParseCIDR "10.0.0.0").Network = "" ∧ (ParseCIDR "10.0.0.0").Mask = "" ∧
    (ParseCIDR "10.0.0.0").Broadcast = "" ∧
    (ParseCIDR "10.0.0.0/0").Network = "0.0.0.0" ∧
    (ParseCIDR "10.0.0.0/0").Mask = "0.0.0.0" ∧
    (ParseCIDR "10.0.0.0/0").Broadcast = "255.255.255.255" ∧
    ¬ ((ParseCIDR "10.0.0.0/0").Network = "" ∧ (ParseCIDR "10.0.0.0/0").Mask = "" ∧
      (ParseCIDR "10.0.0.0/0").Broadcast = "") := by
  decide

/-- C8: for every input `A.B.C.D/N` that `ParseCIDR` marks valid, with `x` the
32-bit value of `A.B.C.D` and `m` the mask whose top `N` bits are one, `network`
is the dotted quad of `x AND m`, `mask` the dotted quad of `m`, `broadcast` the
dotted quad of `(x AND m) OR (NOT m)`, and network ≤ broadcast as numbers. -/
theorem C8_network_fields (a b c d n : List Char) (ha : IsDecimal a) (hb : IsDecimal b)
    (hc : IsDecimal c) (hd : IsDecimal d) (_hn : IsDecimal n)
    (hv : (ParseCIDR (dottedCIDR a b c d n)).Valid = true) :
    decVal a * 2 ^ 24 + decVal b * 2 ^ 16 + decVal c * 2 ^ 8 + decVal d < 2 ^ 32 ∧
    (ParseCIDR (dottedCIDR a b c d n)).Network =
      dottedQuad ((decVal a * 2 ^ 24 + decVal b * 2 ^ 16 + decVal c * 2 ^ 8 + decVal d) &&&
        (2 ^ 32 - 2 ^ (32 - decVal n))) ∧
    (ParseCIDR (dottedCIDR a b c d n)).Mask = dottedQuad (2 ^ 32 - 2 ^ (32 - decVal n)) ∧
    (ParseCIDR (dottedCIDR a b c d n)).Broadcast =
      dottedQuad (((decVal a * 2 ^ 24 + decVal b * 2 ^ 16 + decVal c * 2 ^ 8 + decVal d) &&&
        (2 ^ 32 - 2 ^ (32 - decVal n))) ||| (0xFFFFFFFF ^^^ (2 ^ 32 - 2 ^ (32 - decVal n)))) ∧
    (decVal a * 2 ^ 24 + decVal b * 2 ^ 16 + decVal c * 2 ^ 8 + decVal d) &&&
        (2 ^ 32 - 2 ^ (32 - decVal n)) ≤
      ((decVal a * 2 ^ 24 + decVal b * 2 ^ 16 + decVal c * 2 ^ 8 + decVal d) &&&
        (2 ^ 32 - 2 ^ (32 - decVal n))) ||| (0xFFFFFFFF ^^^ (2 ^ 32 - 2 ^ (32 - decVal n))) := by
  obtain ⟨ka, kb, kc, kd, _, h1, h32, hp⟩ := dotted_valid a b c d n ha.2 hb.2 hc.2 hd.2 hv
  have la := isOctet_lt ka
  have lb := isOctet_lt kb
  have lc := isOctet_lt kc
  have ld := isOctet_lt kd
  obtain ⟨s1, s2, s3⟩ := v4Net_strings _ _ _ _ (decVal n) la lb lc ld
  obtain ⟨v1, v2, v3⟩ := v4Net_values (decVal n) _ _ _ _ h32 la lb lc ld
  have hx : decVal a * 2 ^ 24 + decVal b * 2 ^ 16 + decVal c * 2 ^ 8 + decVal d < 2 ^ 32 := by
    omega
  have hand := and_high_mask 32 (32 - decVal n) _ (by omega) hx
  have hxor := xor_mask (32 - decVal n) (by omega)
  have hor := or_low_mask (32 - decVal n)
    ((decVal a * 2 ^ 24 + decVal b * 2 ^ 16 + decVal c * 2 ^ 8 + decVal d) / 2 ^ (32 - decVal n))
  have hpos := Nat.two_pow_pos (32 - decVal n)
  rw [ParseCIDR_v4 _ _ _ h1 h32 hp]
  simp only
  rw [s1, s2, s3, v1, v2, v3, hand, hxor, hor]
  refine ⟨hx, rfl, rfl, ?_, ?_⟩
  · congr 1
    omega
  · omega

/-- C8 at `192.168.37.77/20`. -/
theorem C8_network_fields_witness :
    (ParseCIDR "192.168.37.77/20").Network = "192.168.32.0" ∧
    (ParseCIDR "192.168.37.77/20").Mask = "255.255.240.0" ∧
    (ParseCIDR "192.168.37.77/20").Broadcast = "192.168.47.255" ∧
    (ParseCIDR "192.168.37.77/20").Network =
      dottedQuad ((192 * 2 ^ 24 + 168 * 2 ^ 16 + 37 * 2 ^ 8 + 77) &&& (2 ^ 32 - 2 ^ (32 - 20))) :=
  ⟨by decide, by decide, by decide,
    (C8_network_fields ['1', '9', '2'] ['1', '6', '8'] ['3', '7'] ['7', '7'] ['2', '0']
      (by decide) (by decide) (by decide) (by decide) (by decide) (by decide)).2.1⟩

/-! ## Lemmas: overlap of two IPv4 networks -/

/-- `Contains` on two IPv4 networks: the network address of the second lies in
the range of the first. -/
theorem contains_net (a b c d n p0 p1 p2 p3 m : Nat) (hn : n ≤ 32) (ha : a < 256)
    (hb : b < 256) (hc : c < 256) (hd : d < 256) (h0 : p0 < 256) (h1 : p1 < 256)
    (h2 : p2 < 256) (h3 : p3 < 256) :
    Contains (v4Net [a, b, c, d] n) (v4Net [p0, p1, p2, p3] m).IP = true ↔
      IPToInt (v4Net [a, b, c, d] n).IP ≤ IPToInt (v4Net [p0, p1, p2, p3] m).IP ∧
      IPToInt (v4Net [p0, p1, p2, p3] m).IP ≤
        IPToInt (orNotMask (v4Net [a, b, c, d] n).IP (v4Net [a, b, c, d] n).Mask) := by
  obtain ⟨m0, m1, m2, m3, _, _, _, _, _, hip, _, _, b0, b1, b2, b3, _⟩ :=
    v4Net_four p0 p1 p2 p3 m h0 h1 h2 h3
  rw [hip]
  exact contains_iff a b c d n _ _ _ _ hn ha hb hc hd b0 b1 b2 b3

/-- Two aligned power-of-two blocks are nested when the second starts inside
the first, after its start. -/
theorem block_nested (k1 k2 q1 q2 : Nat) (hlt : q1 * 2 ^ k1 < q2 * 2 ^ k2)
    (hle : q2 * 2 ^ k2 ≤ q1 * 2 ^ k1 + (2 ^ k1 - 1)) :
    q2 * 2 ^ k2 + (2 ^ k2 - 1) ≤ q1 * 2 ^ k1 + (2 ^ k1 - 1) := by
  have p1 := Nat.two_pow_pos k1
  have p2 := Nat.two_pow_pos k2
  rcases Nat.le_total k2 k1 with h | h
  · have e : 2 ^ k1 = 2 ^ (k1 - k2) * 2 ^ k2 := by
      rw [← Nat.pow_add]
      congr 1
      omega
    have h1 : q2 * 2 ^ k2 < (q1 * 2 ^ (k1 - k2) + 2 ^ (k1 - k2)) * 2 ^ k2 := by
      rw [Nat.add_mul, Nat.mul_assoc, ← e]
      omega
    have h2 : q2 < q1 * 2 ^ (k1 - k2) + 2 ^ (k1 - k2) := Nat.lt_of_mul_lt_mul_right h1
    have h3 : (q2 + 1) * 2 ^ k2 ≤ (q1 * 2 ^ (k1 - k2) + 2 ^ (k1 - k2)) * 2 ^ k2 :=
      Nat.mul_le_mul_right _ h2
    rw [Nat.add_mul, Nat.add_mul, Nat.mul_assoc, ← e, Nat.one_mul] at h3
    omega
  · exfalso
    have e : 2 ^ k2 = 2 ^ (k2 - k1) * 2 ^ k1 := by
      rw [← Nat.pow_add]
      congr 1
      omega
    rw [e, ← Nat.mul_assoc] at hlt hle
    have h1 : q1 < q2 * 2 ^ (k2 - k1) := Nat.lt_of_mul_lt_mul_right hlt
    have h2 : q2 * 2 ^ (k2 - k1) * 2 ^ k1 < (q1 + 1) * 2 ^ k1 := by
      rw [Nat.add_mul, Nat.one_mul]
      omega
    have h3 : q2 * 2 ^ (k2 - k1) < q1 + 1 := Nat.lt_of_mul_lt_mul_right h2
    omega

theorem netParseCIDR_empty : netParseCIDR "" = none := by decide

/-- What `checkOverlap` does on two valid IPv4 entries, in terms of their
ranges `[s1, e1]` and `[s2, e2]`, both aligned power-of-two blocks. -/
theorem checkOverlap_v4 (c1 c2 : CIDRRange) (h1 : IsValidIPv4 c1) (h2 : IsValidIPv4 c2) :
    ∃ r1 r2 net1 net2 k1 k2 q1 q2,
      cidrRange c1 = some r1 ∧ cidrRange c2 = some r2 ∧
      netParseCIDR c1.Original = some net1 ∧ netParseCIDR c2.Original = some net2 ∧
      r1.start = q1 * 2 ^ k1 ∧ r1.end_ = q1 * 2 ^ k1 + (2 ^ k1 - 1) ∧
      r2.start = q2 * 2 ^ k2 ∧ r2.end_ = q2 * 2 ^ k2 + (2 ^ k2 - 1) ∧
      (Contains net1 net2.IP = true ↔ r1.start ≤ r2.start ∧ r2.start ≤ r1.end_) ∧
      (Contains net2 net1.IP = true ↔ r2.start ≤ r1.start ∧ r1.start ≤ r2.end_) ∧
      c1.Original ≠ "" := by
  obtain ⟨a, b, c, d, n, ha, hb, hc, hd, _, hn, hp1⟩ := isValidIPv4_net c1 h1
  obtain ⟨a', b', c', d', n', ha', hb', hc', hd', _, hn', hp2⟩ := isValidIPv4_net c2 h2
  obtain ⟨v1, v2, _⟩ := v4Net_values n a b c d hn ha hb hc hd
  obtain ⟨w1, w2, _⟩ := v4Net_values n' a' b' c' d' hn' ha' hb' hc' hd'
  refine ⟨⟨_, _⟩, ⟨_, _⟩, _, _, 32 - n, 32 - n', _, _, ?_, ?_, hp1, hp2, v1, v2, w1, w2, ?_, ?_,
    ?_⟩
  · unfold cidrRange
    rw [hp1]
    rfl
  · unfold cidrRange
    rw [hp2]
    rfl
  · exact contains_net a b c d n a' b' c' d' n' hn ha hb hc hd ha' hb' hc' hd'
  · exact contains_net a' b' c' d' n' a b c d n hn' ha' hb' hc' hd' ha hb hc hd
  · intro h
    rw [h, netParseCIDR_empty] at hp1
    exact absurd hp1 (by simp)

/-! ## The claims about `checkOverlap` -/

/-- C2: for every pair of valid IPv4 CIDR entries, `checkOverlap` returns a
non-empty `Overlap` (`CIDR1 ≠ ""`) if and only if the ranges
`[network, broadcast]` of the two have an address in common; and that is the
case exactly when the network address of one lies in the range of the other. -/
theorem C2_overlap_iff_intersect (c1 c2 : CIDRRange) (h1 : IsValidIPv4 c1)
    (h2 : IsValidIPv4 c2) :
    ∃ r1 r2, cidrRange c1 = some r1 ∧ cidrRange c2 = some r2 ∧
      ((checkOverlap c1 c2).CIDR1 ≠ "" ↔ ∃ x, r1.Covers x ∧ r2.Covers x) ∧
      ((∃ x, r1.Covers x ∧ r2.Covers x) ↔ r1.Covers r2.start ∨ r2.Covers r1.start) := by
  obtain ⟨r1, r2, net1, net2, k1, k2, q1, q2, hr1, hr2, hp1, hp2, s1, e1, s2, e2, hc12, hc21,
    hne⟩ := checkOverlap_v4 c1 c2 h1 h2
  have hbase : (∃ x, r1.Covers x ∧ r2.Covers x) ↔ r1.Covers r2.start ∨ r2.Covers r1.start := by
    unfold ipRange.Covers
    constructor
    · intro ⟨x, ⟨x1, x2⟩, x3, x4⟩
      omega
    · intro h
      rcases h with h | h
      · exact ⟨r2.start, h, by omega, by omega⟩
      · exact ⟨r1.start, ⟨by omega, by omega⟩, h⟩
  refine ⟨r1, r2, hr1, hr2, ?_, hbase⟩
  rw [hbase]
  unfold checkOverlap ipRange.Covers
  rw [hp1, hp2]
  simp only
  by_cases hc : (Contains net1 net2.IP || Contains net2 net1.IP) = true
  · simp only [hc, if_true]
    constructor
    · intro _
      rcases Bool.or_eq_true_iff.1 hc with h | h
      · exact Or.inl (hc12.1 h)
      · exact Or.inr (hc21.1 h)
    · intro _
      exact hne
  · simp only [hc, Bool.false_eq_true, if_false, ne_eq, not_true_eq_false, false_iff]
    intro h
    apply hc
    rcases h with h | h
    · exact Bool.or_eq_true_iff.2 (Or.inl (hc12.2 h))
    · exact Bool.or_eq_true_iff.2 (Or.inr (hc21.2 h))

/-- C2 at `10.0.0.0/16` and `10.0.1.0/24`. -/
theorem C2_overlap_iff_intersect_witness :
    ∃ r1 r2, cidrRange (ParseCIDR "10.0.0.0/16") = some r1 ∧
      cidrRange (ParseCIDR "10.0.1.0/24") = some r2 ∧
      ((checkOverlap (ParseCIDR "10.0.0.0/16") (ParseCIDR "10.0.1.0/24")).CIDR1 ≠ "" ↔
        ∃ x, r1.Covers x ∧ r2.Covers x) ∧
      ((∃ x, r1.Covers x ∧ r2.Covers x) ↔ r1.Covers r2.start ∨ r2.Covers r1.start) :=
  C2_overlap_iff_intersect (ParseCIDR "10.0.0.0/16") (ParseCIDR "10.0.1.0/24")
    ⟨by decide, by decide, ⟨[10, 0, 0, 0], [255, 255, 0, 0]⟩, by decide, by decide⟩
    ⟨by decide, by decide, ⟨[10, 0, 1, 0], [255, 255, 255, 0]⟩, by decide, by decide⟩

/-- The overlap type the code reports: for every pair of valid IPv4 CIDR
entries for which `checkOverlap` reports an overlap, the reported type is "complete" if and only
if the two entries have the same network address, whatever their prefix
lengths, and "partial" if and only if their network addresses differ. -/
theorem checkOverlap_type_iff (c1 c2 : CIDRRange) (h1 : IsValidIPv4 c1)
    (h2 : IsValidIPv4 c2) (hov : (checkOverlap c1 c2).CIDR1 ≠ "") :
    ∃ r1 r2, cidrRange c1 = some r1 ∧ cidrRange c2 = some r2 ∧
      ((checkOverlap c1 c2).Type_ = "complete" ↔ r1.start = r2.start) ∧
      ((checkOverlap c1 c2).Type_ = "partial" ↔ r1.start ≠ r2.start) := by
  obtain ⟨r1, r2, net1, net2, k1, k2, q1, q2, hr1, hr2, hp1, hp2, s1, e1, s2, e2, hc12, hc21,
    _⟩ := checkOverlap_v4 c1 c2 h1 h2
  refine ⟨r1, r2, hr1, hr2, ?_⟩
  unfold checkOverlap at hov ⊢
  rw [hp1, hp2] at hov ⊢
  simp only at hov ⊢
  by_cases hc : (Contains net1 net2.IP || Contains net2 net1.IP) = true
  · simp only [hc, if_true]
    have hne : ("partial" : String) ≠ "complete" := by decide
    by_cases hb : (Contains net1 net2.IP && Contains net2 net1.IP) = true
    · obtain ⟨x1, x2⟩ := Bool.and_eq_true_iff.1 hb
      have y1 := hc12.1 x1
      have y2 := hc21.1 x2
      have heq : r1.start = r2.start := by omega
      simp only [hb, if_true, true_iff, heq, ne_eq, not_true_eq_false, iff_false]
      exact ⟨trivial, hne.symm⟩
    · have hneq : r1.start ≠ r2.start := by
        intro heq
        apply hb
        apply Bool.and_eq_true_iff.2
        constructor
        · apply hc12.2
          omega
        · apply hc21.2
          omega
      simp only [hb, Bool.false_eq_true, if_false, hneq, iff_false, ne_eq, not_false_eq_true,
        iff_true]
      exact ⟨hne, trivial⟩
  · simp [hc] at hov

/-- The overlap type of `10.0.0.0/16` and `10.0.1.0/24`. -/
theorem checkOverlap_type_iff_at :
    ∃ r1 r2, cidrRange (ParseCIDR "10.0.0.0/16") = some r1 ∧
      cidrRange (ParseCIDR "10.0.1.0/24") = some r2 ∧
      ((checkOverlap (ParseCIDR "10.0.0.0/16") (ParseCIDR "10.0.1.0/24")).Type_ = "complete" ↔
        r1.start = r2.start) ∧
      ((checkOverlap (ParseCIDR "10.0.0.0/16") (ParseCIDR "10.0.1.0/24")).Type_ = "partial" ↔
        r1.start ≠ r2.start) :=
  checkOverlap_type_iff (ParseCIDR "10.0.0.0/16") (ParseCIDR "10.0.1.0/24")
    ⟨by decide, by decide, ⟨[10, 0, 0, 0], [255, 255, 0, 0]⟩, by decide, by decide⟩
    ⟨by decide, by decide, ⟨[10, 0, 1, 0], [255, 255, 255, 0]⟩, by decide, by decide⟩
    (by decide)

/-- C3 at the failing input `192.168.0.0/16`, `192.168.0.0/17`: both entries
are valid, the first range properly contains the second, and `checkOverlap`
reports the overlap as "complete"; for `192.168.0.0/16` and `192.168.128.0/17`,
the other half of the same block and as properly contained, it reports
"partial". -/
theorem C3_failing_input :
    (ParseCIDR "192.168.0.0/16").Valid = true ∧ (ParseCIDR "192.168.0.0/17").Valid = true ∧
    (checkOverlap (ParseCIDR "192.168.0.0/16") (ParseCIDR "192.168.128.0/17")).Type_ =
      "partial" ∧
    (checkOverlap (ParseCIDR "192.168.0.0/16") (ParseCIDR "192.168.0.0/17")).CIDR1 ≠ "" ∧
    (checkOverlap (ParseCIDR "192.168.0.0/16") (ParseCIDR "192.168.0.0/17")).Type_ =
      "complete" ∧
    cidrRange (ParseCIDR "192.168.0.0/16") = some ⟨3232235520, 3232301055⟩ ∧
    cidrRange (ParseCIDR "192.168.0.0/17") = some ⟨3232235520, 3232268287⟩ ∧
    cidrRange (ParseCIDR "192.168.0.0/16") ≠ cidrRange (ParseCIDR "192.168.0.0/17") := by
  decide

/-- The intersection field the code reports: for every pair of valid IPv4
CIDR entries for which `checkOverlap` reports an overlap, when the network addresses differ the
intersection field is the original string of the entry with the higher network
address, whose range is contained in the other's; when the network addresses
are equal it is the first entry's original string. -/
theorem checkOverlap_intersection (c1 c2 : CIDRRange) (h1 : IsValidIPv4 c1) (h2 : IsValidIPv4 c2)
    (hov : (checkOverlap c1 c2).CIDR1 ≠ "") :
    ∃ r1 r2, cidrRange c1 = some r1 ∧ cidrRange c2 = some r2 ∧
      (r1.start < r2.start →
        (checkOverlap c1 c2).Intersection = c2.Original ∧ r2.end_ ≤ r1.end_) ∧
      (r2.start < r1.start →
        (checkOverlap c1 c2).Intersection = c1.Original ∧ r1.end_ ≤ r2.end_) ∧
      (r1.start = r2.start → (checkOverlap c1 c2).Intersection = c1.Original) := by
  obtain ⟨r1, r2, net1, net2, k1, k2, q1, q2, hr1, hr2, hp1, hp2, s1, e1, s2, e2, hc12, hc21,
    _⟩ := checkOverlap_v4 c1 c2 h1 h2
  refine ⟨r1, r2, hr1, hr2, ?_⟩
  unfold checkOverlap at hov ⊢
  rw [hp1, hp2] at hov ⊢
  simp only at hov ⊢
  by_cases hc : (Contains net1 net2.IP || Contains net2 net1.IP) = true
  · simp only [hc, if_true]
    refine ⟨?_, ?_, ?_⟩
    · intro hlt
      have n21 : ¬ (Contains net2 net1.IP = true) := fun h => by
        have := hc21.1 h
        omega
      have y12 : Contains net1 net2.IP = true := by
        rcases Bool.or_eq_true_iff.1 hc with h | h
        · exact h
        · exact absurd h n21
      have z := hc12.1 y12
      have f21 : Contains net2 net1.IP = false := Bool.eq_false_iff.2 n21
      refine ⟨by simp [y12, f21], ?_⟩
      rw [s1] at hlt z
      rw [e1] at z ⊢
      rw [s2] at hlt z
      rw [e2]
      exact block_nested k1 k2 q1 q2 hlt z.2
    · intro hlt
      have n12 : ¬ (Contains net1 net2.IP = true) := fun h => by
        have := hc12.1 h
        omega
      have y21 : Contains net2 net1.IP = true := by
        rcases Bool.or_eq_true_iff.1 hc with h | h
        · exact absurd h n12
        · exact h
      have z := hc21.1 y21
      have f12 : Contains net1 net2.IP = false := Bool.eq_false_iff.2 n12
      refine ⟨by simp [f12], ?_⟩
      rw [s2] at hlt z
      rw [e2] at z ⊢
      rw [s1] at hlt z
      rw [e1]
      exact block_nested k2 k1 q2 q1 hlt z.2
    · intro heq
      have y12 : Contains net1 net2.IP = true := hc12.2 (by omega)
      have y21 : Contains net2 net1.IP = true := hc21.2 (by omega)
      simp [y12, y21]
  · simp [hc] at hov

/-- The intersection field of `10.0.1.0/24` and `10.0.0.0/16`. -/
theorem checkOverlap_intersection_at :
    ∃ r1 r2, cidrRange (ParseCIDR "10.0.1.0/24") = some r1 ∧
      cidrRange (ParseCIDR "10.0.0.0/16") = some r2 ∧
      (r1.start < r2.start →
        (checkOverlap (ParseCIDR "10.0.1.0/24") (ParseCIDR "10.0.0.0/16")).Intersection =
          (ParseCIDR "10.0.0.0/16").Original ∧ r2.end_ ≤ r1.end_) ∧
      (r2.start < r1.start →
        (checkOverlap (ParseCIDR "10.0.1.0/24") (ParseCIDR "10.0.0.0/16")).Intersection =
          (ParseCIDR "10.0.1.0/24").Original ∧ r1.end_ ≤ r2.end_) ∧
      (r1.start = r2.start →
        (checkOverlap (ParseCIDR "10.0.1.0/24") (ParseCIDR "10.0.0.0/16")).Intersection =
          (ParseCIDR "10.0.1.0/24").Original) :=
  checkOverlap_intersection (ParseCIDR "10.0.1.0/24") (ParseCIDR "10.0.0.0/16")
    ⟨by decide, by decide, ⟨[10, 0, 1, 0], [255, 255, 255, 0]⟩, by decide, by decide⟩
    ⟨by decide, by decide, ⟨[10, 0, 0, 0], [255, 255, 0, 0]⟩, by decide, by decide⟩
    (by decide)

/-- C4 at the failing input `10.0.0.0/16`, `10.0.0.0/24`: both entries are
valid, the block contained in the other is `10.0.0.0/24`, and the intersection
field is `10.0.0.0/16`, the larger block; with the two arguments swapped it is
`10.0.0.0/24`. -/
theorem C4_failing_input :
    (ParseCIDR "10.0.0.0/16").Valid = true ∧ (ParseCIDR "10.0.0.0/24").Valid = true ∧
    (checkOverlap (ParseCIDR "10.0.0.0/24") (ParseCIDR "10.0.0.0/16")).Intersection =
      "10.0.0.0/24" ∧
    (checkOverlap (ParseCIDR "10.0.0.0/16") (ParseCIDR "10.0.0.0/24")).CIDR1 ≠ "" ∧
    (checkOverlap (ParseCIDR "10.0.0.0/16") (ParseCIDR "10.0.0.0/24")).Intersection =
      "10.0.0.0/16" ∧
    (checkOverlap (ParseCIDR "10.0.0.0/16") (ParseCIDR "10.0.0.0/24")).Intersection ≠
      (ParseCIDR "10.0.0.0/24").Original ∧
    cidrRange (ParseCIDR "10.0.0.0/16") = some ⟨167772160, 167837695⟩ ∧
    cidrRange (ParseCIDR "10.0.0.0/24") = some ⟨167772160, 167772415⟩ := by
  decide

/-! ## The claims about `FindGaps` and `SuggestCIDR`, at their failing inputs -/

/-- C1 at the failing input `["0.0.0.0/8", "0.0.0.0/16"]`: both entries are
valid, the highest allocated address is `0.255.255.255` (16777215), and
`FindGaps` reports the gap `1.0.0.0` to `255.255.255.255`, which lies above the
highest allocated address. -/
theorem C1_failing_input :
    (ParseCIDR "0.0.0.0/8").Valid = true ∧ (ParseCIDR "0.0.0.0/16").Valid = true ∧
    cidrRange (ParseCIDR "0.0.0.0/8") = some ⟨0, 16777215⟩ ∧
    cidrRange (ParseCIDR "0.0.0.0/16") = some ⟨0, 65535⟩ ∧
    FindGaps [ParseCIDR "0.0.0.0/8", ParseCIDR "0.0.0.0/16"] =
      [⟨"1.0.0.0", "255.255.255.255", 4278190080, "1.0.0.0/32"⟩] := by
  decide

/-- C9 at the failing input `["0.0.0.0/24", "0.0.0.0/25"]`: the merged list
that `FindGaps` builds holds both ranges, `[0, 255]` and `[0, 127]`, which
overlap. -/
theorem C9_failing_input :
    (ParseCIDR "0.0.0.0/24").Valid = true ∧ (ParseCIDR "0.0.0.0/25").Valid = true ∧
    mergeRanges (sortSlice (rangesOf [ParseCIDR "0.0.0.0/24", ParseCIDR "0.0.0.0/25"])) =
      [⟨0, 255⟩, ⟨0, 127⟩] := by
  decide

/-- C10 at the failing input `(0.0.0.1, 255.255.255.254)`, the gap that
`FindGaps` finds between `0.0.0.0/32` and `255.255.255.255/32`: the gap has
4294967294 addresses and the suggestion is `0.0.0.1/32`, a block of one
address. -/
theorem C10_failing_input :
    SuggestCIDR 1 4294967294 = "0.0.0.1/32" ∧
    FindGaps [ParseCIDR "0.0.0.0/32", ParseCIDR "255.255.255.255/32"] =
      [⟨"0.0.0.1", "255.255.255.254", 4294967294, "0.0.0.1/32"⟩] := by
  decide

/-! ## Lemmas: the IPv6 address parser returns sixteen bytes -/

theorem maskSize_v6 : ∀ n, n ≤ 128 → MaskSize (cidrMaskLoop 16 n) = (n, 128) := by
  decide

theorem fieldsLoop_length (s : List Char) : ∀ (i : Nat) (prev : Char) (val pos digLen : Nat)
    (fields f : List Nat),
    parseIPv4FieldsLoop s i prev val pos digLen fields = some f → f.length = fields.length := by
  induction s with
  | nil =>
    intro i prev val pos digLen fields f h
    rw [parseIPv4FieldsLoop] at h
    split at h
    · exact absurd h (by simp)
    · simp only [Option.some.injEq] at h
      rw [← h]
      simp
  | cons c cs ih =>
    intro i prev val pos digLen fields f h
    rw [parseIPv4FieldsLoop] at h
    split at h
    · split at h
      · exact absurd h (by simp)
      · split at h
        · exact absurd h (by simp)
        · exact ih _ _ _ _ _ _ _ h
    · split at h
      · split at h
        · exact absurd h (by simp)
        · split at h
          · exact absurd h (by simp)
          · have := ih _ _ _ _ _ _ _ h
            simpa using this
      · exact absurd h (by simp)

theorem parseIPv6Loop_inv (groups : Nat) : ∀ (s : List Char) (ip : List Nat) (ell : Option Nat)
    (st : V6State), groups ≤ 8 → ip.length = 16 → (∀ e, ell = some e → e ≤ 16 - 2 * groups) →
    parseIPv6Loop groups s ip ell = some st →
    st.ip.length = 16 ∧ st.i ≤ 16 ∧ (∀ e, st.ellipsis = some e → e ≤ st.i) := by
  induction groups with
  | zero =>
    intro s ip ell st _ hlen hell h
    rw [parseIPv6Loop] at h
    simp only [Option.some.injEq] at h
    subst h
    exact ⟨hlen, Nat.le_refl _, fun e he => by
      have := hell e he
      dsimp only at he ⊢
      omega⟩
  | succ g ih =>
    intro s ip ell st hg hlen hell h
    rw [parseIPv6Loop] at h
    simp only at h
    split at h
    · exact absurd h (by simp)
    · rename_i acc off rest hscan
      split at h
      · exact absurd h (by simp)
      · split at h
        · split at h
          · exact absurd h (by simp)
          · split at h
            · exact absurd h (by simp)
            · rename_i _ _ hroom
              split at h
              · exact absurd h (by simp)
              · rename_i f hf
                simp only [Option.some.injEq] at h
                subst h
                dsimp only
                have hfl : f.length = 4 := by
                  have := fieldsLoop_length _ _ _ _ _ _ _ _ hf
                  rw [this]
                  simp only [List.length_take, List.length_drop, hlen]
                  omega
                refine ⟨?_, by omega, ?_⟩
                · simp only [List.length_append, List.length_take, List.length_drop, hlen, hfl]
                  omega
                · intro e he
                  have := hell e he
                  omega
        · have hl1 : ((ip.set (16 - 2 * (g + 1)) (acc / 256 % 256)).set
              (16 - 2 * (g + 1) + 1) (acc % 256)).length = 16 := by
            simp [hlen]
          split at h
          · simp only [Option.some.injEq] at h
            subst h
            dsimp only
            refine ⟨hl1, by omega, ?_⟩
            intro e he
            have := hell e he
            omega
          · split at h
            · exact absurd h (by simp)
            · split at h
              · exact absurd h (by simp)
              · split at h
                · split at h
                  · exact absurd h (by simp)
                  · split at h
                    · simp only [Option.some.injEq] at h
                      subst h
                      dsimp only
                      refine ⟨hl1, by omega, ?_⟩
                      intro e he
                      simp only [Option.some.injEq] at he
                      omega
                    · exact ih _ _ _ st (by omega) hl1
                        (fun e he => by
                          simp only [Option.some.injEq] at he
                          omega) h
                · exact ih _ _ _ st (by omega) hl1
                    (fun e he => by
                      have := hell e he
                      omega) h

theorem parseIPv6Groups_length (lead : Bool) (s : List Char) (ip : List Nat)
    (h : parseIPv6Groups lead s = some ip) : ip.length = 16 := by
  unfold parseIPv6Groups at h
  split at h
  · simp only [Option.some.injEq] at h
    rw [← h]
    simp
  · split at h
    · exact absurd h (by simp)
    · rename_i st hst
      have hinv := parseIPv6Loop_inv 8 _ _ _ st (Nat.le_refl _) (by simp)
        (fun e he => by
          cases lead
          · simp at he
          · simp only [if_true, Option.some.injEq] at he
            omega) hst
      obtain ⟨k1, k2, k3⟩ := hinv
      split at h
      · exact absurd h (by simp)
      · split at h
        · split at h
          · exact absurd h (by simp)
          · rename_i e he
            have := k3 e he
            simp only [Option.some.injEq] at h
            rw [← h]
            simp only [List.length_append, List.length_take, List.length_drop,
              List.length_replicate, k1]
            omega
        · split at h
          · exact absurd h (by simp)
          · simp only [Option.some.injEq] at h
            rw [← h]
            exact k1

theorem parseIPv6_length (s : List Char) (r : List Nat × List Char) (h : parseIPv6 s = some r) :
    r.1.length = 16 := by
  unfold parseIPv6 at h
  split at h
  · exact absurd h (by simp)
  · simp only [Option.map_eq_some'] at h
    obtain ⟨ip, hip, e⟩ := h
    rw [← e]
    exact parseIPv6Groups_length _ _ ip hip

theorem parseAddrScan_not4 (l s : List Char) (A : Addr) (h : parseAddrScan l s = some A)
    (h4 : A.is4 = false) : A.addr16.length = 16 := by
  induction l with
  | nil => simp [parseAddrScan] at h
  | cons c cs ih =>
    rw [parseAddrScan] at h
    by_cases h1 : c = '.'
    · simp only [h1, if_true, Option.map_eq_some'] at h
      obtain ⟨f, _, e⟩ := h
      rw [← e] at h4
      simp at h4
    · simp only [h1, if_false] at h
      by_cases h2 : c = ':'
      · simp only [h2, if_true, Option.map_eq_some'] at h
        obtain ⟨r, hr, e⟩ := h
        rw [← e]
        exact parseIPv6_length s r hr
      · simp only [h2, if_false] at h
        by_cases h3 : c = '%'
        · simp [h3] at h
        · simp only [h3, if_false] at h
          exact ih h

/-! ## The claim about what `ParseCIDR` accepts -/

theorem netParseCIDR_mask_len (s : String) (ipNet : IPNet) (h : netParseCIDR s = some ipNet) :
    ipNet.Mask.length = 4 ∨ ipNet.Mask.length = 16 := by
  unfold netParseCIDR at h
  rcases hsp : splitAt1 '/' s.data with ⟨addr, _ | mask⟩
  · simp [hsp] at h
  · simp only [hsp] at h
    rcases hA : ParseAddr addr with _ | A
    · simp [hA] at h
    · simp only [hA] at h
      by_cases hz : A.zone = []
      · simp only [hz, ne_eq, not_true_eq_false, if_false] at h
        by_cases his4 : A.is4 = true
        · simp only [his4, if_true] at h
          split at h
          · exact absurd h (by simp)
          · rename_i hcond
            obtain ⟨hn, hle⟩ := (dtoi_iff mask 32 (by decide)).1 hcond
            have hv := dtoi_val mask hn (by unfold big; omega)
            rw [hv, CIDRMask_32 _ hle] at h
            simp only at h
            rcases hm : IPMaskApply A.addr16 (cidrMaskLoop 4 (decVal mask)) with _ | ip
            · simp [hm] at h
            · simp only [hm, Option.some.injEq] at h
              rw [← h]
              left
              exact cidrMaskLoop_length _ _
        · simp only [his4, Bool.false_eq_true, if_false] at h
          split at h
          · exact absurd h (by simp)
          · rename_i hcond
            obtain ⟨hn, hle⟩ := (dtoi_iff mask 128 (by decide)).1 hcond
            have hv := dtoi_val mask hn (by unfold big; omega)
            rw [hv, CIDRMask_128 _ hle] at h
            simp only at h
            rcases hm : IPMaskApply A.addr16 (cidrMaskLoop 16 (decVal mask)) with _ | ip
            · simp [hm] at h
            · simp only [hm, Option.some.injEq] at h
              rw [← h]
              right
              exact cidrMaskLoop_length _ _
      · simp [hz] at h

theorem IPMaskApply_v6 (ip m : List Nat) (hip : ip.length = 16) (hm : m.length = 16) :
    IPMaskApply ip m = some (List.zipWith (fun a b => a &&& b) ip m) := by
  unfold IPMaskApply
  simp [hip, hm]

/-- `net.ParseCIDR` accepts `addr/N` with an IPv6 address and `N ≤ 128`. -/
theorem netParseCIDR_v6 (s : String) (addr n : List Char) (A : Addr)
    (hs : s.data = addr ++ '/' :: n) (hslash : '/' ∉ addr) (hA : ParseAddr addr = some A)
    (h4 : A.is4 = false) (hz : A.zone = []) (hn : IsDecimal n) (hle : decVal n ≤ 128) :
    netParseCIDR s =
      some ⟨List.zipWith (fun a b => a &&& b) A.addr16 (cidrMaskLoop 16 (decVal n)),
        cidrMaskLoop 16 (decVal n)⟩ := by
  unfold netParseCIDR
  rw [hs, splitAt1_append '/' addr n hslash]
  simp only [hA, hz, ne_eq, not_true_eq_false, if_false, h4, Bool.false_eq_true]
  have hd := (dtoi_iff n 128 (by decide)).2 ⟨hn, hle⟩
  have hv := dtoi_val n hn (by unfold big; omega)
  simp only [ne_eq, if_false, hd]
  rw [hv, CIDRMask_128 _ hle]
  simp only
  rw [IPMaskApply_v6 _ _ (parseAddrScan_not4 addr addr A hA h4) (cidrMaskLoop_length 16 _)]

/-- Whatever `net.ParseCIDR` accepts with a 16-byte mask is `addr/N` with an
IPv6 address and `N ≤ 128`. -/
theorem netParseCIDR_v6_inv (s : String) (ipNet : IPNet) (h : netParseCIDR s = some ipNet)
    (h16 : ipNet.Mask.length = 16) :
    ∃ addr n A, '/' ∉ addr ∧ ParseAddr addr = some A ∧ A.is4 = false ∧ A.zone = [] ∧
      IsDecimal n ∧ decVal n ≤ 128 ∧ s = String.mk (addr ++ '/' :: n) ∧
      ipNet.Mask = cidrMaskLoop 16 (decVal n) := by
  unfold netParseCIDR at h
  rcases hsp : splitAt1 '/' s.data with ⟨addr, _ | mask⟩
  · simp [hsp] at h
  · obtain ⟨hdata, hslash⟩ := splitAt1_some '/' _ _ _ hsp
    simp only [hsp] at h
    rcases hA : ParseAddr addr with _ | A
    · simp [hA] at h
    · simp only [hA] at h
      by_cases hz : A.zone = []
      · simp only [hz, ne_eq, not_true_eq_false, if_false] at h
        by_cases his4 : A.is4 = true
        · simp only [his4, if_true] at h
          split at h
          · exact absurd h (by simp)
          · rename_i hcond
            obtain ⟨hn, hle⟩ := (dtoi_iff mask 32 (by decide)).1 hcond
            have hv := dtoi_val mask hn (by unfold big; omega)
            rw [hv, CIDRMask_32 _ hle] at h
            simp only at h
            rcases hm : IPMaskApply A.addr16 (cidrMaskLoop 4 (decVal mask)) with _ | ip
            · simp [hm] at h
            · simp only [hm, Option.some.injEq] at h
              rw [← h] at h16
              simp only [cidrMaskLoop_length] at h16
              omega
        · simp only [his4, Bool.false_eq_true, if_false] at h
          split at h
          · exact absurd h (by simp)
          · rename_i hcond
            obtain ⟨hn, hle⟩ := (dtoi_iff mask 128 (by decide)).1 hcond
            have hv := dtoi_val mask hn (by unfold big; omega)
            rw [hv, CIDRMask_128 _ hle] at h
            simp only at h
            rcases hm : IPMaskApply A.addr16 (cidrMaskLoop 16 (decVal mask)) with _ | ip
            · simp [hm] at h
            · simp only [hm, Option.some.injEq] at h
              refine ⟨addr, mask, A, hslash, hA, Bool.eq_false_iff.2 his4, hz, hn, hle, ?_, ?_⟩
              · have e : s = String.mk s.data := rfl
                rw [e, hdata]
              · rw [← h]
      · simp [hz] at h

/-- C6, amended: `ParseCIDR` returns `valid = true` for exactly (a) the strings
`A.B.C.D/N` in which each octet is a decimal number in `[0, 255]` written
without a leading zero and `N` is a decimal number with `1 ≤ N ≤ 32`, and
(b) the strings `addr/N` in which `addr` is an IPv6 address that
`netip.ParseAddr` accepts, without zone, and `N` is a decimal number with
`1 ≤ N ≤ 128`; every other string yields `valid = false`. -/
theorem C6_valid_iff (s : String) :
    ((ParseCIDR s).Valid = true ↔ IsIPv4CIDRText s ∨ IsIPv6CIDRText s) ∧
    ((ParseCIDR s).Valid = false ↔ ¬ (IsIPv4CIDRText s ∨ IsIPv6CIDRText s)) := by
  have hiff : (ParseCIDR s).Valid = true ↔ IsIPv4CIDRText s ∨ IsIPv6CIDRText s := by
    rw [ParseCIDR_valid_iff]
    constructor
    · intro ⟨ipNet, hp, hones, _⟩
      rcases netParseCIDR_mask_len s ipNet hp with h4 | h16
      · left
        obtain ⟨a, b, c, d, n, ha, hb, hc, hd, hn, hle, hs, hnet⟩ :=
          netParseCIDR_v4_inv s ipNet hp h4
        refine ⟨a, b, c, d, n, ha, hb, hc, hd, hn, ?_, hle, hs⟩
        rw [hnet] at hones
        have hm : MaskSize (v4Net [decVal a, decVal b, decVal c, decVal d] (decVal n)).Mask =
            (decVal n, 32) := maskSize_v4 _ hle
        rw [hm] at hones
        simp only [ne_eq] at hones
        omega
      · right
        obtain ⟨addr, n, A, hslash, hA, h4, hz, hn, hle, hs, hmask⟩ :=
          netParseCIDR_v6_inv s ipNet hp h16
        refine ⟨addr, n, A, hslash, hA, h4, hz, hn, ?_, hle, hs⟩
        rw [hmask, maskSize_v6 _ hle] at hones
        simp only [ne_eq] at hones
        omega
    · intro h
      rcases h with ⟨a, b, c, d, n, ha, hb, hc, hd, hn, h1, hle, hs⟩ |
        ⟨addr, n, A, hslash, hA, h4, hz, hn, h1, hle, hs⟩
      · refine ⟨_, by rw [hs]; exact netParseCIDR_dotted a b c d n ha hb hc hd hn hle, ?_, ?_⟩
        · rw [show MaskSize (v4Net [decVal a, decVal b, decVal c, decVal d] (decVal n)).Mask =
            (decVal n, 32) from maskSize_v4 _ hle]
          simp only [ne_eq]
          omega
        · rw [show MaskSize (v4Net [decVal a, decVal b, decVal c, decVal d] (decVal n)).Mask =
            (decVal n, 32) from maskSize_v4 _ hle]
          simp
      · have hdata : s.data = addr ++ '/' :: n := by rw [hs]
        refine ⟨_, netParseCIDR_v6 s addr n A hdata hslash hA h4 hz hn hle, ?_, ?_⟩
        · simp only [maskSize_v6 _ hle, ne_eq]
          omega
        · simp only [maskSize_v6 _ hle, ne_eq]
          omega
  refine ⟨hiff, ?_⟩
  rw [← hiff]
  cases (ParseCIDR s).Valid <;> simp

/-- C6 as stated fails: `10.0.0.0/0` has octets in `[0, 255]` and `N = 0` in
`[0, 32]` but is marked invalid; and `2001:db8::/32`, which is not of the form
`A.B.C.D/N`, is marked valid. -/
theorem C6_counterexample :
    ("10.0.0.0/0" = dottedCIDR ['1', '0'] ['0'] ['0'] ['0'] ['0'] ∧
      IsOctet ['1', '0'] ∧ IsOctet ['0'] ∧ IsDecimal ['0'] ∧ decVal ['0'] = 0 ∧
      (ParseCIDR "10.0.0.0/0").Valid = false) ∧
    (ParseCIDR "2001:db8::/32").Valid = true := by
  decide

/-! ## Lemmas: printing and reading back a dotted quad -/

set_option maxRecDepth 100000 in
theorem ubtoa_octet : ∀ b, b < 256 → IsOctet (ubtoa b) ∧ decVal (ubtoa b) = b := by
  decide

/-- Reading the dotted quad of a 32-bit number gives back its four bytes. -/
theorem parseIPv4_dottedQuad (x : Nat) :
    parseIPv4 (dottedQuad x).data =
      some [x / 2 ^ 24 % 256, x / 2 ^ 16 % 256, x / 2 ^ 8 % 256, x % 256] := by
  have h0 := ubtoa_octet (x / 2 ^ 24 % 256) (Nat.mod_lt _ (by omega))
  have h1 := ubtoa_octet (x / 2 ^ 16 % 256) (Nat.mod_lt _ (by omega))
  have h2 := ubtoa_octet (x / 2 ^ 8 % 256) (Nat.mod_lt _ (by omega))
  have h3 := ubtoa_octet (x % 256) (Nat.mod_lt _ (by omega))
  have h := parseIPv4_complete _ _ _ _ h0.1 h1.1 h2.1 h3.1
  rw [h0.2, h1.2, h2.2, h3.2] at h
  exact h

/-- Two 32-bit numbers with the same dotted quad are equal. -/
theorem dottedQuad_inj (x y : Nat) (hx : x < 2 ^ 32) (hy : y < 2 ^ 32)
    (h : dottedQuad x = dottedQuad y) : x = y := by
  have h1 := parseIPv4_dottedQuad x
  rw [h, parseIPv4_dottedQuad y] at h1
  simp only [Option.some.injEq, List.cons.injEq, and_true] at h1
  omega

/-! ## The claims about the address codec and the parsed record -/

/-- C13: `IPToInt` and `IntToIP` are mutually inverse on IPv4: for every 32-bit
value `n`, `IPToInt(IntToIP(n)) = n`; for every IPv4 address `a.b.c.d` (in its
4-byte or its 16-byte form), `IPToInt` yields `a·2^24 + b·2^16 + c·2^8 + d` and
`IntToIP` of that value is `a.b.c.d` again; for an address that is not IPv4
(`To4` is nil) `IPToInt` returns 0. -/
theorem C13_codec_inverse (n a b c d : Nat) (ip : List Nat) (hn : n < 2 ^ 32) (ha : a < 256)
    (hb : b < 256) (hc : c < 256) (hd : d < 256) (hip : To4 ip = none) :
    IPToInt (IntToIP n) = n ∧
    IPToInt [a, b, c, d] = a * 2 ^ 24 + b * 2 ^ 16 + c * 2 ^ 8 + d ∧
    IPToInt (v4InV6Prefix ++ [a, b, c, d]) = a * 2 ^ 24 + b * 2 ^ 16 + c * 2 ^ 8 + d ∧
    IntToIP (a * 2 ^ 24 + b * 2 ^ 16 + c * 2 ^ 8 + d) = v4InV6Prefix ++ [a, b, c, d] ∧
    To4 (IntToIP (a * 2 ^ 24 + b * 2 ^ 16 + c * 2 ^ 8 + d)) = some [a, b, c, d] ∧
    IPString (IntToIP (a * 2 ^ 24 + b * 2 ^ 16 + c * 2 ^ 8 + d)) = IPString [a, b, c, d] ∧
    IPToInt ip = 0 := by
  have hto4 : ∀ w x y z : Nat, To4 (v4InV6Prefix ++ [w, x, y, z]) = some [w, x, y, z] := by
    intro w x y z
    simp [To4, v4InV6Prefix]
  have hmapped : ∀ w x y z : Nat,
      IPToInt (v4InV6Prefix ++ [w, x, y, z]) = IPToInt [w, x, y, z] := by
    intro w x y z
    unfold IPToInt
    rw [hto4]
    simp [To4]
  have h4 := IPToInt_four a b c d ha hb hc hd
  have hback := IntToIP_IPToInt a b c d ha hb hc hd
  rw [h4] at hback
  refine ⟨?_, h4, by rw [hmapped, h4], hback, by rw [hback, hto4], ?_, ?_⟩
  · unfold IntToIP
    rw [hmapped, IPToInt_four _ _ _ _ (Nat.mod_lt _ (by omega)) (Nat.mod_lt _ (by omega))
      (Nat.mod_lt _ (by omega)) (Nat.mod_lt _ (by omega))]
    simp only [Nat.shiftRight_eq_div_pow]
    omega
  · rw [hback, IPString_mapped, IPString_four]
  · unfold IPToInt
    rw [hip]

/-- C13 at `n = 167772416` (`10.0.1.0`), the address `192.168.1.77`, and the
IPv6 address `2001:db8::`. -/
theorem C13_codec_inverse_witness :
    IPToInt (IntToIP 167772416) = 167772416 ∧
    IPToInt [192, 168, 1, 77] = 192 * 2 ^ 24 + 168 * 2 ^ 16 + 1 * 2 ^ 8 + 77 ∧
    IPToInt (v4InV6Prefix ++ [192, 168, 1, 77]) = 192 * 2 ^ 24 + 168 * 2 ^ 16 + 1 * 2 ^ 8 + 77 ∧
    IntToIP (192 * 2 ^ 24 + 168 * 2 ^ 16 + 1 * 2 ^ 8 + 77) =
      v4InV6Prefix ++ [192, 168, 1, 77] ∧
    To4 (IntToIP (192 * 2 ^ 24 + 168 * 2 ^ 16 + 1 * 2 ^ 8 + 77)) = some [192, 168, 1, 77] ∧
    IPString (IntToIP (192 * 2 ^ 24 + 168 * 2 ^ 16 + 1 * 2 ^ 8 + 77)) =
      IPString [192, 168, 1, 77] ∧
    IPToInt [0x20, 0x01, 0x0d, 0xb8, 0, 0, 0, 0, 0, 0, 0, 0, 0, 0, 0, 0] = 0 :=
  C13_codec_inverse 167772416 192 168 1 77
    [0x20, 0x01, 0x0d, 0xb8, 0, 0, 0, 0, 0, 0, 0, 0, 0, 0, 0, 0]
    (by decide) (by decide) (by decide) (by decide) (by decide) (by decide)

/-- C15: for every input string `s`, `ParseCIDR(s)` is a record whose
`original` is `s`, and whose `errorMsg` is non-empty exactly when `valid` is
false: valid entries carry an empty `errorMsg`, invalid entries a non-empty
one. -/
theorem C15_original_and_errorMsg (s : String) :
    (ParseCIDR s).Original = s ∧
    ((ParseCIDR s).ErrorMsg ≠ "" ↔ (ParseCIDR s).Valid = false) ∧
    ((ParseCIDR s).Valid = true → (ParseCIDR s).ErrorMsg = "") ∧
    ((ParseCIDR s).Valid = false → (ParseCIDR s).ErrorMsg ≠ "") := by
  have hne : ∀ t : String, "Invalid CIDR format: " ++ t ≠ "" := by
    intro t h
    have e : ("Invalid CIDR format: " ++ t).data = ("" : String).data := by rw [h]
    simp only [String.data_append] at e
    exact absurd e (by
      intro e1
      have := (List.append_eq_nil.1 e1).1
      exact absurd this (by decide))
  rcases hp : netParseCIDR s with _ | ipNet
  · have hrec : ParseCIDR s =
        { emptyCIDR s with ErrorMsg := "Invalid CIDR format: " ++ parseErrorText s } := by
      unfold ParseCIDR
      rw [hp]
    rw [hrec]
    exact ⟨rfl, ⟨fun _ => rfl, fun _ => hne _⟩, fun h => absurd h (by simp [emptyCIDR]),
      fun _ => hne _⟩
  · by_cases hc : (MaskSize ipNet.Mask).1 = 0 ∨ (MaskSize ipNet.Mask).2 = 0
    · have hrec : ParseCIDR s =
          { emptyCIDR s with
            Network := IPString ipNet.IP
            Mask := IPString ipNet.Mask
            Broadcast := IPString (orNotMask ipNet.IP ipNet.Mask)
            ErrorMsg := "Invalid subnet mask" } := by
        unfold ParseCIDR
        rw [hp]
        simp only [hc, if_true]
      have h2 : ("Invalid subnet mask" : String) ≠ "" := by decide
      rw [hrec]
      exact ⟨rfl, ⟨fun _ => rfl, fun _ => h2⟩, fun h => absurd h (by simp [emptyCIDR]),
        fun _ => h2⟩
    · have hv : (ParseCIDR s).Valid = true :=
        (ParseCIDR_valid_iff s).2
          ⟨ipNet, hp, fun h1 => hc (Or.inl h1), fun h2 => hc (Or.inr h2)⟩
      have he : (ParseCIDR s).ErrorMsg = "" := by
        unfold ParseCIDR
        rw [hp]
        simp only [hc, if_false]
        rfl
      have ho : (ParseCIDR s).Original = s := by
        unfold ParseCIDR
        rw [hp]
        simp only [hc, if_false]
        rfl
      rw [hv, he]
      exact ⟨ho, ⟨fun h => absurd rfl h, fun h => absurd h (by simp)⟩, fun _ => rfl,
        fun h => absurd h (by simp)⟩

/-- C19: for every input `A.B.C.D/N` that `ParseCIDR` marks valid, with
`network` and `broadcast` the dotted quads of the 32-bit numbers `s` and `e`
(the range of the entry), `e - s + 1 = totalIPs` and `network` is a multiple of
`totalIPs`. -/
theorem C19_count_agrees_with_range (a b c d n : List Char) (ha : IsDecimal a)
    (hb : IsDecimal b) (hc : IsDecimal c) (hd : IsDecimal d) (_hn : IsDecimal n)
    (hv : (ParseCIDR (dottedCIDR a b c d n)).Valid = true) :
    ∃ s e : Nat, s ≤ e ∧ e < 2 ^ 32 ∧
      cidrRange (ParseCIDR (dottedCIDR a b c d n)) = some ⟨s, e⟩ ∧
      (ParseCIDR (dottedCIDR a b c d n)).Network = dottedQuad s ∧
      (ParseCIDR (dottedCIDR a b c d n)).Broadcast = dottedQuad e ∧
      (e : Int) - (s : Int) + 1 = (ParseCIDR (dottedCIDR a b c d n)).TotalIPs ∧
      (ParseCIDR (dottedCIDR a b c d n)).TotalIPs ∣ (s : Int) := by
  obtain ⟨ka, kb, kc, kd, _, h1, h32, hp⟩ := dotted_valid a b c d n ha.2 hb.2 hc.2 hd.2 hv
  have la := isOctet_lt ka
  have lb := isOctet_lt kb
  have lc := isOctet_lt kc
  have ld := isOctet_lt kd
  obtain ⟨s1, _, s3⟩ := v4Net_strings _ _ _ _ (decVal n) la lb lc ld
  obtain ⟨v1, v2, _⟩ := v4Net_values (decVal n) _ _ _ _ h32 la lb lc ld
  obtain ⟨m0, m1, m2, m3, _, _, _, _, _, _, _, hbc, _, _, _, _, c0, c1, c2, c3⟩ :=
    v4Net_four _ _ _ _ (decVal n) la lb lc ld
  have hrec := ParseCIDR_v4 _ _ _ h1 h32 hp
  have hpos := Nat.two_pow_pos (32 - decVal n)
  refine ⟨IPToInt (v4Net [decVal a, decVal b, decVal c, decVal d] (decVal n)).IP,
    IPToInt (orNotMask (v4Net [decVal a, decVal b, decVal c, decVal d] (decVal n)).IP
      (v4Net [decVal a, decVal b, decVal c, decVal d] (decVal n)).Mask), ?_, ?_, ?_, ?_, ?_, ?_, ?_⟩
  · rw [v1, v2]
    omega
  · rw [hbc, IPToInt_four _ _ _ _ c0 c1 c2 c3]
    omega
  · unfold cidrRange
    rw [hrec]
    simp only
    rw [hp]
    rfl
  · rw [hrec]
    exact s1
  · rw [hrec]
    exact s3
  · rw [hrec, v1, v2]
    simp only
    have hcast : ((2 ^ (32 - decVal n) : Nat) : Int) = (2 : Int) ^ (32 - decVal n) := by
      push_cast
      rfl
    rw [← hcast]
    generalize 2 ^ (32 - decVal n) = t at hpos ⊢
    omega
  · rw [hrec, v1]
    simp only
    have hcast : ((2 ^ (32 - decVal n) : Nat) : Int) = (2 : Int) ^ (32 - decVal n) := by
      push_cast
      rfl
    rw [← hcast]
    exact Int.natCast_dvd_natCast.2 (Dvd.intro_left _ rfl)

/-- C19 at `192.168.37.77/20`. -/
theorem C19_count_agrees_with_range_witness :
    ∃ s e : Nat, s ≤ e ∧ e < 2 ^ 32 ∧
      cidrRange (ParseCIDR (dottedCIDR ['1', '9', '2'] ['1', '6', '8'] ['3', '7'] ['7', '7']
        ['2', '0'])) = some ⟨s, e⟩ ∧
      (ParseCIDR (dottedCIDR ['1', '9', '2'] ['1', '6', '8'] ['3', '7'] ['7', '7']
        ['2', '0'])).Network = dottedQuad s ∧
      (ParseCIDR (dottedCIDR ['1', '9', '2'] ['1', '6', '8'] ['3', '7'] ['7', '7']
        ['2', '0'])).Broadcast = dottedQuad e ∧
      (e : Int) - (s : Int) + 1 =
        (ParseCIDR (dottedCIDR ['1', '9', '2'] ['1', '6', '8'] ['3', '7'] ['7', '7']
          ['2', '0'])).TotalIPs ∧
      (ParseCIDR (dottedCIDR ['1', '9', '2'] ['1', '6', '8'] ['3', '7'] ['7', '7']
        ['2', '0'])).TotalIPs ∣ (s : Int) :=
  C19_count_agrees_with_range ['1', '9', '2'] ['1', '6', '8'] ['3', '7'] ['7', '7'] ['2', '0']
    (by decide) (by decide) (by decide) (by decide) (by decide) (by decide)

/-! ## The claim about `CalculateSummary` -/

theorem wrapInt64_add (a b : Int) : wrapInt64 (wrapInt64 a + b) = wrapInt64 (a + b) := by
  unfold wrapInt64
  omega

theorem wrapInt64_of_in (x : Int) (h : InInt64 x) : wrapInt64 x = x := by
  unfold wrapInt64
  unfold InInt64 at h
  omega

theorem foldl_wrap {α : Type} (f : α → Int) (l : List α) (a : Int) :
    l.foldl (fun acc x => wrapInt64 (acc + f x)) (wrapInt64 a) =
      wrapInt64 (a + (l.map f).sum) := by
  induction l generalizing a with
  | nil => simp
  | cons x xs ih =>
    simp only [List.foldl_cons, List.map_cons, List.sum_cons]
    rw [wrapInt64_add, ih (a + f x), Int.add_assoc]

/-- C14, amended: `CalculateSummary` returns `allocatedIPs` = the sum of
`totalIPs` over the valid CIDRs reduced to a signed 64-bit integer (the sums
are sums of Go `int`, which wrap modulo 2 ^ 64), `availableIPs` = the sum of
the gap sizes reduced likewise, `totalIPs` = `allocatedIPs + availableIPs`
reduced likewise, `gapCount` = number of gaps and `overlapCount` = number of
overlaps; each of the three sums is the mathematical sum itself whenever that
sum lies from -2 ^ 63 up to 2 ^ 63 - 1; for three empty lists every field is
0. -/
theorem C14_summary (validCIDRs : List CIDRRange) (gaps : List Gap) (overlaps : List Overlap) :
    (CalculateSummary validCIDRs gaps overlaps).AllocatedIPs =
      wrapInt64 ((validCIDRs.map (fun c => c.TotalIPs)).sum) ∧
    (CalculateSummary validCIDRs gaps overlaps).AvailableIPs =
      wrapInt64 ((gaps.map (fun g => g.Size)).sum) ∧
    (CalculateSummary validCIDRs gaps overlaps).TotalIPs =
      wrapInt64 ((CalculateSummary validCIDRs gaps overlaps).AllocatedIPs +
        (CalculateSummary validCIDRs gaps overlaps).AvailableIPs) ∧
    (CalculateSummary validCIDRs gaps overlaps).GapCount = gaps.length ∧
    (CalculateSummary validCIDRs gaps overlaps).OverlapCount = overlaps.length ∧
    (InInt64 ((validCIDRs.map (fun c => c.TotalIPs)).sum) →
      (CalculateSummary validCIDRs gaps overlaps).AllocatedIPs =
        (validCIDRs.map (fun c => c.TotalIPs)).sum) ∧
    (InInt64 ((gaps.map (fun g => g.Size)).sum) →
      (CalculateSummary validCIDRs gaps overlaps).AvailableIPs =
        (gaps.map (fun g => g.Size)).sum) ∧
    (InInt64 ((CalculateSummary validCIDRs gaps overlaps).AllocatedIPs +
        (CalculateSummary validCIDRs gaps overlaps).AvailableIPs) →
      (CalculateSummary validCIDRs gaps overlaps).TotalIPs =
        (CalculateSummary validCIDRs gaps overlaps).AllocatedIPs +
          (CalculateSummary validCIDRs gaps overlaps).AvailableIPs) ∧
    CalculateSummary [] [] [] = ⟨0, 0, 0, 0, 0⟩ := by
  have h0 : wrapInt64 0 = 0 := by decide
  have hA : (CalculateSummary validCIDRs gaps overlaps).AllocatedIPs =
      wrapInt64 ((validCIDRs.map (fun c => c.TotalIPs)).sum) := by
    have := foldl_wrap (fun c : CIDRRange => c.TotalIPs) validCIDRs 0
    rw [h0, Int.zero_add] at this
    exact this
  have hG : (CalculateSummary validCIDRs gaps overlaps).AvailableIPs =
      wrapInt64 ((gaps.map (fun g => g.Size)).sum) := by
    have := foldl_wrap (fun g : Gap => g.Size) gaps 0
    rw [h0, Int.zero_add] at this
    exact this
  have hT : (CalculateSummary validCIDRs gaps overlaps).TotalIPs =
      wrapInt64 ((CalculateSummary validCIDRs gaps overlaps).AllocatedIPs +
        (CalculateSummary validCIDRs gaps overlaps).AvailableIPs) := rfl
  refine ⟨hA, hG, hT, rfl, rfl, ?_, ?_, ?_, by decide⟩
  · intro h
    rw [hA, wrapInt64_of_in _ h]
  · intro h
    rw [hG, wrapInt64_of_in _ h]
  · intro h
    rw [hT, wrapInt64_of_in _ h]

/-! ## The claim about the analysis pipeline -/

theorem foldl_addTagged (cat : String) (l : List String) (st : List CIDRRange × List CIDRRange) :
    l.foldl (addTagged cat) st =
      (st.1 ++ (l.map (fun s => { ParseCIDR s with Category := cat })).filter (fun c => c.Valid),
       st.2 ++ (l.map (fun s => { ParseCIDR s with Category := cat })).filter
        (fun c => !c.Valid)) := by
  induction l generalizing st with
  | nil => simp
  | cons x xs ih =>
    simp only [List.foldl_cons, List.map_cons]
    rw [ih]
    unfold addTagged
    by_cases hv : (ParseCIDR x).Valid = true
    · simp [hv, List.filter_cons]
    · simp [hv, List.filter_cons]

theorem alreadyProcessed_iff (req : AnalysisRequest) (s : String) :
    alreadyProcessed req s = true ↔ s ∈ req.VPCCIDRs ∨ s ∈ req.SubnetCIDRs := by
  unfold alreadyProcessed
  simp only [Bool.or_eq_true, List.any_eq_true, beq_iff_eq]
  constructor
  · intro h
    rcases h with ⟨x, hx, e⟩ | ⟨x, hx, e⟩
    · exact Or.inl (e ▸ hx)
    · exact Or.inr (e ▸ hx)
  · intro h
    rcases h with h | h
    · exact Or.inl ⟨s, h, rfl⟩
    · exact Or.inr ⟨s, h, rfl⟩

theorem foldl_addLegacy (req : AnalysisRequest) (l : List String)
    (st : List CIDRRange × List CIDRRange) :
    l.foldl (addLegacy req) st =
      (st.1 ++ ((l.filter (fun s => !decide (s ∈ req.VPCCIDRs) &&
          !decide (s ∈ req.SubnetCIDRs))).map ParseCIDR).filter (fun c => c.Valid),
       st.2 ++ ((l.filter (fun s => !decide (s ∈ req.VPCCIDRs) &&
          !decide (s ∈ req.SubnetCIDRs))).map ParseCIDR).filter (fun c => !c.Valid)) := by
  induction l generalizing st with
  | nil => simp
  | cons x xs ih =>
    simp only [List.foldl_cons]
    rw [ih]
    unfold addLegacy
    by_cases hp : alreadyProcessed req x = true
    · have hm := (alreadyProcessed_iff req x).1 hp
      have hf : (!decide (x ∈ req.VPCCIDRs) && !decide (x ∈ req.SubnetCIDRs)) = false := by
        rcases hm with h | h <;> simp [h]
      simp [hp, List.filter_cons, hf]
    · have hm : ¬ (x ∈ req.VPCCIDRs ∨ x ∈ req.SubnetCIDRs) :=
        fun h => hp ((alreadyProcessed_iff req x).2 h)
      have hf : (!decide (x ∈ req.VPCCIDRs) && !decide (x ∈ req.SubnetCIDRs)) = true := by
        have h1 : x ∉ req.VPCCIDRs := fun h => hm (Or.inl h)
        have h2 : x ∉ req.SubnetCIDRs := fun h => hm (Or.inr h)
        simp [h1, h2]
      by_cases hv : (ParseCIDR x).Valid = true
      · simp [hp, List.filter_cons, hf, hv]
      · simp [hp, List.filter_cons, hf, hv]

/-- C16: in `AnalyzeCIDRs`, for every request, the parsed entries are, in the
order vpc, subnet, legacy: each vpc entry parsed and tagged "vpc", each subnet
entry parsed and tagged "subnet", and each legacy entry that is string-equal to
no vpc and no subnet entry, parsed with empty category; the valid list holds
exactly the parsed entries with `valid = true` and the invalid list exactly
those with `valid = false`, both in that order, so every parsed entry is in
exactly one of the two lists. -/
theorem C16_pipeline (req : AnalysisRequest) :
    (AnalyzeCIDRs req).ValidCIDRs = (parsedEntries req).filter (fun c => c.Valid) ∧
    (AnalyzeCIDRs req).InvalidCIDRs = (parsedEntries req).filter (fun c => !c.Valid) ∧
    (∀ s, alreadyProcessed req s = true ↔ s ∈ req.VPCCIDRs ∨ s ∈ req.SubnetCIDRs) ∧
    (∀ s, (ParseCIDR s).Category = "") ∧
    (∀ c ∈ parsedEntries req,
      (c ∈ (AnalyzeCIDRs req).ValidCIDRs ↔ c.Valid = true) ∧
      (c ∈ (AnalyzeCIDRs req).InvalidCIDRs ↔ c.Valid = false)) ∧
    ((AnalyzeCIDRs req).ValidCIDRs.length + (AnalyzeCIDRs req).InvalidCIDRs.length =
      (parsedEntries req).length) := by
  have hV : (AnalyzeCIDRs req).ValidCIDRs = (parsedEntries req).filter (fun c => c.Valid) := by
    show (parseRequest req).1 = _
    unfold parseRequest parsedEntries
    rw [foldl_addLegacy, foldl_addTagged, foldl_addTagged]
    simp [List.filter_append]
  have hI : (AnalyzeCIDRs req).InvalidCIDRs =
      (parsedEntries req).filter (fun c => !c.Valid) := by
    show (parseRequest req).2 = _
    unfold parseRequest parsedEntries
    rw [foldl_addLegacy, foldl_addTagged, foldl_addTagged]
    simp [List.filter_append]
  refine ⟨hV, hI, alreadyProcessed_iff req, ?_, ?_, ?_⟩
  · intro s
    unfold ParseCIDR
    split
    · rfl
    · simp only
      split <;> rfl
  · intro c hc
    rw [hV, hI]
    simp only [List.mem_filter, hc, true_and, Bool.not_eq_true']
  · rw [hV, hI]
    have := List.length_eq_length_filter_add (l := parsedEntries req) (fun c => c.Valid)
    omega

/-- C14 at the two entries `10.0.0.0/24` and `10.0.2.0/24` with their gap:
the allocated count is the sum 256 + 256 of the two `totalIPs`. -/
theorem C14_summary_witness :
    InInt64 (([ParseCIDR "10.0.0.0/24", ParseCIDR "10.0.2.0/24"].map
      (fun c => c.TotalIPs)).sum) ∧
    (CalculateSummary [ParseCIDR "10.0.0.0/24", ParseCIDR "10.0.2.0/24"]
      (FindGaps [ParseCIDR "10.0.0.0/24", ParseCIDR "10.0.2.0/24"]) []).AllocatedIPs =
      ([ParseCIDR "10.0.0.0/24", ParseCIDR "10.0.2.0/24"].map (fun c => c.TotalIPs)).sum :=
  ⟨by decide,
    (C14_summary [ParseCIDR "10.0.0.0/24", ParseCIDR "10.0.2.0/24"]
      (FindGaps [ParseCIDR "10.0.0.0/24", ParseCIDR "10.0.2.0/24"]) []).2.2.2.2.2.1
      (by decide)⟩

/-- C14 as stated fails: `::/66` is marked valid with `totalIPs` = 2 ^ 62, and
for the list of two such entries the sum of `totalIPs` is 2 ^ 63 while
`allocatedIPs` and `totalIPs` of the summary are -2 ^ 63. -/
theorem C14_counterexample :
    (ParseCIDR "::/66").Valid = true ∧
    (ParseCIDR "::/66").TotalIPs = 4611686018427387904 ∧
    ([ParseCIDR "::/66", ParseCIDR "::/66"].map (fun c => c.TotalIPs)).sum =
      9223372036854775808 ∧
    (CalculateSummary [ParseCIDR "::/66", ParseCIDR "::/66"] [] []).AllocatedIPs =
      -9223372036854775808 ∧
    (CalculateSummary [ParseCIDR "::/66", ParseCIDR "::/66"] [] []).TotalIPs =
      -9223372036854775808 ∧
    (CalculateSummary [ParseCIDR "::/66", ParseCIDR "::/66"] [] []).AllocatedIPs ≠
      ([ParseCIDR "::/66", ParseCIDR "::/66"].map (fun c => c.TotalIPs)).sum := by
  decide

/-! ## The claim about `SuggestCIDR` on an aligned block -/

theorem repr_decimal : ∀ m, m ≤ 32 → IsDecimal (Nat.repr m).data ∧ decVal (Nat.repr m).data = m := by
  decide

theorem find_block_bits : ∀ k, k ≤ 31 →
    (List.range 32).find? (fun i => decide (1 <<< i ≥ 2 ^ k)) = some k := by
  decide

theorem shift_mask : ∀ k, k ≤ 31 →
    (0xFFFFFFFF <<< (32 - (32 - k))) % 2 ^ 32 = 2 ^ 32 - 2 ^ k := by
  decide

theorem bytes_of (x : Nat) (hx : x < 2 ^ 32) :
    x / 2 ^ 24 % 256 * 2 ^ 24 + x / 2 ^ 16 % 256 * 2 ^ 16 + x / 2 ^ 8 % 256 * 2 ^ 8 + x % 256 =
      x := by
  omega

/-- The text `SuggestCIDR` prints for an address and a prefix length is the
text `A.B.C.D/N` of the four bytes. -/
theorem suggest_text (x m : Nat) :
    dottedQuad x ++ "/" ++ formatInt m =
      dottedCIDR (ubtoa (x / 2 ^ 24 % 256)) (ubtoa (x / 2 ^ 16 % 256)) (ubtoa (x / 2 ^ 8 % 256))
        (ubtoa (x % 256)) (Nat.repr m).data := by
  apply String.ext
  simp [dottedQuad, dottedCIDR, formatInt, String.data_append]

/-- An aligned block of `2 ^ k` addresses: what `SuggestCIDR` returns for it. -/
theorem suggest_aligned (k start : Nat) (hk : k ≤ 31) (hal : 2 ^ k ∣ start)
    (hend : start + 2 ^ k - 1 ≤ 2 ^ 32 - 1) :
    SuggestCIDR start (start + 2 ^ k - 1) = dottedQuad start ++ "/" ++ formatInt (32 - k) := by
  have hpos := Nat.two_pow_pos k
  have hlt : 2 ^ k < 2 ^ 32 := Nat.pow_lt_pow_right (by omega) (by omega)
  have hstart : start < 2 ^ 32 := by omega
  unfold SuggestCIDR
  have hsize : (start + 2 ^ k - 1 + 2 ^ 32 - start + 1) % 2 ^ 32 = 2 ^ k := by
    have e : start + 2 ^ k - 1 + 2 ^ 32 - start + 1 = 2 ^ k + 2 ^ 32 := by omega
    rw [e, Nat.add_mod_right, Nat.mod_eq_of_lt hlt]
  simp only [hsize, find_block_bits k hk, shift_mask k hk]
  rw [and_high_mask 32 k start (by omega) hstart, Nat.div_mul_cancel hal, IPString_IntToIP]

/-- C17: when the gap is exactly one aligned power-of-two block, the suggestion
is exact: for every `k` in `0..31` and every `start` that is a multiple of
`2^k` with `end = start + 2^k - 1 ≤ 2^32 - 1`, `SuggestCIDR(start, end)` is the
text `start/(32-k)`, a valid CIDR whose range is precisely `[start, end]`. -/
theorem C17_exact_block (k start : Nat) (hk : k ≤ 31) (hal : 2 ^ k ∣ start)
    (hend : start + 2 ^ k - 1 ≤ 2 ^ 32 - 1) :
    SuggestCIDR start (start + 2 ^ k - 1) = dottedQuad start ++ "/" ++ formatInt (32 - k) ∧
    (ParseCIDR (SuggestCIDR start (start + 2 ^ k - 1))).Valid = true ∧
    cidrRange (ParseCIDR (SuggestCIDR start (start + 2 ^ k - 1))) =
      some ⟨start, start + 2 ^ k - 1⟩ := by
  have hpos := Nat.two_pow_pos k
  have hstart : start < 2 ^ 32 := by omega
  have htext := suggest_aligned k start hk hal hend
  rw [htext, suggest_text]
  have o0 := ubtoa_octet (start / 2 ^ 24 % 256) (Nat.mod_lt _ (by omega))
  have o1 := ubtoa_octet (start / 2 ^ 16 % 256) (Nat.mod_lt _ (by omega))
  have o2 := ubtoa_octet (start / 2 ^ 8 % 256) (Nat.mod_lt _ (by omega))
  have o3 := ubtoa_octet (start % 256) (Nat.mod_lt _ (by omega))
  have hrep := repr_decimal (32 - k) (by omega)
  have hp := netParseCIDR_dotted _ _ _ _ _ o0.1 o1.1 o2.1 o3.1 hrep.1 (by rw [hrep.2]; omega)
  rw [o0.2, o1.2, o2.2, o3.2, hrep.2] at hp
  have hrec := ParseCIDR_v4 _ _ (32 - k) (by omega) (by omega) hp
  obtain ⟨v1, v2, _⟩ := v4Net_values (32 - k) _ _ _ _ (by omega)
    (Nat.mod_lt (start / 2 ^ 24) (by omega : 0 < 256))
    (Nat.mod_lt (start / 2 ^ 16) (by omega : 0 < 256))
    (Nat.mod_lt (start / 2 ^ 8) (by omega : 0 < 256)) (Nat.mod_lt start (by omega : 0 < 256))
  have hk32 : 32 - (32 - k) = k := by omega
  rw [bytes_of start hstart, hk32, Nat.div_mul_cancel hal] at v1 v2
  refine ⟨rfl, by rw [hrec], ?_⟩
  unfold cidrRange
  rw [hrec]
  simp only
  rw [hp]
  simp only [Option.map_some', v1, v2, Option.some.injEq, ipRange.mk.injEq, true_and]
  omega

/-- C17 at the gap `10.0.1.0` to `10.0.1.255` (`k = 8`). -/
theorem C17_exact_block_witness :
    SuggestCIDR 167772416 (167772416 + 2 ^ 8 - 1) =
      dottedQuad 167772416 ++ "/" ++ formatInt (32 - 8) ∧
    (ParseCIDR (SuggestCIDR 167772416 (167772416 + 2 ^ 8 - 1))).Valid = true ∧
    cidrRange (ParseCIDR (SuggestCIDR 167772416 (167772416 + 2 ^ 8 - 1))) =
      some ⟨167772416, 167772416 + 2 ^ 8 - 1⟩ :=
  C17_exact_block 8 167772416 (by decide) (by decide) (by decide)

/-! ## Lemmas: the index pairs and the loops of `FindOverlaps` -/

theorem pairWith_mem (kx : Nat × CIDRRange) (ys : List CIDRRange) : ∀ (j : Nat) (p : IndexPair),
    p ∈ pairWith kx j ys → p.1 = kx ∧ j ≤ p.2.1 ∧ ys[p.2.1 - j]? = some p.2.2 := by
  induction ys with
  | nil => intro j p h; simp [pairWith] at h
  | cons y ys ih =>
    intro j p h
    rw [pairWith] at h
    rcases List.mem_cons.1 h with rfl | h
    · simp
    · obtain ⟨h1, h2, h3⟩ := ih (j + 1) p h
      refine ⟨h1, by omega, ?_⟩
      have e : p.2.1 - j = (p.2.1 - (j + 1)) + 1 := by omega
      rw [e, List.getElem?_cons_succ]
      exact h3

theorem pairWith_of_get (kx : Nat × CIDRRange) (ys : List CIDRRange) : ∀ (j i : Nat)
    (c : CIDRRange), ys[i]? = some c → (kx, (j + i, c)) ∈ pairWith kx j ys := by
  induction ys with
  | nil => intro j i c h; simp at h
  | cons y ys ih =>
    intro j i c h
    rw [pairWith]
    cases i with
    | zero =>
      simp only [List.getElem?_cons_zero, Option.some.injEq] at h
      subst h
      simp
    | succ i =>
      simp only [List.getElem?_cons_succ] at h
      have := ih (j + 1) i c h
      have e : j + (i + 1) = j + 1 + i := by omega
      rw [e]
      exact List.mem_cons_of_mem _ this

theorem pairWith_length (kx : Nat × CIDRRange) (ys : List CIDRRange) (j : Nat) :
    (pairWith kx j ys).length = ys.length := by
  induction ys generalizing j with
  | nil => simp [pairWith]
  | cons y ys ih => simp [pairWith, ih]

theorem pairWith_sorted (kx : Nat × CIDRRange) (ys : List CIDRRange) (j : Nat) :
    (pairWith kx j ys).Pairwise LexLt := by
  induction ys generalizing j with
  | nil => simp [pairWith]
  | cons y ys ih =>
    rw [pairWith, List.pairwise_cons]
    refine ⟨?_, ih (j + 1)⟩
    intro q hq
    obtain ⟨h1, h2, _⟩ := pairWith_mem kx ys (j + 1) q hq
    right
    rw [h1]
    exact ⟨rfl, by simpa using h2⟩

/-- Every pair of `indexPairsFrom k xs` is a pair of indices `i < j` (counted
from `k`) with the entries at these indices. -/
theorem indexPairsFrom_mem (xs : List CIDRRange) : ∀ (k : Nat) (p : IndexPair),
    p ∈ indexPairsFrom k xs →
      k ≤ p.1.1 ∧ p.1.1 < p.2.1 ∧ xs[p.1.1 - k]? = some p.1.2 ∧ xs[p.2.1 - k]? = some p.2.2 := by
  induction xs with
  | nil => intro k p h; simp [indexPairsFrom] at h
  | cons x rest ih =>
    intro k p h
    rw [indexPairsFrom] at h
    rcases List.mem_append.1 h with h | h
    · obtain ⟨h1, h2, h3⟩ := pairWith_mem (k, x) rest (k + 1) p h
      rw [h1]
      refine ⟨Nat.le_refl _, by simpa using h2, by simp, ?_⟩
      have e : p.2.1 - k = (p.2.1 - (k + 1)) + 1 := by omega
      rw [e, List.getElem?_cons_succ]
      exact h3
    · obtain ⟨h1, h2, h3, h4⟩ := ih (k + 1) p h
      refine ⟨by omega, h2, ?_, ?_⟩
      · have e : p.1.1 - k = (p.1.1 - (k + 1)) + 1 := by omega
        rw [e, List.getElem?_cons_succ]
        exact h3
      · have e : p.2.1 - k = (p.2.1 - (k + 1)) + 1 := by omega
        rw [e, List.getElem?_cons_succ]
        exact h4

/-- Every pair of indices `i < j` of `xs` is in `indexPairsFrom k xs`. -/
theorem indexPairsFrom_of_get (xs : List CIDRRange) : ∀ (k i j : Nat) (ci cj : CIDRRange),
    i < j → xs[i]? = some ci → xs[j]? = some cj →
      ((k + i, ci), (k + j, cj)) ∈ indexPairsFrom k xs := by
  induction xs with
  | nil => intro k i j ci cj _ h; simp at h
  | cons x rest ih =>
    intro k i j ci cj hij hi hj
    rw [indexPairsFrom]
    apply List.mem_append.2
    cases j with
    | zero => omega
    | succ j =>
      simp only [List.getElem?_cons_succ] at hj
      cases i with
      | zero =>
        simp only [List.getElem?_cons_zero, Option.some.injEq] at hi
        subst hi
        left
        have := pairWith_of_get (k, x) rest (k + 1) j cj hj
        have e : k + (j + 1) = k + 1 + j := by omega
        rw [e]
        exact this
      | succ i =>
        simp only [List.getElem?_cons_succ] at hi
        right
        have := ih (k + 1) i j ci cj (by omega) hi hj
        have e1 : k + (i + 1) = k + 1 + i := by omega
        have e2 : k + (j + 1) = k + 1 + j := by omega
        rw [e1, e2]
        exact this

theorem indexPairsFrom_sorted (xs : List CIDRRange) : ∀ k, (indexPairsFrom k xs).Pairwise LexLt := by
  induction xs with
  | nil => intro k; simp [indexPairsFrom]
  | cons x rest ih =>
    intro k
    rw [indexPairsFrom, List.pairwise_append]
    refine ⟨pairWith_sorted _ _ _, ih (k + 1), ?_⟩
    intro p hp q hq
    obtain ⟨h1, _, _⟩ := pairWith_mem (k, x) rest (k + 1) p hp
    obtain ⟨h2, _, _, _⟩ := indexPairsFrom_mem rest (k + 1) q hq
    left
    rw [h1]
    exact h2

theorem indexPairsFrom_length (xs : List CIDRRange) : ∀ k,
    (indexPairsFrom k xs).length * 2 = xs.length * (xs.length - 1) := by
  induction xs with
  | nil => intro k; simp [indexPairsFrom]
  | cons x rest ih =>
    intro k
    rw [indexPairsFrom, List.length_append, pairWith_length, Nat.add_mul, ih (k + 1)]
    simp only [List.length_cons, Nat.add_sub_cancel]
    cases rest.length with
    | zero => rfl
    | succ m =>
      simp only [Nat.add_sub_cancel]
      ring

/-- The inner loop of `FindOverlaps`: it looks at the pairs of `kx` with `ys`
while the budget lasts. -/
theorem overlapsInner_eq (kx : Nat × CIDRRange) (ys : List CIDRRange) : ∀ (j : Nat)
    (st : Nat × List Overlap),
    overlapsInner kx.2 ys st =
      (st.1 + min ys.length (maxComparisons - st.1),
       st.2 ++ (((pairWith kx j ys).take (maxComparisons - st.1)).filter reported).map
          (fun p => checkOverlap p.1.2 p.2.2)) := by
  induction ys with
  | nil =>
    intro j st
    simp [overlapsInner, pairWith]
  | cons y ys ih =>
    intro j st
    rw [overlapsInner]
    by_cases hlt : st.1 < maxComparisons
    · simp only [hlt, if_true]
      rw [ih (j + 1)]
      have e : maxComparisons - st.1 = (maxComparisons - (st.1 + 1)) + 1 := by omega
      rw [pairWith]
      simp only
      rw [e, List.take_succ_cons, List.filter_cons]
      have hmin : st.1 + 1 + min ys.length (maxComparisons - (st.1 + 1)) =
          st.1 + min (y :: ys).length (maxComparisons - (st.1 + 1) + 1) := by
        simp only [List.length_cons]
        omega
      rw [hmin]
      by_cases hr : (checkOverlap kx.2 y).CIDR1 ≠ ""
      · have hrep : reported (kx, (j, y)) = true := by
          unfold reported
          simpa using hr
        simp only [hr, not_false_eq_true, if_true, hrep, List.map_cons, List.append_assoc,
          List.singleton_append, ne_eq]
      · have hrep : reported (kx, (j, y)) = false := by
          unfold reported
          simpa using hr
        simp only [hr, if_false, hrep, Bool.false_eq_true]
    · simp only [hlt, if_false]
      have e : maxComparisons - st.1 = 0 := by omega
      simp [e]

/-- The outer loop of `FindOverlaps`: it looks at the index pairs in
lexicographic order while the budget lasts. -/
theorem overlapsOuter_eq (xs : List CIDRRange) : ∀ (k : Nat) (st : Nat × List Overlap),
    overlapsOuter xs st =
      (st.1 + min (indexPairsFrom k xs).length (maxComparisons - st.1),
       st.2 ++ (((indexPairsFrom k xs).take (maxComparisons - st.1)).filter reported).map
          (fun p => checkOverlap p.1.2 p.2.2)) := by
  induction xs with
  | nil =>
    intro k st
    simp [overlapsOuter, indexPairsFrom]
  | cons x rest ih =>
    intro k st
    rw [overlapsOuter]
    by_cases hlt : st.1 < maxComparisons
    · simp only [hlt, if_true]
      have hin := overlapsInner_eq (k, x) rest (k + 1) st
      simp only at hin
      rw [hin, ih (k + 1)]
      simp only
      rw [indexPairsFrom, List.take_append_eq_append_take, List.filter_append, List.map_append,
        List.length_append, pairWith_length]
      have hsub : maxComparisons - (st.1 + min rest.length (maxComparisons - st.1)) =
          maxComparisons - st.1 - rest.length := by omega
      rw [hsub]
      refine Prod.ext ?_ ?_
      · simp only
        omega
      · simp only [List.append_assoc]
    · simp only [hlt, if_false]
      have e : maxComparisons - st.1 = 0 := by omega
      simp [e]

/-- `FindOverlaps` is the list of the overlaps `checkOverlap` reports on the
first 1000 index pairs. -/
theorem FindOverlaps_eq (xs : List CIDRRange) :
    FindOverlaps xs =
      (((indexPairs xs).take maxComparisons).filter reported).map
        (fun p => checkOverlap p.1.2 p.2.2) := by
  unfold FindOverlaps indexPairs
  by_cases h : xs.length < 2
  · simp only [h, if_true]
    match xs, h with
    | [], _ => simp [indexPairsFrom]
    | [x], _ => simp [indexPairsFrom, pairWith]
  · simp only [h, if_false]
    rw [overlapsOuter_eq xs 0 (0, [])]
    simp

theorem checkOverlap_names (c1 c2 : CIDRRange) (h : (checkOverlap c1 c2).CIDR1 ≠ "") :
    (checkOverlap c1 c2).CIDR1 = c1.Original ∧ (checkOverlap c1 c2).CIDR2 = c2.Original := by
  unfold checkOverlap at h ⊢
  rcases h1 : netParseCIDR c1.Original with _ | n1
  · simp [h1] at h
  · rcases h2 : netParseCIDR c2.Original with _ | n2
    · simp [h1, h2] at h
    · simp only [h1, h2] at h ⊢
      by_cases hc : (Contains n1 n2.IP || Contains n2 n1.IP) = true
      · simp only [hc, if_true, and_self]
      · simp [hc] at h

/-- Two valid IPv4 entries whose ranges share an address are reported by
`checkOverlap`. -/
theorem reported_of_intersect (c1 c2 : CIDRRange) (h1 : IsValidIPv4 c1) (h2 : IsValidIPv4 c2)
    (r1 r2 : ipRange) (x : Nat) (hr1 : cidrRange c1 = some r1) (hr2 : cidrRange c2 = some r2)
    (hx1 : r1.Covers x) (hx2 : r2.Covers x) : (checkOverlap c1 c2).CIDR1 ≠ "" := by
  obtain ⟨r1', r2', net1, net2, k1, k2, q1, q2, hr1', hr2', hp1, hp2, s1, e1, s2, e2, hc12, hc21,
    hne⟩ := checkOverlap_v4 c1 c2 h1 h2
  rw [hr1] at hr1'
  rw [hr2] at hr2'
  have e1' : r1 = r1' := Option.some.inj hr1'
  have e2' : r2 = r2' := Option.some.inj hr2'
  subst e1' e2'
  unfold ipRange.Covers at hx1 hx2
  have hor : Contains net1 net2.IP = true ∨ Contains net2 net1.IP = true := by
    rcases Nat.le_total r1.start r2.start with h | h
    · exact Or.inl (hc12.2 ⟨h, by omega⟩)
    · exact Or.inr (hc21.2 ⟨h, by omega⟩)
  unfold checkOverlap
  rw [hp1, hp2]
  simp only
  have hc : (Contains net1 net2.IP || Contains net2 net1.IP) = true :=
    Bool.or_eq_true_iff.2 hor
  simp only [hc, if_true]
  exact hne

/-! ## The claims about `FindOverlaps` -/

/-- C11: for every input list `xs`, the overlaps returned by `FindOverlaps(xs)`
come, in this order, from a list of index pairs `(i, j)`, `i < j`, that is
ascending in the lexicographic order; each overlap has `cidr1 = xs[i].Original`
and `cidr2 = xs[j].Original`. -/
theorem C11_overlap_order (xs : List CIDRRange) :
    ∃ ps : List IndexPair, ps.Pairwise LexLt ∧
      (∀ p ∈ ps, p.1.1 < p.2.1 ∧ xs[p.1.1]? = some p.1.2 ∧ xs[p.2.1]? = some p.2.2) ∧
      FindOverlaps xs = ps.map (fun p => checkOverlap p.1.2 p.2.2) ∧
      (∀ p ∈ ps, (checkOverlap p.1.2 p.2.2).CIDR1 = p.1.2.Original ∧
        (checkOverlap p.1.2 p.2.2).CIDR2 = p.2.2.Original) := by
  refine ⟨((indexPairs xs).take maxComparisons).filter reported, ?_, ?_, FindOverlaps_eq xs, ?_⟩
  · exact List.Pairwise.sublist
      ((List.filter_sublist _).trans (List.take_sublist _ _)) (indexPairsFrom_sorted xs 0)
  · intro p hp
    have hm : p ∈ indexPairsFrom 0 xs := List.mem_of_mem_take (List.mem_filter.1 hp).1
    obtain ⟨_, h2, h3, h4⟩ := indexPairsFrom_mem xs 0 p hm
    exact ⟨h2, by simpa using h3, by simpa using h4⟩
  · intro p hp
    have hr : reported p = true := (List.mem_filter.1 hp).2
    unfold reported at hr
    exact checkOverlap_names _ _ (by simpa using hr)

/-- C12: `FindOverlaps` evaluates exactly the first `min(1000, n(n-1)/2)` index
pairs `(i, j)`, `i < j`, in ascending lexicographic order: its result is the
list of the overlaps `checkOverlap` reports on those pairs, so it has at most
1000 entries; and for every input of `n ≤ 45` entries every pair that
`checkOverlap` reports, in particular every pair of valid IPv4 entries whose
ranges share an address, is in the result. -/
theorem C12_budget (xs : List CIDRRange) :
    FindOverlaps xs =
      (((indexPairs xs).take 1000).filter reported).map (fun p => checkOverlap p.1.2 p.2.2) ∧
    (indexPairs xs).Pairwise LexLt ∧
    (∀ p : IndexPair, p ∈ indexPairs xs ↔
      p.1.1 < p.2.1 ∧ xs[p.1.1]? = some p.1.2 ∧ xs[p.2.1]? = some p.2.2) ∧
    (indexPairs xs).length = xs.length * (xs.length - 1) / 2 ∧
    ((indexPairs xs).take 1000).length = min 1000 (xs.length * (xs.length - 1) / 2) ∧
    (FindOverlaps xs).length ≤ 1000 ∧
    (xs.length ≤ 45 → ∀ (i j : Nat) (ci cj : CIDRRange), i < j → xs[i]? = some ci → xs[j]? = some cj →
      (checkOverlap ci cj).CIDR1 ≠ "" → checkOverlap ci cj ∈ FindOverlaps xs) ∧
    (xs.length ≤ 45 → ∀ (i j : Nat) (ci cj : CIDRRange), i < j → xs[i]? = some ci → xs[j]? = some cj →
      IsValidIPv4 ci → IsValidIPv4 cj →
      (∃ r1 r2 x, cidrRange ci = some r1 ∧ cidrRange cj = some r2 ∧ r1.Covers x ∧
        r2.Covers x) →
      checkOverlap ci cj ∈ FindOverlaps xs) := by
  have hlen2 := indexPairsFrom_length xs 0
  have hlen : (indexPairs xs).length = xs.length * (xs.length - 1) / 2 := by
    unfold indexPairs
    omega
  have hmem : ∀ p : IndexPair, p ∈ indexPairs xs ↔
      p.1.1 < p.2.1 ∧ xs[p.1.1]? = some p.1.2 ∧ xs[p.2.1]? = some p.2.2 := by
    intro p
    constructor
    · intro hm
      obtain ⟨_, h2, h3, h4⟩ := indexPairsFrom_mem xs 0 p hm
      exact ⟨h2, by simpa using h3, by simpa using h4⟩
    · intro ⟨h1, h2, h3⟩
      have := indexPairsFrom_of_get xs 0 p.1.1 p.2.1 p.1.2 p.2.2 h1 h2 h3
      simpa [indexPairs] using this
  have hall : xs.length ≤ 45 → ∀ (i j : Nat) (ci cj : CIDRRange), i < j → xs[i]? = some ci → xs[j]? = some cj →
      (checkOverlap ci cj).CIDR1 ≠ "" → checkOverlap ci cj ∈ FindOverlaps xs := by
    intro hn i j ci cj hij hi hj hne
    have hprod : xs.length * (xs.length - 1) ≤ 45 * 44 :=
      Nat.mul_le_mul hn (by omega)
    have htake : (indexPairs xs).take maxComparisons = indexPairs xs := by
      apply List.take_of_length_le
      unfold maxComparisons
      omega
    rw [FindOverlaps_eq, htake]
    apply List.mem_map.2
    refine ⟨((i, ci), (j, cj)), ?_, rfl⟩
    apply List.mem_filter.2
    refine ⟨(hmem _).2 ⟨hij, hi, hj⟩, ?_⟩
    unfold reported
    simpa using hne
  refine ⟨FindOverlaps_eq xs, indexPairsFrom_sorted xs 0, hmem, hlen, ?_, ?_, hall, ?_⟩
  · rw [List.length_take, hlen]
  · rw [FindOverlaps_eq, List.length_map]
    refine le_trans (List.length_filter_le _ _) ?_
    rw [List.length_take]
    exact Nat.min_le_left _ _
  · intro hn i j ci cj hij hi hj v1 v2 ⟨r1, r2, x, hr1, hr2, hx1, hx2⟩
    exact hall hn i j ci cj hij hi hj (reported_of_intersect ci cj v1 v2 r1 r2 x hr1 hr2 hx1 hx2)

/-! ## Lemmas: the sort of `FindGaps` -/

theorem insertLeft_perm (x : ipRange) (l : List ipRange) : (insertLeft x l).Perm (x :: l) := by
  induction l with
  | nil => simp [insertLeft]
  | cons y ys ih =>
    rw [insertLeft]
    split
    · exact (List.Perm.cons y ih).trans (List.Perm.swap x y ys)
    · exact List.Perm.refl _

theorem insertLeft_sorted (x : ipRange) (l : List ipRange)
    (h : l.Pairwise (fun a b => b.start ≤ a.start)) :
    (insertLeft x l).Pairwise (fun a b => b.start ≤ a.start) := by
  induction l with
  | nil => simp [insertLeft]
  | cons y ys ih =>
    rw [insertLeft]
    obtain ⟨h1, h2⟩ := List.pairwise_cons.1 h
    split
    · rename_i hlt
      apply List.pairwise_cons.2
      refine ⟨?_, ih h2⟩
      intro z hz
      rcases List.mem_cons.1 ((insertLeft_perm x ys).mem_iff.1 hz) with rfl | hz
      · omega
      · exact h1 z hz
    · rename_i hge
      apply List.pairwise_cons.2
      refine ⟨?_, h⟩
      intro z hz
      rcases List.mem_cons.1 hz with rfl | hz
      · omega
      · have := h1 z hz
        omega

theorem foldl_insertLeft (l acc : List ipRange)
    (h : acc.Pairwise (fun a b => b.start ≤ a.start)) :
    (l.foldl (fun acc x => insertLeft x acc) acc).Pairwise (fun a b => b.start ≤ a.start) ∧
    (l.foldl (fun acc x => insertLeft x acc) acc).Perm (l ++ acc) := by
  induction l generalizing acc with
  | nil => exact ⟨h, List.Perm.refl _⟩
  | cons x xs ih =>
    simp only [List.foldl_cons]
    obtain ⟨h1, h2⟩ := ih (insertLeft x acc) (insertLeft_sorted x acc h)
    refine ⟨h1, h2.trans ?_⟩
    have h3 : (xs ++ insertLeft x acc).Perm (xs ++ x :: acc) :=
      List.Perm.append_left xs (insertLeft_perm x acc)
    exact h3.trans (List.perm_middle)

/-- The sort returns a permutation of its input that ascends by start. -/
theorem sortSlice_spec (l : List ipRange) :
    (sortSlice l).Pairwise (fun a b => a.start ≤ b.start) ∧ (sortSlice l).Perm l := by
  unfold sortSlice
  obtain ⟨h1, h2⟩ := foldl_insertLeft l [] List.Pairwise.nil
  refine ⟨List.pairwise_reverse.2 h1, ?_⟩
  rw [List.append_nil] at h2
  exact (List.reverse_perm _).trans h2

/-- In a list that ascends by start and has at most one range that starts at
0, every range after the first starts at 1 or above. -/
theorem sorted_tail_pos (l : List ipRange) (h : l.Pairwise (fun a b => a.start ≤ b.start))
    (h0 : (l.filter (fun r => decide (r.start = 0))).length ≤ 1) :
    l.Pairwise (fun a b => a.start ≤ b.start ∧ 1 ≤ b.start) := by
  induction l with
  | nil => exact List.Pairwise.nil
  | cons a rest ih =>
    obtain ⟨h1, h2⟩ := List.pairwise_cons.1 h
    have hrest : (rest.filter (fun r => decide (r.start = 0))).length ≤ 1 := by
      rw [List.filter_cons] at h0
      split at h0
      · simp only [List.length_cons] at h0
        omega
      · exact h0
    apply List.pairwise_cons.2
    refine ⟨?_, ih h2 hrest⟩
    intro b hb
    refine ⟨h1 b hb, ?_⟩
    by_contra hlt
    have hb0 : b.start = 0 := by omega
    have ha0 : a.start = 0 := by
      have := h1 b hb
      omega
    have hmem : b ∈ rest.filter (fun r => decide (r.start = 0)) :=
      List.mem_filter.2 ⟨hb, by simpa using hb0⟩
    have hpos : 0 < (rest.filter (fun r => decide (r.start = 0))).length :=
      List.length_pos_of_mem hmem
    rw [List.filter_cons] at h0
    simp only [ha0, decide_True, if_true, List.length_cons] at h0
    omega

/-! ## Lemmas: the merge loop of `FindGaps` -/

theorem rangesOf_eq (xs : List CIDRRange) : rangesOf xs = xs.filterMap cidrRange := by
  induction xs with
  | nil => rfl
  | cons c rest ih =>
    rw [rangesOf, List.filterMap_cons, ih]
    unfold cidrRange
    cases netParseCIDR c.Original <;> rfl

theorem mem_rangesOf (xs : List CIDRRange) (r : ipRange) :
    r ∈ rangesOf xs ↔ ∃ c ∈ xs, cidrRange c = some r := by
  rw [rangesOf_eq, List.mem_filterMap]

/-- The range of a valid IPv4 entry runs from its start up to its end, below
`2 ^ 32`. -/
theorem validRange (c : CIDRRange) (h : IsValidIPv4 c) (r : ipRange)
    (hr : cidrRange c = some r) : r.start ≤ r.end_ ∧ r.end_ < 2 ^ 32 := by
  obtain ⟨a, b, c1, d, n, ha, hb, hc, hd, _, hle, hp⟩ := isValidIPv4_net c h
  obtain ⟨e1, e2, _⟩ := v4Net_values n a b c1 d hle ha hb hc hd
  unfold cidrRange at hr
  rw [hp] at hr
  have hr2 := (Option.some.inj hr).symm
  subst hr2
  dsimp only
  rw [e1, e2]
  have hV : a * 2 ^ 24 + b * 2 ^ 16 + c1 * 2 ^ 8 + d < 2 ^ 32 := by omega
  generalize a * 2 ^ 24 + b * 2 ^ 16 + c1 * 2 ^ 8 + d = V at hV ⊢
  have hk : 2 ^ (32 - n) * 2 ^ n = 2 ^ 32 := by
    rw [← pow_add]
    congr 1
    omega
  have hq : V / 2 ^ (32 - n) < 2 ^ n := by
    apply Nat.div_lt_of_lt_mul
    rw [hk]
    exact hV
  have hmul : (V / 2 ^ (32 - n) + 1) * 2 ^ (32 - n) ≤ 2 ^ n * 2 ^ (32 - n) :=
    Nat.mul_le_mul_right _ hq
  rw [Nat.mul_comm (2 ^ n), hk, Nat.add_mul, Nat.one_mul] at hmul
  have hpos := Nat.two_pow_pos (32 - n)
  generalize V / 2 ^ (32 - n) * 2 ^ (32 - n) = t at hmul ⊢
  omega

theorem exists_mem_concat {α : Type} (l : List α) (a : α) (p : α → Prop) :
    (∃ m ∈ l ++ [a], p m) ↔ (∃ m ∈ l, p m) ∨ p a := by
  constructor
  · rintro ⟨m, hm, h⟩
    rcases List.mem_append.1 hm with hm | hm
    · exact Or.inl ⟨m, hm, h⟩
    · rw [List.mem_singleton.1 hm] at h
      exact Or.inr h
  · rintro (⟨m, hm, h⟩ | h)
    · exact ⟨m, List.mem_append_left _ hm, h⟩
    · exact ⟨a, by simp, h⟩

/-- One round of the merge loop keeps the merged list ascending with a free
address between consecutive ranges, and makes it cover the new range too;
the round is exact when the new range does not start at 0 or the merged list
is still empty. -/
theorem mergeStep_inv (M P : List ipRange) (r : ipRange)
    (hpw : M.Pairwise (fun a b => a.end_ + 1 < b.start))
    (hb : ∀ m ∈ M, m.start ≤ m.end_ ∧ m.end_ < 2 ^ 32)
    (hc : ∀ x, (∃ m ∈ M, m.Covers x) ↔ (∃ p ∈ P, p.Covers x))
    (hr : r.start ≤ r.end_ ∧ r.end_ < 2 ^ 32)
    (hs : ∀ m ∈ M, m.start ≤ r.start)
    (hpos : M ≠ [] → 1 ≤ r.start) :
    (mergeStep M r).Pairwise (fun a b => a.end_ + 1 < b.start) ∧
    (∀ m ∈ mergeStep M r, m.start ≤ m.end_ ∧ m.end_ < 2 ^ 32) ∧
    (∀ x, (∃ m ∈ mergeStep M r, m.Covers x) ↔ (∃ p ∈ P ++ [r], p.Covers x)) ∧
    (∀ t, r.start ≤ t → ∀ m ∈ mergeStep M r, m.start ≤ t) ∧
    mergeStep M r ≠ [] := by
  rcases List.eq_nil_or_concat M with rfl | ⟨init, last, hM⟩
  · have e : mergeStep [] r = [r] := rfl
    rw [e]
    refine ⟨List.pairwise_singleton _ _, ?_, ?_, ?_, by simp⟩
    · intro m hm
      rw [List.mem_singleton.1 hm]
      exact hr
    · intro x
      have h1 := exists_mem_concat [] r (fun m => m.Covers x)
      have h2 := exists_mem_concat P r (fun m => m.Covers x)
      have h3 := hc x
      simp only [List.nil_append] at h1
      rw [h1, h2, ← h3]
    · intro t ht m hm
      rw [List.mem_singleton.1 hm]
      exact ht
  · rw [List.concat_eq_append] at hM
    subst hM
    have hlast : (init ++ [last]).getLast? = some last := by simp
    have hdrop : (init ++ [last]).dropLast = init := by simp
    have h1 : 1 ≤ r.start := hpos (by simp)
    have hw : (r.start + 2 ^ 32 - 1) % 2 ^ 32 = r.start - 1 := by omega
    obtain ⟨hpi, -, hcross⟩ := List.pairwise_append.1 hpw
    have hcross1 : ∀ a ∈ init, a.end_ + 1 < last.start :=
      fun a ha => hcross a ha last (by simp)
    have hbl := hb last (by simp)
    have hsl := hs last (by simp)
    have hbi : ∀ m ∈ init, m.start ≤ m.end_ ∧ m.end_ < 2 ^ 32 :=
      fun m hm => hb m (List.mem_append_left _ hm)
    have hsi : ∀ m ∈ init, m.start ≤ r.start :=
      fun m hm => hs m (List.mem_append_left _ hm)
    unfold mergeStep
    rw [hlast]
    simp only [hdrop, hw]
    split_ifs with c1 c2
    · refine ⟨?_, ?_, ?_, ?_, by simp⟩
      · apply List.pairwise_append.2
        refine ⟨hpw, List.pairwise_singleton _ _, ?_⟩
        intro a ha b hb1
        rw [List.mem_singleton.1 hb1]
        rcases List.mem_append.1 ha with ha | ha
        · have := hcross1 a ha
          omega
        · rw [List.mem_singleton.1 ha]
          omega
      · intro m hm
        rcases List.mem_append.1 hm with hm | hm
        · exact hb m hm
        · rw [List.mem_singleton.1 hm]
          exact hr
      · intro x
        rw [exists_mem_concat (init ++ [last]) r, exists_mem_concat P r, hc x]
      · intro t ht m hm
        rcases List.mem_append.1 hm with hm | hm
        · have := hs m hm
          omega
        · rw [List.mem_singleton.1 hm]
          exact ht
    · refine ⟨?_, ?_, ?_, ?_, by simp⟩
      · apply List.pairwise_append.2
        refine ⟨hpi, List.pairwise_singleton _ _, ?_⟩
        intro a ha b hb1
        rw [List.mem_singleton.1 hb1]
        exact hcross1 a ha
      · intro m hm
        rcases List.mem_append.1 hm with hm | hm
        · exact hbi m hm
        · rw [List.mem_singleton.1 hm]
          dsimp only
          omega
      · intro x
        rw [exists_mem_concat init, exists_mem_concat P r, ← hc x, exists_mem_concat init last]
        have hkey : ipRange.Covers { start := last.start, end_ := r.end_ } x ↔
            (last.Covers x ∨ r.Covers x) := by
          unfold ipRange.Covers
          dsimp only
          omega
        rw [hkey]
        exact or_assoc.symm
      · intro t ht m hm
        rcases List.mem_append.1 hm with hm | hm
        · have := hsi m hm
          omega
        · rw [List.mem_singleton.1 hm]
          dsimp only
          omega
    · refine ⟨hpw, hb, ?_, ?_, by simp⟩
      · intro x
        rw [exists_mem_concat P r, ← hc x]
        have hkey : r.Covers x → last.Covers x := by
          unfold ipRange.Covers
          omega
        constructor
        · exact Or.inl
        · rintro (h | h)
          · exact h
          · exact (exists_mem_concat init last _).2 (Or.inr (hkey h))
      · intro t ht m hm
        have := hs m hm
        omega

/-- The merge loop over a list that ascends by start, in which only the first
range may start at 0. -/
theorem mergeFold_inv (rest : List ipRange) :
    ∀ (M P : List ipRange),
      M.Pairwise (fun a b => a.end_ + 1 < b.start) →
      (∀ m ∈ M, m.start ≤ m.end_ ∧ m.end_ < 2 ^ 32) →
      (∀ x, (∃ m ∈ M, m.Covers x) ↔ (∃ p ∈ P, p.Covers x)) →
      (∀ m ∈ M, ∀ r ∈ rest, m.start ≤ r.start) →
      (M ≠ [] → ∀ r ∈ rest, 1 ≤ r.start) →
      rest.Pairwise (fun a b => a.start ≤ b.start ∧ 1 ≤ b.start) →
      (∀ r ∈ rest, r.start ≤ r.end_ ∧ r.end_ < 2 ^ 32) →
      (rest.foldl mergeStep M).Pairwise (fun a b => a.end_ + 1 < b.start) ∧
      (∀ m ∈ rest.foldl mergeStep M, m.start ≤ m.end_ ∧ m.end_ < 2 ^ 32) ∧
      (∀ x, (∃ m ∈ rest.foldl mergeStep M, m.Covers x) ↔ (∃ p ∈ P ++ rest, p.Covers x)) := by
  induction rest with
  | nil =>
    intro M P hpw hb hc _ _ _ _
    rw [List.append_nil]
    exact ⟨hpw, hb, hc⟩
  | cons r rest ih =>
    intro M P hpw hb hc hs hpos hsort hbr
    obtain ⟨hr1, hr2⟩ := List.pairwise_cons.1 hsort
    obtain ⟨g1, g2, g3, g4, g5⟩ := mergeStep_inv M P r hpw hb hc (hbr r (by simp))
      (fun m hm => hs m hm r (by simp)) (fun hne => hpos hne r (by simp))
    have key := ih (mergeStep M r) (P ++ [r]) g1 g2 g3
      (fun m hm t ht => g4 t.start (hr1 t ht).1 m hm)
      (fun _ t ht => (hr1 t ht).2) hr2
      (fun t ht => hbr t (List.mem_cons_of_mem _ ht))
    rw [List.foldl_cons]
    rw [List.append_assoc, List.singleton_append] at key
    exact key

/-- The merged list of `FindGaps` for valid IPv4 entries with at most one
range that starts at 0: ascending, a free address between consecutive
ranges, and covering exactly the allocated addresses. -/
theorem merged_spec (xs : List CIDRRange) (hv : ∀ c ∈ xs, IsValidIPv4 c)
    (h0 : ((rangesOf xs).filter (fun r => decide (r.start = 0))).length ≤ 1) :
    (mergeRanges (sortSlice (rangesOf xs))).Pairwise (fun a b => a.end_ + 1 < b.start) ∧
    (∀ m ∈ mergeRanges (sortSlice (rangesOf xs)), m.start ≤ m.end_ ∧ m.end_ < 2 ^ 32) ∧
    (∀ x, (∃ m ∈ mergeRanges (sortSlice (rangesOf xs)), m.Covers x) ↔ Allocated xs x) := by
  obtain ⟨hsorted, hperm⟩ := sortSlice_spec (rangesOf xs)
  have h0s : ((sortSlice (rangesOf xs)).filter (fun r => decide (r.start = 0))).length ≤ 1 := by
    rw [(hperm.filter _).length_eq]
    exact h0
  have hpos := sorted_tail_pos _ hsorted h0s
  have hbr : ∀ r ∈ sortSlice (rangesOf xs), r.start ≤ r.end_ ∧ r.end_ < 2 ^ 32 := by
    intro r hr
    obtain ⟨c, hc, hcr⟩ := (mem_rangesOf xs r).1 (hperm.mem_iff.1 hr)
    exact validRange c (hv c hc) r hcr
  obtain ⟨k1, k2, k3⟩ := mergeFold_inv (sortSlice (rangesOf xs)) [] [] List.Pairwise.nil
    (by simp) (by simp) (by simp) (by simp) hpos hbr
  refine ⟨k1, k2, ?_⟩
  intro x
  have k3x := k3 x
  rw [List.nil_append] at k3x
  unfold mergeRanges
  rw [k3x]
  unfold Allocated
  constructor
  · rintro ⟨p, hp, hpx⟩
    obtain ⟨c, hc, hcr⟩ := (mem_rangesOf xs p).1 (hperm.mem_iff.1 hp)
    exact ⟨c, hc, p, hcr, hpx⟩
  · rintro ⟨c, hc, p, hcr, hpx⟩
    exact ⟨p, hperm.mem_iff.2 ((mem_rangesOf xs p).2 ⟨c, hc, hcr⟩), hpx⟩

/-! ## Lemmas: the gap loop of `FindGaps` -/

/-- Over a merged list the gap loop reports the space between every two
consecutive ranges. -/
theorem gapLoop_eq (M : List ipRange)
    (hpw : M.Pairwise (fun a b => a.end_ + 1 < b.start))
    (hb : ∀ m ∈ M, m.start ≤ m.end_ ∧ m.end_ < 2 ^ 32) :
    gapLoop M = (gapsBetween M).map gapOf := by
  induction M with
  | nil => rfl
  | cons a t ih =>
    cases t with
    | nil => rfl
    | cons b rest =>
      obtain ⟨h1, h2⟩ := List.pairwise_cons.1 hpw
      have hab := h1 b (by simp)
      have hbb := hb b (by simp)
      have e1 : (a.end_ + 1) % 2 ^ 32 = a.end_ + 1 := by omega
      have e2 : (b.start + 2 ^ 32 - 1) % 2 ^ 32 = b.start - 1 := by omega
      have e3 : (b.start - 1 + 2 ^ 32 - (a.end_ + 1) + 1) % 2 ^ 32 =
          b.start - 1 - (a.end_ + 1) + 1 := by omega
      have hle : a.end_ + 1 ≤ b.start - 1 := by omega
      rw [gapLoop, gapsBetween, List.map_cons,
        ← ih h2 (fun m hm => hb m (List.mem_cons_of_mem _ hm))]
      simp only [e1, e2, e3, hle, if_true, IPString_IntToIP]
      rfl

/-- The spaces between the ranges of a merged list: each is a non-empty run
with a covered address right before and right after it, they ascend with a
covered address between any two, and they hold exactly the uncovered
addresses that have a covered address on both sides. -/
theorem gapsBetween_spec (M : List ipRange)
    (hpw : M.Pairwise (fun a b => a.end_ + 1 < b.start))
    (hb : ∀ m ∈ M, m.start ≤ m.end_ ∧ m.end_ < 2 ^ 32) :
    (∀ g ∈ gapsBetween M, 1 ≤ g.start ∧ g.start ≤ g.end_ ∧ g.end_ + 1 < 2 ^ 32 ∧
      (∃ m ∈ M, m.Covers (g.start - 1)) ∧ (∃ m ∈ M, m.Covers (g.end_ + 1)) ∧
      (∀ a t, M = a :: t → a.end_ < g.start)) ∧
    (gapsBetween M).Pairwise (fun g h => g.end_ + 1 < h.start) ∧
    (∀ x, (∃ g ∈ gapsBetween M, g.Covers x) ↔
      (¬ (∃ m ∈ M, m.Covers x) ∧ (∃ y, y < x ∧ ∃ m ∈ M, m.Covers y) ∧
        (∃ z, x < z ∧ ∃ m ∈ M, m.Covers z))) := by
  induction M with
  | nil =>
    refine ⟨by simp [gapsBetween], by simp [gapsBetween], ?_⟩
    intro x
    simp [gapsBetween]
  | cons a t ih =>
    cases t with
    | nil =>
      refine ⟨by simp [gapsBetween], by simp [gapsBetween], ?_⟩
      intro x
      constructor
      · rintro ⟨g, hg, -⟩
        simp [gapsBetween] at hg
      · rintro ⟨hn, ⟨y, hy, m, hm, hmy⟩, ⟨z, hz, n, hn1, hnz⟩⟩
        exfalso
        rw [List.mem_singleton.1 hm] at hmy
        rw [List.mem_singleton.1 hn1] at hnz
        have h1 : a.start ≤ y ∧ y ≤ a.end_ := hmy
        have h2 : a.start ≤ z ∧ z ≤ a.end_ := hnz
        apply hn
        refine ⟨a, by simp, ?_⟩
        show a.start ≤ x ∧ x ≤ a.end_
        omega
    | cons b rest =>
      obtain ⟨h1, h2⟩ := List.pairwise_cons.1 hpw
      obtain ⟨h3, -⟩ := List.pairwise_cons.1 h2
      obtain ⟨ih1, ih2, ih3⟩ := ih h2 (fun m hm => hb m (List.mem_cons_of_mem _ hm))
      have hab := h1 b (by simp)
      have hba := hb a (by simp)
      have hbb := hb b (by simp)
      have hafter : ∀ m ∈ b :: rest, b.start ≤ m.start := by
        intro m hm
        rcases List.mem_cons.1 hm with rfl | hm
        · exact Nat.le_refl _
        · have := h3 m hm
          omega
      have e : gapsBetween (a :: b :: rest) =
          ⟨a.end_ + 1, b.start - 1⟩ :: gapsBetween (b :: rest) := rfl
      rw [e]
      refine ⟨?_, ?_, ?_⟩
      · intro g hg
        rcases List.mem_cons.1 hg with rfl | hg
        · dsimp only
          refine ⟨by omega, by omega, by omega, ⟨a, by simp, ?_⟩, ⟨b, by simp, ?_⟩, ?_⟩
          · show a.start ≤ a.end_ + 1 - 1 ∧ a.end_ + 1 - 1 ≤ a.end_
            omega
          · show b.start ≤ b.start - 1 + 1 ∧ b.start - 1 + 1 ≤ b.end_
            omega
          · intro a1 t1 h
            have ha1 : a = a1 := (List.cons.inj h).1
            rw [← ha1]
            omega
        · obtain ⟨k1, k2, k3, ⟨m, hm, hmc⟩, ⟨n, hn1, hnc⟩, k6⟩ := ih1 g hg
          have k7 := k6 b rest rfl
          refine ⟨k1, k2, k3, ⟨m, List.mem_cons_of_mem _ hm, hmc⟩,
            ⟨n, List.mem_cons_of_mem _ hn1, hnc⟩, ?_⟩
          intro a1 t1 h
          have ha1 : a = a1 := (List.cons.inj h).1
          rw [← ha1]
          omega
      · apply List.pairwise_cons.2
        refine ⟨?_, ih2⟩
        intro h hh
        obtain ⟨-, -, -, -, -, k6⟩ := ih1 h hh
        have k7 := k6 b rest rfl
        dsimp only
        omega
      · intro x
        constructor
        · rintro ⟨g, hg, hgx⟩
          rcases List.mem_cons.1 hg with rfl | hg
          · have hx : a.end_ + 1 ≤ x ∧ x ≤ b.start - 1 := hgx
            refine ⟨?_, ⟨a.end_, by omega, a, by simp, ?_⟩, ⟨b.start, by omega, b, by simp, ?_⟩⟩
            · rintro ⟨m, hm, hmx⟩
              have hmx1 : m.start ≤ x ∧ x ≤ m.end_ := hmx
              rcases List.mem_cons.1 hm with rfl | hm
              · omega
              · have := hafter m hm
                omega
            · show a.start ≤ a.end_ ∧ a.end_ ≤ a.end_
              omega
            · show b.start ≤ b.start ∧ b.start ≤ b.end_
              omega
          · obtain ⟨hn, ⟨y, hy, m, hm, hmy⟩, ⟨z, hz, n, hn1, hnz⟩⟩ := (ih3 x).1 ⟨g, hg, hgx⟩
            refine ⟨?_, ⟨y, hy, m, List.mem_cons_of_mem _ hm, hmy⟩,
              ⟨z, hz, n, List.mem_cons_of_mem _ hn1, hnz⟩⟩
            rintro ⟨p, hp, hpx⟩
            rcases List.mem_cons.1 hp with rfl | hp
            · have hpx1 : p.start ≤ x ∧ x ≤ p.end_ := hpx
              have hmy1 : m.start ≤ y ∧ y ≤ m.end_ := hmy
              have := hafter m hm
              omega
            · exact hn ⟨p, hp, hpx⟩
        · rintro ⟨hn, ⟨y, hy, m, hm, hmy⟩, ⟨z, hz, n, hn1, hnz⟩⟩
          have hmy1 : m.start ≤ y ∧ y ≤ m.end_ := hmy
          have hnz1 : n.start ≤ z ∧ z ≤ n.end_ := hnz
          have hna : ¬ (a.start ≤ x ∧ x ≤ a.end_) := fun h => hn ⟨a, by simp, h⟩
          have hnb : ¬ (b.start ≤ x ∧ x ≤ b.end_) := fun h => hn ⟨b, by simp, h⟩
          by_cases hx : x < b.start
          · refine ⟨_, List.mem_cons_self _ _, ?_⟩
            show a.end_ + 1 ≤ x ∧ x ≤ b.start - 1
            rcases List.mem_cons.1 hm with rfl | hm
            · omega
            · have := hafter m hm
              omega
          · have hn2 : ¬ (∃ m ∈ b :: rest, m.Covers x) := by
              rintro ⟨p, hp, hpx⟩
              exact hn ⟨p, List.mem_cons_of_mem _ hp, hpx⟩
            have hz2 : ∃ z, x < z ∧ ∃ m ∈ b :: rest, m.Covers z := by
              rcases List.mem_cons.1 hn1 with rfl | hn1
              · omega
              · exact ⟨z, hz, n, hn1, hnz⟩
            have hy2 : ∃ y, y < x ∧ ∃ m ∈ b :: rest, m.Covers y := by
              refine ⟨b.start, by omega, b, by simp, ?_⟩
              show b.start ≤ b.start ∧ b.start ≤ b.end_
              omega
            obtain ⟨g, hg, hgx⟩ := (ih3 x).2 ⟨hn2, hy2, hz2⟩
            exact ⟨g, List.mem_cons_of_mem _ hg, hgx⟩

/-! ## The claims about the gaps `FindGaps` returns -/

/-- C18: for every list of valid IPv4 CIDR entries of which at most one has
network address 0.0.0.0 (its range starts at 0), `FindGaps` returns the records
`gapOf g` of a list `gs` of address runs, in ascending order with an allocated
address between any two of them, such that: every run starts at 1 or above and
is non-empty, its record gives the dotted quads of its first and last address,
a size equal to end - start + 1, which is at least 1, the addresses right
before its start and right after its end are allocated, and an address lies in
some run if and only if it is not allocated and there is an allocated address
below it and one above it. The proof uses of the sort only that it returns a
permutation ascending by start. -/
theorem C18_gaps_exact (xs : List CIDRRange) (hv : ∀ c ∈ xs, IsValidIPv4 c)
    (h0 : ((rangesOf xs).filter (fun r => decide (r.start = 0))).length ≤ 1) :
    ∃ gs : List ipRange,
      FindGaps xs = gs.map gapOf ∧
      gs.Pairwise (fun g h => g.end_ + 1 < h.start) ∧
      (∀ g ∈ gs, 1 ≤ g.start ∧ g.start ≤ g.end_ ∧ g.end_ + 1 < 2 ^ 32 ∧
        (gapOf g).StartIP = dottedQuad g.start ∧ (gapOf g).EndIP = dottedQuad g.end_ ∧
        (gapOf g).Size = (g.end_ : Int) - (g.start : Int) + 1 ∧ 1 ≤ (gapOf g).Size ∧
        Allocated xs (g.start - 1) ∧ Allocated xs (g.end_ + 1)) ∧
      (∀ x, (∃ g ∈ gs, g.Covers x) ↔
        (¬ Allocated xs x ∧ (∃ y, y < x ∧ Allocated xs y) ∧
          (∃ z, x < z ∧ Allocated xs z))) := by
  obtain ⟨m1, m2, m3⟩ := merged_spec xs hv h0
  obtain ⟨g1, g2, g3⟩ := gapsBetween_spec _ m1 m2
  refine ⟨gapsBetween (mergeRanges (sortSlice (rangesOf xs))), ?_, g2, ?_, ?_⟩
  · unfold FindGaps
    split
    · rename_i hlen
      have hnil : xs = [] := List.length_eq_zero.1 hlen
      subst hnil
      rfl
    · exact gapLoop_eq _ m1 m2
  · intro g hg
    obtain ⟨k1, k2, k3, k4, k5, -⟩ := g1 g hg
    refine ⟨k1, k2, k3, rfl, rfl, ?_, ?_, (m3 _).1 k4, (m3 _).1 k5⟩
    · show ((g.end_ - g.start + 1 : Nat) : Int) = (g.end_ : Int) - (g.start : Int) + 1
      omega
    · show 1 ≤ ((g.end_ - g.start + 1 : Nat) : Int)
      omega
  · intro x
    rw [g3 x, m3 x]
    constructor
    · rintro ⟨hn, ⟨y, hy, hay⟩, ⟨z, hz, haz⟩⟩
      exact ⟨hn, ⟨y, hy, (m3 y).1 hay⟩, ⟨z, hz, (m3 z).1 haz⟩⟩
    · rintro ⟨hn, ⟨y, hy, hay⟩, ⟨z, hz, haz⟩⟩
      exact ⟨hn, ⟨y, hy, (m3 y).2 hay⟩, ⟨z, hz, (m3 z).2 haz⟩⟩

/-- C18 at `["10.0.2.0/24", "10.0.0.0/24"]`. -/
theorem C18_gaps_exact_witness :
    ∃ gs : List ipRange,
      FindGaps [ParseCIDR "10.0.2.0/24", ParseCIDR "10.0.0.0/24"] = gs.map gapOf ∧
      gs.Pairwise (fun g h => g.end_ + 1 < h.start) ∧
      (∀ g ∈ gs, 1 ≤ g.start ∧ g.start ≤ g.end_ ∧ g.end_ + 1 < 2 ^ 32 ∧
        (gapOf g).StartIP = dottedQuad g.start ∧ (gapOf g).EndIP = dottedQuad g.end_ ∧
        (gapOf g).Size = (g.end_ : Int) - (g.start : Int) + 1 ∧ 1 ≤ (gapOf g).Size ∧
        Allocated [ParseCIDR "10.0.2.0/24", ParseCIDR "10.0.0.0/24"] (g.start - 1) ∧
        Allocated [ParseCIDR "10.0.2.0/24", ParseCIDR "10.0.0.0/24"] (g.end_ + 1)) ∧
      (∀ x, (∃ g ∈ gs, g.Covers x) ↔
        (¬ Allocated [ParseCIDR "10.0.2.0/24", ParseCIDR "10.0.0.0/24"] x ∧
          (∃ y, y < x ∧ Allocated [ParseCIDR "10.0.2.0/24", ParseCIDR "10.0.0.0/24"] y) ∧
          (∃ z, x < z ∧ Allocated [ParseCIDR "10.0.2.0/24", ParseCIDR "10.0.0.0/24"] z))) :=
  C18_gaps_exact [ParseCIDR "10.0.2.0/24", ParseCIDR "10.0.0.0/24"]
    (List.forall_mem_cons.2
      ⟨⟨by decide, by decide, ⟨[10, 0, 2, 0], [255, 255, 255, 0]⟩, by decide, by decide⟩,
        List.forall_mem_cons.2
          ⟨⟨by decide, by decide, ⟨[10, 0, 0, 0], [255, 255, 255, 0]⟩, by decide, by decide⟩,
            fun _ h => absurd h (List.not_mem_nil _)⟩⟩)
    (by decide)

/-- C20 at the failing input `["0.0.0.0/8", "0.0.0.0/16"]` and its
permutation `["0.0.0.0/16", "0.0.0.0/8"]`: both entries are valid IPv4 CIDR
entries, the two lists are permutations of each other, and `FindGaps` returns
the gap `1.0.0.0` to `255.255.255.255` for the first and the gap `0.1.0.0` to
`255.255.255.255` for the second. -/
theorem C20_failing_input :
    (ParseCIDR "0.0.0.0/8").Valid = true ∧ (ParseCIDR "0.0.0.0/16").Valid = true ∧
    List.Perm [ParseCIDR "0.0.0.0/16", ParseCIDR "0.0.0.0/8"]
      [ParseCIDR "0.0.0.0/8", ParseCIDR "0.0.0.0/16"] ∧
    FindGaps [ParseCIDR "0.0.0.0/8", ParseCIDR "0.0.0.0/16"] =
      [⟨"1.0.0.0", "255.255.255.255", 4278190080, "1.0.0.0/32"⟩] ∧
    FindGaps [ParseCIDR "0.0.0.0/16", ParseCIDR "0.0.0.0/8"] =
      [⟨"0.1.0.0", "255.255.255.255", 4294901760, "0.1.0.0/32"⟩] :=
  ⟨by decide, by decide, List.Perm.swap _ _ _, by decide, by decide⟩

end CidrViewer
